import Mathlib

/-!
# Verification of the jsonc-weaver reconciliation core

Shallow embedding of `src/main.ts` (the `weave` reconciliation algorithm) of the
`jsonc-weaver` repository.

The repository's own code is the reconciliation core: `updateObject`,
`updatePropertyValue`, `shouldPreserveComments`, `updateArray`, `updateNested`,
`removePreviousWhitespaces` and `weave`.  The concrete-syntax-tree (CST) library
`jsonc-morph` is an external collaborator (spec §1 declares it out of scope and
§6 specifies only its interface), so the CST data model and its mutation
primitives below are modelled from the spec:

* a CST container keeps its trivia (whitespace / newline / comment tokens) as
  explicit sibling items interleaved with the semantic children (spec §3, §6,
  glossary: a CST "retains all trivia ... needed to reproduce the original text
  exactly when unmodified");
* primitive nodes are modelled by their decoded values (numbers as integers:
  the reconciler only ever compares decoded numeric values, spec §4.2 "numbers
  compared numerically"); writing an identical primitive value is a no-op
  (spec §4.3: "a no-op in terms of trivia if the decoded value is unchanged and
  the underlying library short-circuits identical writes");
* `ensureMultiline` is a boolean rendering flag on array nodes; freshly built
  arrays default to single-line rendering (spec §4.3 "force multiline
  formatting if non-empty" implies the default is not multiline);
* `insert(index, ...)` places the new property/element immediately next to the
  property/element whose index is given, leaving surrounding trivia in place
  (spec §8 rename test: a comment attached to the removed property stays and
  ends up attached to the renamed property; spec §4.2: "insert the new value
  immediately after the old element, then remove the old element").

The recursion of the source is mutual recursion between the object reconciler,
the array reconciler and the value updater, driven by the target value.  The
embedding makes that recursion structural in an explicit fuel parameter (one
unit of fuel per hop between the mutually recursive procedures); the public
entry point supplies fuel computed from the target, which is larger than the
nesting depth the recursion can reach, and the theorems about recursive
behaviour quantify over any sufficient fuel.
-/

set_option maxHeartbeats 1000000

namespace JsoncWeaver

/-- Plain target values (`JsonValue` of the source): the caller-supplied,
comment-free data value.  Object entries are an ordered list of key/value
pairs, mirroring JavaScript `Object.entries` iteration order. -/
inductive JsonValue where
  | null : JsonValue
  | bool (b : Bool) : JsonValue
  | num (n : Int) : JsonValue
  | str (s : String) : JsonValue
  | arr (elems : List JsonValue) : JsonValue
  | obj (props : List (String × JsonValue)) : JsonValue

/-- Trivia tokens kept by the CST: whitespace runs, newlines, comments. -/
inductive Trivia where
  | ws (s : String) : Trivia
  | nl (s : String) : Trivia
  | comment (s : String) : Trivia
  deriving DecidableEq, Repr

mutual
/-- A CST node (`Node` of `jsonc-morph`, modelled from the spec).  Primitive
nodes carry their decoded value; container nodes carry their children with
interleaved trivia, and array nodes carry the multiline rendering flag. -/
inductive Cst where
  | nullLit : Cst
  | boolLit (b : Bool) : Cst
  | numLit (n : Int) : Cst
  | strLit (s : String) : Cst
  | arr (multiline : Bool) (items : List AItem) : Cst
  | obj (items : List OItem) : Cst

/-- A child of an array CST node: a trivia token or an element. -/
inductive AItem where
  | trivia (t : Trivia) : AItem
  | elem (node : Cst) : AItem

/-- A child of an object CST node: a trivia token or a property. -/
inductive OItem where
  | trivia (t : Trivia) : OItem
  | prop (name : String) (node : Cst) : OItem
end

mutual
/-- Decoded plain value of a CST node (the value the caller's plain-value
parser would produce from the node's text). -/
def decodeC : Cst → JsonValue
  | .nullLit => .null
  | .boolLit b => .bool b
  | .numLit n => .num n
  | .strLit s => .str s
  | .arr _ items => .arr (decodeA items)
  | .obj items => .obj (decodeO items)

/-- Decoded elements of an array CST node, skipping trivia. -/
def decodeA : List AItem → List JsonValue
  | [] => []
  | .trivia _ :: rest => decodeA rest
  | .elem n :: rest => decodeC n :: decodeA rest

/-- Decoded properties of an object CST node, skipping trivia. -/
def decodeO : List OItem → List (String × JsonValue)
  | [] => []
  | .trivia _ :: rest => decodeO rest
  | .prop k n :: rest => (k, decodeC n) :: decodeO rest
end

/-- Property names of an object's children, in order. -/
def oNames : List OItem → List String
  | [] => []
  | .trivia _ :: rest => oNames rest
  | .prop k _ :: rest => k :: oNames rest

/-- Element nodes of an array's children, in order. -/
def aElems : List AItem → List Cst
  | [] => []
  | .trivia _ :: rest => aElems rest
  | .elem n :: rest => n :: aElems rest

/-- Boolean "no duplicates" check on a list of strings. -/
def nodupB : List String → Bool
  | [] => true
  | x :: xs => !(xs.contains x) && nodupB xs

mutual
/-- Well-formedness of a CST: every object's property names are distinct
(spec §3 invariant: "property names are unique within one ObjectNode"). -/
def wfC : Cst → Bool
  | .nullLit => true
  | .boolLit _ => true
  | .numLit _ => true
  | .strLit _ => true
  | .arr _ items => wfA items
  | .obj items => nodupB (oNames items) && wfO items

/-- Well-formedness of array children. -/
def wfA : List AItem → Bool
  | [] => true
  | .trivia _ :: rest => wfA rest
  | .elem n :: rest => wfC n && wfA rest

/-- Well-formedness of object children. -/
def wfO : List OItem → Bool
  | [] => true
  | .trivia _ :: rest => wfO rest
  | .prop _ n :: rest => wfC n && wfO rest
end

mutual
/-- Fresh CST node materializing a plain value (the node the collaborating
library builds when a plain value is inserted / appended / set, spec §6).
Fresh nodes carry no trivia and fresh arrays default to single-line. -/
def buildNode : JsonValue → Cst
  | .null => .nullLit
  | .bool b => .boolLit b
  | .num n => .numLit n
  | .str s => .strLit s
  | .arr ys => .arr false (buildA ys)
  | .obj kvs => .obj (buildO kvs)

/-- Fresh array children for a list of plain values. -/
def buildA : List JsonValue → List AItem
  | [] => []
  | y :: ys => .elem (buildNode y) :: buildA ys

/-- Fresh object children for a list of plain key/value pairs. -/
def buildO : List (String × JsonValue) → List OItem
  | [] => []
  | (k, v) :: kvs => .prop k (buildNode v) :: buildO kvs
end

/-- `ensureMultiline()` of the collaborator: force an array node onto
multiple lines (no-op on non-array nodes). -/
def ensureMultiline : Cst → Cst
  | .arr _ items => .arr true items
  | c => c

/-! ## Working representation of a live container during reconciliation

The source algorithm holds live references to property / element nodes while
it mutates the container (`prop.remove()`, `removeNode(existingElements[idx])`
remove a node *by reference*; `propertyIndex()` asks a reference for its
current position).  The embedding makes reference identity explicit: on entry
the reconciler tags each property/element with a numeric identity, mutates the
tagged list, and strips the tags before returning. -/

/-- A live object property: identity tag, decoded name, value node. -/
structure WProp where
  pid : Nat
  name : String
  node : Cst

/-- A live child of an object node. -/
inductive WOItem where
  | trivia (t : Trivia) : WOItem
  | prop (p : WProp) : WOItem

/-- A live child of an array node. -/
inductive WAItem where
  | trivia (t : Trivia) : WAItem
  | elem (eid : Nat) (node : Cst) : WAItem

/-- Tag object children with property identities `k, k+1, ...`. -/
def tagOGo (k : Nat) : List OItem → List WOItem
  | [] => []
  | .trivia t :: rest => .trivia t :: tagOGo k rest
  | .prop name node :: rest => .prop ⟨k, name, node⟩ :: tagOGo (k + 1) rest

/-- Tag object children with property identities starting at `0`. -/
def tagO (items : List OItem) : List WOItem := tagOGo 0 items

/-- Strip identity tags from object children. -/
def untagO : List WOItem → List OItem
  | [] => []
  | .trivia t :: rest => .trivia t :: untagO rest
  | .prop p :: rest => .prop p.name p.node :: untagO rest

/-- Tag array children with element identities `k, k+1, ...`. -/
def tagAGo (k : Nat) : List AItem → List WAItem
  | [] => []
  | .trivia t :: rest => .trivia t :: tagAGo k rest
  | .elem node :: rest => .elem k node :: tagAGo (k + 1) rest

/-- Tag array children with element identities starting at `0`. -/
def tagA (items : List AItem) : List WAItem := tagAGo 0 items

/-- Strip identity tags from array children. -/
def untagA : List WAItem → List AItem
  | [] => []
  | .trivia t :: rest => .trivia t :: untagA rest
  | .elem _ node :: rest => .elem node :: untagA rest

/-- The property entries of a live object, in order (`properties()`). -/
def wprops : List WOItem → List WProp
  | [] => []
  | .trivia _ :: rest => wprops rest
  | .prop p :: rest => p :: wprops rest

/-- The element entries of a live array, in order (`elements()`). -/
def welems : List WAItem → List (Nat × Cst)
  | [] => []
  | .trivia _ :: rest => welems rest
  | .elem eid node :: rest => (eid, node) :: welems rest

/-- First index satisfying a predicate in the property view. -/
def findIdxP (f : WProp → Bool) : List WProp → Option Nat
  | [] => none
  | p :: rest => if f p then some 0 else (findIdxP f rest).map (· + 1)

/-- `propertyIndex()`: current index of the property with identity `pid`
among the object's properties. -/
def propIndexOf? (pid : Nat) (items : List WOItem) : Option Nat :=
  findIdxP (fun p => p.pid == pid) (wprops items)

/-- Current value node of the property with identity `pid`. -/
def getPropNode (pid : Nat) (items : List WOItem) : Option Cst :=
  ((wprops items).find? (fun p => p.pid == pid)).map (·.node)

/-- Replace the value node of the property with identity `pid` in place. -/
def setPropNode (pid : Nat) (node : Cst) : List WOItem → List WOItem
  | [] => []
  | .trivia t :: rest => .trivia t :: setPropNode pid node rest
  | .prop p :: rest =>
      if p.pid == pid then .prop ⟨p.pid, p.name, node⟩ :: rest
      else .prop p :: setPropNode pid node rest

/-- `prop.remove()`: remove the property with identity `pid` (a no-op when the
referenced property is no longer in the tree). -/
def removePid (pid : Nat) : List WOItem → List WOItem
  | [] => []
  | .trivia t :: rest => .trivia t :: removePid pid rest
  | .prop p :: rest => if p.pid == pid then rest else .prop p :: removePid pid rest

/-- `insert(index, key, value)` on an object (collaborator primitive, modelled
from the spec): the new property becomes the `i`-th property, placed
immediately before the property currently at index `i` (so trivia that
preceded that property keeps preceding position untouched before the new
property); with fewer than `i + 1` properties it is appended at the end. -/
def insertPropAt (i : Nat) (p : WProp) : List WOItem → List WOItem
  | [] => [.prop p]
  | .trivia t :: rest => .trivia t :: insertPropAt i p rest
  | .prop q :: rest =>
      match i with
      | 0 => .prop p :: .prop q :: rest
      | i' + 1 => .prop q :: insertPropAt i' p rest

/-! ## Object reconciler (`updateObject` of the source) -/

/-- JavaScript `Map` insertion: an existing key keeps its position in
iteration order but receives the new value; a new key is appended. -/
def jsMapInsert (m : List (String × Nat)) (k : String) (pid : Nat) : List (String × Nat) :=
  if m.any (fun e => e.1 == k) then
    m.map (fun e => if e.1 == k then (e.1, pid) else e)
  else m ++ [(k, pid)]

/-- `new Map(targetObj.properties().map(prop => [name, prop]))`. -/
def jsMapOf (ps : List WProp) : List (String × Nat) :=
  ps.foldl (fun m p => jsMapInsert m p.name p.pid) []

/-- `if (Array.isArray(value) && value.length > 0)
newProp.valueIfArrayOrThrow().ensureMultiline()`. -/
def forceMultilineIfNewArray (value : JsonValue) (node : Cst) : Cst :=
  match value with
  | .arr (_ :: _) => ensureMultiline node
  | _ => node

/-- Mutable state of one `updateObject` call: the live children, the
`processedKeys` set, the `propsToRemove` set, `insertIndex`, and the next
fresh property identity. -/
structure ObjState where
  items : List WOItem
  processed : List String
  toRemove : List String
  insertIndex : Nat
  nextPid : Nat

/-- Rename-source search of the source: the first snapshot entry whose name is
in `propsToRemove`, not in `processedKeys`, and whose current property index
equals `insertIndex`. -/
def findRenameCandidate (snapMap : List (String × Nat)) (toRemove processed : List String)
    (insertIndex : Nat) (items : List WOItem) : Option (String × Nat) :=
  snapMap.find? (fun e =>
    toRemove.contains e.1 && !(processed.contains e.1) &&
      propIndexOf? e.2 items == some insertIndex)

/-- One iteration of the `for (const [key, value] of Object.entries(newObj))`
loop of `updateObject`, parameterized by the value updater `upd`
(`updatePropertyValue`). -/
def objStep (upd : Cst → JsonValue → Cst) (snapMap : List (String × Nat))
    (st : ObjState) (k : String) (v : JsonValue) : ObjState :=
  let processed := k :: st.processed
  match snapMap.lookup k with
  | some pid =>
      match getPropNode pid st.items with
      | some node =>
          let items := setPropNode pid (upd node v) st.items
          { st with items, processed,
                    insertIndex := (propIndexOf? pid items).getD st.insertIndex + 1 }
      | none => { st with processed }
  | none =>
      match findRenameCandidate snapMap st.toRemove processed st.insertIndex st.items with
      | some (oldKey, opid) =>
          let oldIndex := (propIndexOf? opid st.items).getD st.insertIndex
          let items1 := removePid opid st.items
          let newNode := forceMultilineIfNewArray v (buildNode v)
          let items2 := insertPropAt oldIndex ⟨st.nextPid, k, newNode⟩ items1
          { items := items2, processed := oldKey :: processed,
            toRemove := st.toRemove.erase oldKey,
            insertIndex := oldIndex + 1, nextPid := st.nextPid + 1 }
      | none =>
          let newNode := forceMultilineIfNewArray v (buildNode v)
          let items2 := insertPropAt st.insertIndex ⟨st.nextPid, k, newNode⟩ st.items
          { st with items := items2, processed,
                    insertIndex := st.insertIndex + 1, nextPid := st.nextPid + 1 }

/-- The whole `Object.entries` loop of `updateObject`. -/
def objGo (upd : Cst → JsonValue → Cst) (snapMap : List (String × Nat)) :
    ObjState → List (String × JsonValue) → ObjState
  | st, [] => st
  | st, (k, v) :: rest => objGo upd snapMap (objStep upd snapMap st k v) rest

/-- `updateObject` of the source with the recursive value updater abstracted
as the parameter `upd`: snapshot the properties, compute `propsToRemove`, run
the entries loop, then remove the properties still flagged for removal. -/
def updateObjectCore (upd : Cst → JsonValue → Cst)
    (items : List OItem) (kvs : List (String × JsonValue)) : List OItem :=
  let w := tagO items
  let snapProps := wprops w
  let snapMap := jsMapOf snapProps
  let toRemove0 := (snapMap.map (·.1)).filter (fun k => !(kvs.any (fun e => e.1 == k)))
  let st0 : ObjState := ⟨w, [], toRemove0, 0, snapProps.length⟩
  let st1 := objGo upd snapMap st0 kvs
  let items2 := snapMap.foldl
    (fun its e => if st1.toRemove.contains e.1 then removePid e.2 its else its) st1.items
  untagO items2

/-! ## Array reconciler (`updateArray` of the source) -/

/-- `shouldPreserveComments(node, newValue)` of the source, translated check
by check.  Note the JavaScript quirks faithfully preserved by the last three
object-node lines: `typeof null === "object"` and `typeof [] === "object"`,
so an existing object node is "preserved" against a target `null` or a target
array (the final `typeof newValue === "object" && node.asObject()` check). -/
def shouldPreserveComments (node : Cst) (newValue : JsonValue) : Bool :=
  match newValue, node with
  | .str s, .strLit s2 => s == s2
  | .num n, .numLit n2 => n == n2
  | .bool b, .boolLit b2 => b == b2
  | .null, .nullLit => true
  | .arr _, .arr _ _ => true
  | .null, .obj _ => true
  | .arr _, .obj _ => true
  | .obj _, .obj _ => true
  | _, _ => false

/-- Current node of the element with identity `eid`. -/
def getElemNode (eid : Nat) (items : List WAItem) : Option Cst :=
  ((welems items).find? (fun e => e.1 == eid)).map (·.2)

/-- Replace the node of the element with identity `eid` in place. -/
def setElemNode (eid : Nat) (node : Cst) : List WAItem → List WAItem
  | [] => []
  | .trivia t :: rest => .trivia t :: setElemNode eid node rest
  | .elem e n :: rest =>
      if e == eid then .elem e node :: rest
      else .elem e n :: setElemNode eid node rest

/-- `removeNode(existingElements[idx])`: remove the element with identity
`eid` by reference (a no-op when it is no longer in the tree). -/
def removeEid (eid : Nat) : List WAItem → List WAItem
  | [] => []
  | .trivia t :: rest => .trivia t :: removeEid eid rest
  | .elem e n :: rest => if e == eid then rest else .elem e n :: removeEid eid rest

/-- `insert(idx + 1, value)` on an array while the old element `idx` is still
present: the new element is placed immediately after the old element (spec
§4.2: "insert the new value immediately after the old element, then remove
the old element"); appended at the end when the reference is gone. -/
def insertAfterEid (eid : Nat) (it : WAItem) : List WAItem → List WAItem
  | [] => [it]
  | .trivia t :: rest => .trivia t :: insertAfterEid eid it rest
  | .elem e n :: rest =>
      if e == eid then .elem e n :: it :: rest
      else .elem e n :: insertAfterEid eid it rest

/-- Mutable state of the matching loop of `updateArray`. -/
structure ArrState where
  items : List WAItem
  matched : List Bool
  toReplace : List Nat

/-- The bounded look-ahead of the source: the first position
`j ∈ [i+1, min(i+3, n))` whose element is not yet matched and whose decoded
value should be preserved against `v`. -/
def lookAhead (n i : Nat) (st : ArrState) (v : JsonValue) : Option Nat :=
  (List.range' (i + 1) (min (i + 3) n - (i + 1))).find? (fun j =>
    !(st.matched.getD j false) &&
      shouldPreserveComments ((getElemNode j st.items).getD .nullLit) v)

/-- One iteration of the matching loop of `updateArray`, at target index `i`
with target element `v`, parameterized by the nested updater `nest`
(`updateNested`: `some` plays the role of its `true` return, carrying the
mutation performed in place). -/
def arrStep (nest : Cst → JsonValue → Option Cst) (n i : Nat)
    (st : ArrState) (v : JsonValue) : ArrState :=
  if n ≤ i then { st with items := st.items ++ [.elem i (buildNode v)] }
  else
    let mi := st.matched.getD i false
    let node := (getElemNode i st.items).getD .nullLit
    if !mi && (nest node v).isSome then
      { st with items := setElemNode i ((nest node v).getD node) st.items,
                matched := st.matched.set i true }
    else if !mi && shouldPreserveComments node v then
      { st with matched := st.matched.set i true }
    else
      match lookAhead n i st v with
      | some j =>
          let nj := (getElemNode j st.items).getD .nullLit
          { st with matched := st.matched.set j true,
                    items := setElemNode j ((nest nj v).getD nj) st.items }
      | none =>
          if !mi then
            { st with toReplace := st.toReplace ++ [i], matched := st.matched.set i true }
          else st

/-- The whole matching loop of `updateArray` (`for (let i = 0; ...)`). -/
def arrGo (nest : Cst → JsonValue → Option Cst) (n : Nat) :
    Nat → ArrState → List JsonValue → ArrState
  | _, st, [] => st
  | i, st, v :: rest => arrGo nest n (i + 1) (arrStep nest n i st v) rest

/-- The sibling kinds removed by `removePreviousWhitespaces`: whitespace
tokens, newline tokens, and string literal nodes whose raw value trims to the
empty string (`previous.isWhitespace() || previous.isNewline() ||
previous.asStringLit()?.rawValue().trim() === ""`).  A comment is none of
these and stops the walk. -/
def isRemovableSibling : WAItem → Bool
  | .trivia (.ws _) => true
  | .trivia (.nl _) => true
  | .elem _ (.strLit s) => s.trim == ""
  | _ => false

/-- `removePreviousWhitespaces(node)` acting on the siblings preceding the
node: walk backward from the nearest preceding sibling, removing each
removable one, stopping at the first that is not (the walk from the tail of
the preceding-siblings list is `dropWhile` on its reverse). -/
def removePreviousWhitespaces (before : List WAItem) : List WAItem :=
  (before.reverse.dropWhile isRemovableSibling).reverse

/-- First index satisfying a predicate among array children. -/
def findIdxW (f : WAItem → Bool) : List WAItem → Option Nat
  | [] => none
  | it :: rest => if f it then some 0 else (findIdxW f rest).map (· + 1)

/-- Apply `removePreviousWhitespaces` to the node with identity `eid`:
strip the removable siblings immediately preceding it. -/
def removePreviousWhitespacesAt (eid : Nat) (items : List WAItem) : List WAItem :=
  match findIdxW (fun it =>
      match it with
      | .elem e _ => e == eid
      | _ => false) items with
  | none => items
  | some i => removePreviousWhitespaces (items.take i) ++ items.drop i

/-- Replacement phase of `updateArray`: walk `toReplace` from the last pushed
index down, insert the fresh node right after the old element, strip
preceding whitespace when the snapshot held a single element, then remove the
old element by reference. -/
def applyReplacements (single : Bool) (xs : List JsonValue) (n : Nat)
    (toReplace : List Nat) (items : List WAItem) : List WAItem :=
  toReplace.reverse.foldl (fun its idx =>
    let newEid := n + xs.length + idx
    let its1 := insertAfterEid idx (.elem newEid (buildNode (xs.getD idx .null))) its
    let its2 := if single then removePreviousWhitespacesAt newEid its1 else its1
    removeEid idx its2) items

/-- Final phase of `updateArray`: remove every snapshot element never marked
matched, from the last one down. -/
def removeUnmatched (n : Nat) (matched : List Bool) (items : List WAItem) : List WAItem :=
  (List.range n).reverse.foldl
    (fun its i => if matched.getD i false then its else removeEid i its) items

/-- `updateArray` of the source with the recursive nested updater abstracted
as the parameter `nest`: snapshot the elements, run the matching loop, apply
replacements in reverse order, then remove unmatched elements. -/
def updateArrayCore (nest : Cst → JsonValue → Option Cst)
    (items : List AItem) (xs : List JsonValue) : List AItem :=
  let w := tagA items
  let n := (welems w).length
  let st := arrGo nest n 0 ⟨w, List.replicate n false, []⟩ xs
  let single := n == 1
  let items2 := applyReplacements single xs n st.toReplace st.items
  let items3 := removeUnmatched n st.matched items2
  untagA items3

/-! ## The mutually recursive knot

The source's mutual recursion between `updateObject`, `updatePropertyValue`,
`updateArray` and `updateNested` is driven by the target value; the embedding
makes it structural in a fuel parameter, consuming one unit per hop.  `weave`
supplies more fuel than the recursion can consume (the recursion descends at
least one target constructor every two hops), so the fuel-exhaustion
fallbacks are unreachable from the public entry point. -/

mutual
/-- `updatePropertyValue(prop, value)` of the source, acting on the
property's value node. -/
def updatePropertyValue : Nat → Cst → JsonValue → Cst
  | 0, node, _ => node
  | fuel + 1, node, value =>
    match value with
    | .arr ys =>
        match node with
        | .arr ml its => .arr ml (updateArray fuel its ys)
        | _ =>
            let fresh := buildNode (.arr ys)
            if ys.isEmpty then fresh else ensureMultiline fresh
    | .obj kvs =>
        match node with
        | .obj its => .obj (updateObject fuel its kvs)
        | _ => buildNode (.obj kvs)
    | v => buildNode v

/-- `updateObject(targetObj, newObj)` of the source. -/
def updateObject : Nat → List OItem → List (String × JsonValue) → List OItem
  | 0, items, _ => items
  | fuel + 1, items, kvs => updateObjectCore (updatePropertyValue fuel) items kvs

/-- `updateArray(existingArray, value)` of the source. -/
def updateArray : Nat → List AItem → List JsonValue → List AItem
  | 0, items, _ => items
  | fuel + 1, items, xs => updateArrayCore (updateNested fuel) items xs

/-- `updateNested(element, value)` of the source: `some` carries the in-place
mutation of the matched container, `none` is its `false` return. -/
def updateNested : Nat → Cst → JsonValue → Option Cst
  | 0, _, _ => none
  | fuel + 1, node, value =>
    match value with
    | .obj kvs =>
        match node with
        | .obj its => some (.obj (updateObject fuel its kvs))
        | _ => none
    | .arr ys =>
        match node with
        | .arr ml its => some (.arr ml (updateArray fuel its ys))
        | _ => none
    | _ => none
end

/-! ## The public surface: `weave` -/

mutual
/-- Computable size of a target value, used as the fuel supply for the
mutually recursive knot. -/
def fuelV : JsonValue → Nat
  | .null => 1
  | .bool _ => 1
  | .num _ => 1
  | .str _ => 1
  | .arr ys => 1 + fuelL ys
  | .obj kvs => 1 + fuelP kvs

/-- Size of a list of target values. -/
def fuelL : List JsonValue → Nat
  | [] => 1
  | y :: ys => 1 + fuelV y + fuelL ys

/-- Size of a list of target key/value pairs. -/
def fuelP : List (String × JsonValue) → Nat
  | [] => 1
  | (_, v) :: kvs => 1 + fuelV v + fuelP kvs
end

/-- The type of `weave`'s second argument, `object | JsonValue[]`:
a plain object or an array. -/
inductive WeaveTarget where
  | obj (kvs : List (String × JsonValue)) : WeaveTarget
  | arr (xs : List JsonValue) : WeaveTarget

/-- Errors surfaced by `weave` (spec §7): the root-shape check of
`asArrayOrThrow` / `asObjectOrThrow`. -/
inductive WeaveError where
  | shapeMismatch : WeaveError
  deriving DecidableEq, Repr

/-- `weave(original, modified)` of the source, acting on the parsed CST root:
dispatch on `Array.isArray(modified)`, demand the matching root shape before
touching anything, reconcile in place, and hand the tree back (its rendering
is the returned text). -/
def weave (root : Cst) (modified : WeaveTarget) : Except WeaveError Cst :=
  match modified with
  | .arr xs =>
      match root with
      | .arr ml items => .ok (.arr ml (updateArray (fuelL xs + 2) items xs))
      | _ => .error .shapeMismatch
  | .obj kvs =>
      match root with
      | .obj items => .ok (.obj (updateObject (fuelP kvs + 2) items kvs))
      | _ => .error .shapeMismatch

/-- The document's own content reparsed as a plain value of matching root
shape (`target = parse(D)` of the round-trip property); `none` when the root
is a primitive, which `weave`'s signature does not accept. -/
def decodeTargetOfRoot : Cst → Option WeaveTarget
  | .obj items => some (.obj (decodeO items))
  | .arr _ items => some (.arr (decodeA items))
  | _ => none

/-! ## Rendering (`RootNode.toString()` of the collaborator)

Modelled from the spec: trivia tokens are emitted verbatim where they sit,
separating commas are emitted after every non-final element/property, and the
multiline flag of a fresh (trivia-free) array drives newline separators. -/

/-- Verbatim text of a trivia token. -/
def renderTrivia : Trivia → String
  | .ws s => s
  | .nl s => s
  | .comment s => s

/-- Minimal JSON string escaping for rendering. -/
def escapeChar (c : Char) : String :=
  if c = '"' then "\\\""
  else if c = '\\' then "\\\\"
  else if c = '\n' then "\\n"
  else String.singleton c

/-- Escape a decoded string for rendering. -/
def escapeString (s : String) : String :=
  String.join (s.toList.map escapeChar)

/-- Whether more elements follow (decides the separating comma). -/
def hasElemA : List AItem → Bool
  | [] => false
  | .elem _ :: _ => true
  | .trivia _ :: rest => hasElemA rest

/-- Whether more properties follow (decides the separating comma). -/
def hasPropO : List OItem → Bool
  | [] => false
  | .prop _ _ :: _ => true
  | .trivia _ :: rest => hasPropO rest

mutual
/-- Render a CST node back to text. -/
def render : Cst → String
  | .nullLit => "null"
  | .boolLit b => if b then "true" else "false"
  | .numLit n => toString n
  | .strLit s => "\"" ++ escapeString s ++ "\""
  | .arr ml items =>
      (if ml then "[\n" else "[") ++ renderA ml items ++ (if ml then "\n]" else "]")
  | .obj items => "\x7b" ++ renderO items ++ "\x7d"

/-- Render array children. -/
def renderA (ml : Bool) : List AItem → String
  | [] => ""
  | .trivia t :: rest => renderTrivia t ++ renderA ml rest
  | .elem n :: rest =>
      render n ++ (if hasElemA rest then (if ml then ",\n" else ",") else "") ++ renderA ml rest

/-- Render object children. -/
def renderO : List OItem → String
  | [] => ""
  | .trivia t :: rest => renderTrivia t ++ renderO rest
  | .prop k n :: rest =>
      "\"" ++ escapeString k ++ "\": " ++ render n ++
        (if hasPropO rest then "," else "") ++ renderO rest
end

/-- The `matched` flag list after the first `i` positions have been marked. -/
def mkMatched (n i : Nat) : List Bool :=
  List.replicate i true ++ List.replicate (n - i) false

/-- Whether the root CST kind matches the target's kind (the `asArrayOrThrow`
/ `asObjectOrThrow` dispatch of `weave`). -/
def rootShapeMatches (c : Cst) (t : WeaveTarget) : Bool :=
  match t, c with
  | .arr _, .arr _ _ => true
  | .obj _, .obj _ => true
  | _, _ => false

/-- Whether a node is an array node (`valueIfArray` success). -/
def isArrayNode : Cst → Bool
  | .arr _ _ => true
  | _ => false

/-- First-match in-place node replacement on the property view. -/
def setPropNodeP (pid : Nat) (node : Cst) : List WProp → List WProp
  | [] => []
  | p :: rest =>
      if p.pid == pid then ⟨p.pid, p.name, node⟩ :: rest
      else p :: setPropNodeP pid node rest

/-- First-match removal on the property view. -/
def removePidP (pid : Nat) : List WProp → List WProp
  | [] => []
  | p :: rest => if p.pid == pid then rest else p :: removePidP pid rest

/-- Example document `{ //c  "a": 1, "b": ["x"], "c": {"d": true} }` with
comments, used to witness the round-trip property. -/
def exampleDoc : Cst :=
  .obj [.trivia (.nl "\n"), .trivia (.comment "// c"),
    .prop "a" (.numLit 1), .prop "b" (.arr false [.elem (.strLit "x")]),
    .prop "c" (.obj [.prop "d" (.boolLit true)]), .trivia (.nl "\n")]

/-- Removability of a trivia token for the backward cleanup walk:
whitespace and newline tokens are removable, comments are not. -/
def isRemovableTrivia : Trivia → Bool
  | .ws _ => true
  | .nl _ => true
  | .comment _ => false

/-- The sibling kinds removed by the cleanup walk, on untagged array
children: whitespace, newline, or a string literal element whose raw value
trims to the empty string. -/
def isRemovableA : AItem → Bool
  | .trivia (.ws _) => true
  | .trivia (.nl _) => true
  | .elem (.strLit s) => s.trim == ""
  | _ => false

/-- The trivia tokens of live array children, in order. -/
def triviaW : List WAItem → List Trivia
  | [] => []
  | .trivia t :: rest => t :: triviaW rest
  | .elem _ _ :: rest => triviaW rest

/-- The identity/name view of a property list. -/
def pidNames (ps : List WProp) : List (Nat × String) :=
  ps.map (fun p => (p.pid, p.name))

/-- The original (snapshot-identity) properties visible in a live property
list: identities below the snapshot count `m`. -/
def origView (m : Nat) (ps : List WProp) : List (Nat × String) :=
  (pidNames ps).filter (fun e => decide (e.1 < m))

/-! ## Basic lemmas about the working representation -/

/-- The key/value view of object children (names with value nodes). -/
def propsO : List OItem → List (String × Cst)
  | [] => []
  | .trivia t :: rest => let _ := t; propsO rest
  | .prop k n :: rest => (k, n) :: propsO rest

/-- Expected output node for one target entry, following the spec text of the
object-reconciliation contract ("values converged via the Value Updater"):
when the key already exists in the original object, the Value Updater applied
to the existing slot node; otherwise a freshly built node with the non-empty
new-array multiline forcing applied at the insertion site. -/
def convergeProp (upd : Cst → JsonValue → Cst) (items : List OItem)
    (e : String × JsonValue) : Cst :=
  match (propsO items).lookup e.1 with
  | some nd => upd nd e.2
  | none => forceMultilineIfNewArray e.2 (buildNode e.2)

/-- The trivia tokens of object children, in order. -/
def triviaO : List OItem → List Trivia
  | [] => []
  | .trivia t :: rest => t :: triviaO rest
  | .prop _ _ :: rest => triviaO rest

/-- The trivia tokens of array children, in order. -/
def triviaA : List AItem → List Trivia
  | [] => []
  | .trivia t :: rest => t :: triviaA rest
  | .elem _ :: rest => triviaA rest

theorem untagO_tagOGo (k : Nat) (items : List OItem) : untagO (tagOGo k items) = items := by
  induction items generalizing k with
  | nil => rfl
  | cons it rest ih =>
    cases it with
    | trivia t => simp [tagOGo, untagO, ih]
    | prop name node => simp [tagOGo, untagO, ih]

theorem untagA_tagAGo (k : Nat) (items : List AItem) : untagA (tagAGo k items) = items := by
  induction items generalizing k with
  | nil => rfl
  | cons it rest ih =>
    cases it with
    | trivia t => simp [tagAGo, untagA, ih]
    | elem node => simp [tagAGo, untagA, ih]

theorem wprops_tagOGo_names (k : Nat) (items : List OItem) :
    (wprops (tagOGo k items)).map (fun p => p.name) = oNames items := by
  induction items generalizing k with
  | nil => rfl
  | cons it rest ih =>
    cases it with
    | trivia t => simp [tagOGo, wprops, oNames, ih]
    | prop name node => simp [tagOGo, wprops, oNames, ih]

theorem wprops_tagOGo_pids (k : Nat) (items : List OItem) :
    (wprops (tagOGo k items)).map (fun p => p.pid) = List.range' k (oNames items).length := by
  induction items generalizing k with
  | nil => rfl
  | cons it rest ih =>
    cases it with
    | trivia t => simp [tagOGo, wprops, oNames, ih]
    | prop name node => simp [tagOGo, wprops, oNames, List.range', ih]

theorem wprops_tagOGo_decode (k : Nat) (items : List OItem) :
    (wprops (tagOGo k items)).map (fun p => (p.name, decodeC p.node)) = decodeO items := by
  induction items generalizing k with
  | nil => rfl
  | cons it rest ih =>
    cases it with
    | trivia t => simp [tagOGo, wprops, decodeO, ih]
    | prop name node => simp [tagOGo, wprops, decodeO, ih]

theorem welems_tagAGo_decode (k : Nat) (items : List AItem) :
    (welems (tagAGo k items)).map (fun e => decodeC e.2) = decodeA items := by
  induction items generalizing k with
  | nil => rfl
  | cons it rest ih =>
    cases it with
    | trivia t => simp [tagAGo, welems, decodeA, ih]
    | elem node => simp [tagAGo, welems, decodeA, ih]

theorem welems_tagAGo_eids (k : Nat) (items : List AItem) :
    (welems (tagAGo k items)).map (fun e => e.1) = List.range' k (aElems items).length := by
  induction items generalizing k with
  | nil => rfl
  | cons it rest ih =>
    cases it with
    | trivia t => simp [tagAGo, welems, aElems, ih]
    | elem node => simp [tagAGo, welems, aElems, List.range', ih]

theorem welems_tagAGo_nodes (k : Nat) (items : List AItem) :
    (welems (tagAGo k items)).map (fun e => e.2) = aElems items := by
  induction items generalizing k with
  | nil => rfl
  | cons it rest ih =>
    cases it with
    | trivia t => simp [tagAGo, welems, aElems, ih]
    | elem node => simp [tagAGo, welems, aElems, ih]

theorem nodupB_iff (l : List String) : nodupB l = true ↔ l.Nodup := by
  induction l with
  | nil => simp [nodupB]
  | cons x xs ih => simp [nodupB, ih, List.elem_iff]

theorem decodeO_map_fst (items : List OItem) :
    (decodeO items).map Prod.fst = oNames items := by
  induction items with
  | nil => rfl
  | cons it rest ih =>
    cases it with
    | trivia t => simp [decodeO, oNames, ih]
    | prop k n => simp [decodeO, oNames, ih]

theorem setPropNode_self (pid : Nat) (node : Cst) (items : List WOItem)
    (h : getPropNode pid items = some node) : setPropNode pid node items = items := by
  induction items with
  | nil => simp [getPropNode, wprops] at h
  | cons it rest ih =>
    cases it with
    | trivia t =>
      simp only [getPropNode, wprops] at h
      simp only [setPropNode]
      rw [ih]
      exact h
    | prop p =>
      cases hp : p.pid == pid with
      | true =>
        simp only [getPropNode, wprops, List.find?, hp, Option.map_some] at h
        cases h
        simp [setPropNode, hp]
      | false =>
        simp only [getPropNode, wprops, List.find?, hp] at h
        simp only [setPropNode, hp, Bool.false_eq_true, if_false, List.cons.injEq, true_and]
        rw [ih]
        exact h

theorem find_pid_self (ps : List WProp) (h : (ps.map (fun p => p.pid)).Nodup)
    (p : WProp) (hp : p ∈ ps) : ps.find? (fun q => q.pid == p.pid) = some p := by
  induction ps with
  | nil => simp at hp
  | cons q rest ih =>
    simp only [List.map_cons, List.nodup_cons] at h
    rcases List.mem_cons.mp hp with rfl | hmem
    · simp [List.find?]
    · have hne : (q.pid == p.pid) = false := by
        rw [beq_eq_false_iff_ne]
        intro he
        exact h.1 (he ▸ List.mem_map_of_mem (fun x => x.pid) hmem)
      simp [List.find?, hne, ih h.2 hmem]

theorem getPropNode_of_mem (w : List WOItem)
    (h : ((wprops w).map (fun p => p.pid)).Nodup) (p : WProp) (hp : p ∈ wprops w) :
    getPropNode p.pid w = some p.node := by
  unfold getPropNode
  rw [find_pid_self (wprops w) h p hp]
  rfl

theorem jsMapOf_go (ps : List WProp) (m : List (String × Nat))
    (hd : ∀ p ∈ ps, ∀ e ∈ m, e.1 ≠ p.name) (hn : (ps.map (fun p => p.name)).Nodup) :
    ps.foldl (fun m p => jsMapInsert m p.name p.pid) m
      = m ++ ps.map (fun p => (p.name, p.pid)) := by
  induction ps generalizing m with
  | nil => simp
  | cons p rest ih =>
    simp only [List.foldl_cons]
    have hnew : m.any (fun e => e.1 == p.name) = false := by
      rw [Bool.eq_false_iff]
      intro hc
      rcases List.any_eq_true.mp hc with ⟨e, he, hbe⟩
      exact hd p (List.mem_cons_self p rest) e he (by simpa using hbe)
    simp only [List.map_cons, List.nodup_cons] at hn
    rw [jsMapInsert, hnew]
    simp only [Bool.false_eq_true, if_false]
    rw [ih]
    · simp
    · intro q hq e he
      rcases List.mem_append.mp he with hm | hsingle
      · exact hd q (List.mem_cons_of_mem p hq) e hm
      · simp only [List.mem_singleton] at hsingle
        subst hsingle
        simp only [ne_eq]
        intro hcontra
        apply hn.1
        rw [hcontra]
        exact List.mem_map_of_mem (fun x => x.name) hq
    · exact hn.2

theorem jsMapOf_nodup (ps : List WProp) (hn : (ps.map (fun p => p.name)).Nodup) :
    jsMapOf ps = ps.map (fun p => (p.name, p.pid)) := by
  have := jsMapOf_go ps [] (by intro p hp e he; simp at he) hn
  simpa [jsMapOf] using this

theorem lookup_name_self (ps : List WProp) (hn : (ps.map (fun p => p.name)).Nodup)
    (p : WProp) (hp : p ∈ ps) :
    (ps.map (fun q => (q.name, q.pid))).lookup p.name = some p.pid := by
  induction ps with
  | nil => simp at hp
  | cons q rest ih =>
    simp only [List.map_cons, List.nodup_cons] at hn
    rcases List.mem_cons.mp hp with rfl | hmem
    · simp [List.lookup]
    · have hne : (p.name == q.name) = false := by
        rw [beq_eq_false_iff_ne]
        intro he
        exact hn.1 (he ▸ List.mem_map_of_mem (fun x => x.name) hmem)
      simp [List.lookup, hne, ih hn.2 hmem]

theorem objGo_id (upd : Cst → JsonValue → Cst) (snapMap : List (String × Nat))
    (w : List WOItem) (ps : List WProp) (pr tr : List String) (ii np : Nat)
    (h : ∀ p ∈ ps, snapMap.lookup p.name = some p.pid ∧
      getPropNode p.pid w = some p.node ∧ upd p.node (decodeC p.node) = p.node) :
    objGo upd snapMap ⟨w, pr, tr, ii, np⟩ (ps.map (fun p => (p.name, decodeC p.node)))
      = ⟨w, (objGo upd snapMap ⟨w, pr, tr, ii, np⟩
              (ps.map (fun p => (p.name, decodeC p.node)))).processed, tr,
           (objGo upd snapMap ⟨w, pr, tr, ii, np⟩
              (ps.map (fun p => (p.name, decodeC p.node)))).insertIndex, np⟩ := by
  induction ps generalizing pr ii with
  | nil => rfl
  | cons p rest ih =>
    obtain ⟨h1, h2, h3⟩ := h p (List.mem_cons_self p rest)
    have hstep : objStep upd snapMap ⟨w, pr, tr, ii, np⟩ p.name (decodeC p.node)
        = ⟨w, p.name :: pr, tr, (propIndexOf? p.pid w).getD ii + 1, np⟩ := by
      simp only [objStep, h1, h2]
      rw [h3, setPropNode_self p.pid p.node w h2]
    simp only [List.map_cons, objGo, hstep]
    exact ih _ _ (fun q hq => h q (List.mem_cons_of_mem p hq))

theorem foldl_removePid_nil (m : List (String × Nat)) (its : List WOItem) :
    m.foldl (fun its e => if ([] : List String).contains e.1 then removePid e.2 its else its) its
      = its := by
  induction m generalizing its with
  | nil => rfl
  | cons e rest ih => simp [ih]

theorem tagO_def (items : List OItem) : tagO items = tagOGo 0 items := rfl

theorem tagA_def (items : List AItem) : tagA items = tagAGo 0 items := rfl

theorem updateObjectCore_id (upd : Cst → JsonValue → Cst) (items : List OItem)
    (hnd : nodupB (oNames items) = true)
    (hupd : ∀ p ∈ wprops (tagO items), upd p.node (decodeC p.node) = p.node) :
    updateObjectCore upd items (decodeO items) = items := by
  have hnamesEq : (wprops (tagO items)).map (fun p => p.name) = oNames items :=
    wprops_tagOGo_names 0 items
  have hnames : ((wprops (tagO items)).map (fun p => p.name)).Nodup := by
    rw [hnamesEq]
    exact (nodupB_iff _).mp hnd
  have hpids : ((wprops (tagO items)).map (fun p => p.pid)).Nodup := by
    rw [tagO_def, wprops_tagOGo_pids 0 items]
    exact List.nodup_range' 0 (oNames items).length
  have hmap : jsMapOf (wprops (tagO items))
      = (wprops (tagO items)).map (fun p => (p.name, p.pid)) :=
    jsMapOf_nodup _ hnames
  have hdec : (wprops (tagO items)).map (fun p => (p.name, decodeC p.node)) = decodeO items := by
    rw [tagO_def]
    exact wprops_tagOGo_decode 0 items
  have htr : ((jsMapOf (wprops (tagO items))).map (fun e => e.1)).filter
      (fun k => !((decodeO items).any (fun e => e.1 == k))) = [] := by
    rw [List.filter_eq_nil_iff]
    intro k hk
    rw [hmap, List.map_map] at hk
    have hk2 : k ∈ oNames items := by
      rw [← hnamesEq]
      simpa using hk
    have hany : (decodeO items).any (fun e => e.1 == k) = true := by
      rw [List.any_eq_true]
      have hmem : k ∈ (decodeO items).map Prod.fst := by rw [decodeO_map_fst]; exact hk2
      rcases List.mem_map.mp hmem with ⟨e, he, hfst⟩
      exact ⟨e, he, by simp [hfst]⟩
    simp [hany]
  have hgo := objGo_id upd (jsMapOf (wprops (tagO items))) (tagO items)
    (wprops (tagO items)) [] [] 0 (wprops (tagO items)).length
    (fun p hp => by
      refine ⟨?_, getPropNode_of_mem _ hpids p hp, hupd p hp⟩
      rw [hmap]
      exact lookup_name_self _ hnames p hp)
  rw [hdec] at hgo
  have hgoI : (objGo upd (jsMapOf (wprops (tagO items)))
      ⟨tagO items, [], [], 0, (wprops (tagO items)).length⟩ (decodeO items)).items
      = tagO items := by rw [hgo]
  have hgoT : (objGo upd (jsMapOf (wprops (tagO items)))
      ⟨tagO items, [], [], 0, (wprops (tagO items)).length⟩ (decodeO items)).toRemove
      = [] := by rw [hgo]
  simp only [updateObjectCore, htr, hgoI, hgoT, foldl_removePid_nil]
  rw [tagO_def]
  exact untagO_tagOGo 0 items

theorem setElemNode_self (eid : Nat) (node : Cst) (items : List WAItem)
    (h : getElemNode eid items = some node) : setElemNode eid node items = items := by
  induction items with
  | nil => simp [getElemNode, welems] at h
  | cons it rest ih =>
    cases it with
    | trivia t =>
      simp only [getElemNode, welems] at h
      simp only [setElemNode]
      rw [ih]
      exact h
    | elem e n =>
      cases hp : e == eid with
      | true =>
        simp only [getElemNode, welems, List.find?, hp, Option.map_some] at h
        cases h
        simp [setElemNode, hp]
      | false =>
        simp only [getElemNode, welems, List.find?, hp] at h
        simp only [setElemNode, hp, Bool.false_eq_true, if_false, List.cons.injEq, true_and]
        rw [ih]
        exact h

theorem find_eid_self (es : List (Nat × Cst)) (h : (es.map Prod.fst).Nodup)
    (e : Nat × Cst) (he : e ∈ es) : es.find? (fun q => q.1 == e.1) = some e := by
  induction es with
  | nil => simp at he
  | cons q rest ih =>
    simp only [List.map_cons, List.nodup_cons] at h
    rcases List.mem_cons.mp he with rfl | hmem
    · simp [List.find?]
    · have hne : (q.1 == e.1) = false := by
        rw [beq_eq_false_iff_ne]
        intro hq
        exact h.1 (hq ▸ List.mem_map_of_mem Prod.fst hmem)
      simp [List.find?, hne, ih h.2 hmem]

theorem getElemNode_of_mem (w : List WAItem)
    (h : ((welems w).map Prod.fst).Nodup) (e : Nat × Cst) (he : e ∈ welems w) :
    getElemNode e.1 w = some e.2 := by
  unfold getElemNode
  rw [find_eid_self (welems w) h e he]
  rfl

theorem mkMatched_zero (n : Nat) : mkMatched n 0 = List.replicate n false := by
  simp [mkMatched]

theorem mkMatched_getD (n i j : Nat) (_hin : i ≤ n) :
    (mkMatched n i).getD j false = decide (j < i) := by
  unfold mkMatched
  by_cases hj : j < i
  · rw [List.getD_eq_getElem?_getD, List.getElem?_append_left (by simpa using hj)]
    simp [List.getElem?_replicate, hj]
  · rw [List.getD_eq_getElem?_getD, List.getElem?_append_right (by simpa using Nat.le_of_not_lt hj)]
    simp only [List.length_replicate]
    by_cases hj2 : j - i < n - i
    · simp [List.getElem?_replicate, hj2, hj]
    · rw [List.getElem?_eq_none (by simpa using Nat.le_of_not_lt hj2)]
      simp [hj]

theorem mkMatched_set (n i : Nat) (h : i < n) :
    (mkMatched n i).set i true = mkMatched n (i + 1) := by
  unfold mkMatched
  have hn : n - i = (n - (i + 1)) + 1 := by omega
  rw [hn, List.replicate_succ]
  rw [List.set_append_right _ _ (by simp)]
  simp [List.replicate_succ']

theorem arrGo_id (nest : Cst → JsonValue → Option Cst) (n : Nat) (w : List WAItem)
    (es : List (Nat × Cst)) (i : Nat) (hlen : i + es.length = n)
    (hids : es.map Prod.fst = List.range' i es.length)
    (h : ∀ e ∈ es, getElemNode e.1 w = some e.2 ∧
        (nest e.2 (decodeC e.2) = some e.2 ∨
          (nest e.2 (decodeC e.2) = none ∧
            shouldPreserveComments e.2 (decodeC e.2) = true))) :
    arrGo nest n i ⟨w, mkMatched n i, []⟩ (es.map (fun e => decodeC e.2))
      = ⟨w, mkMatched n n, []⟩ := by
  induction es generalizing i with
  | nil =>
    simp only [List.length_nil] at hlen
    subst hlen
    simp [arrGo]
  | cons e rest ih =>
    obtain ⟨h1, h2⟩ := h e (List.mem_cons_self e rest)
    simp only [List.length_cons, List.map_cons, List.range'] at hlen hids
    obtain ⟨hid, hids2⟩ := List.cons.inj hids
    have hin : i < n := by omega
    have hmi : (mkMatched n i).getD i false = false := by
      rw [mkMatched_getD n i i (Nat.le_of_lt hin)]
      simp
    have hstep : arrStep nest n i ⟨w, mkMatched n i, []⟩ (decodeC e.2)
        = ⟨w, mkMatched n (i + 1), []⟩ := by
      rw [arrStep, if_neg (by omega)]
      simp only [hmi, hid ▸ h1, Option.getD_some, Bool.not_false, Bool.true_and]
      rcases h2 with hsome | ⟨hnone, hpre⟩
      · simp [hsome, setElemNode_self i e.2 w (hid ▸ h1), mkMatched_set n i hin]
      · simp [hnone, hpre, mkMatched_set n i hin]
    simp only [List.map_cons, arrGo, hstep]
    exact ih (i + 1) (by omega) hids2 (fun q hq => h q (List.mem_cons_of_mem e hq))

theorem removeUnmatched_allTrue (n : Nat) (matched : List Bool) (items : List WAItem)
    (h : ∀ i < n, matched.getD i false = true) :
    removeUnmatched n matched items = items := by
  unfold removeUnmatched
  have hgen : ∀ (l : List Nat), (∀ i ∈ l, i < n) → ∀ (its : List WAItem),
      l.foldl (fun its i => if matched.getD i false then its else removeEid i its) its = its := by
    intro l
    induction l with
    | nil => intro _ its; rfl
    | cons j rest ih =>
      intro hl its
      simp only [List.foldl_cons, h j (hl j (List.mem_cons_self j rest)), if_true]
      exact ih (fun q hq => hl q (List.mem_cons_of_mem j hq)) its
  exact hgen _ (fun i hi => by
    have := List.mem_reverse.mp hi
    exact List.mem_range.mp this) items

theorem updateArrayCore_id (nest : Cst → JsonValue → Option Cst) (items : List AItem)
    (hnest : ∀ e ∈ welems (tagA items),
        nest e.2 (decodeC e.2) = some e.2 ∨
          (nest e.2 (decodeC e.2) = none ∧
            shouldPreserveComments e.2 (decodeC e.2) = true)) :
    updateArrayCore nest items (decodeA items) = items := by
  have heids : (welems (tagA items)).map Prod.fst = List.range' 0 (aElems items).length := by
    rw [tagA_def]
    exact welems_tagAGo_eids 0 items
  have hlen : (welems (tagA items)).length = (aElems items).length := by
    have := congrArg List.length heids
    simpa using this
  have hnodup : ((welems (tagA items)).map Prod.fst).Nodup := by
    rw [heids]
    exact List.nodup_range' 0 (aElems items).length
  have hdec : (welems (tagA items)).map (fun e => decodeC e.2) = decodeA items := by
    rw [tagA_def]
    exact welems_tagAGo_decode 0 items
  have hgo := arrGo_id nest (welems (tagA items)).length (tagA items)
    (welems (tagA items)) 0 (by omega) (by rw [heids, hlen])
    (fun e he => ⟨getElemNode_of_mem _ hnodup e he, hnest e he⟩)
  rw [hdec] at hgo
  rw [mkMatched_zero] at hgo
  unfold updateArrayCore
  simp only [hgo]
  have hrep : applyReplacements ((welems (tagA items)).length == 1) (decodeA items)
      (welems (tagA items)).length [] (tagA items) = tagA items := rfl
  rw [hrep]
  rw [removeUnmatched_allTrue _ _ _ (fun i hi => by
    unfold mkMatched
    rw [Nat.sub_self]
    simp only [List.replicate, List.append_nil]
    rw [List.getD_eq_getElem?_getD, List.getElem?_replicate]
    simp [hi])]
  rw [tagA_def]
  exact untagA_tagAGo 0 items

theorem fuelV_pos (v : JsonValue) : 1 ≤ fuelV v := by
  cases v <;> simp only [fuelV] <;> omega

theorem fuelL_pos (xs : List JsonValue) : 1 ≤ fuelL xs := by
  cases xs <;> simp only [fuelL] <;> omega

theorem fuelP_pos (kvs : List (String × JsonValue)) : 1 ≤ fuelP kvs := by
  cases kvs with
  | nil => simp [fuelP]
  | cons e rest => obtain ⟨a, b⟩ := e; simp only [fuelP]; omega

theorem fuelV_le_fuelP (k : String) (v : JsonValue) (kvs : List (String × JsonValue))
    (h : (k, v) ∈ kvs) : fuelV v + 2 ≤ fuelP kvs := by
  induction kvs with
  | nil => simp at h
  | cons e rest ih =>
    obtain ⟨e1, e2⟩ := e
    rcases List.mem_cons.mp h with he | hmem
    · rw [fuelP]
      obtain ⟨rfl, rfl⟩ := Prod.mk.inj he
      have := fuelP_pos rest
      omega
    · rw [fuelP]
      have := ih hmem
      have := fuelV_pos e2
      omega

theorem fuelV_le_fuelL (v : JsonValue) (xs : List JsonValue) (h : v ∈ xs) :
    fuelV v + 2 ≤ fuelL xs := by
  induction xs with
  | nil => simp at h
  | cons y rest ih =>
    rcases List.mem_cons.mp h with he | hmem
    · rw [fuelL]
      cases he
      have := fuelL_pos rest
      omega
    · rw [fuelL]
      have := ih hmem
      have := fuelV_pos y
      omega

theorem wprops_tagOGo_mem (k : Nat) (items : List OItem) (p : WProp)
    (hp : p ∈ wprops (tagOGo k items)) : (p.name, p.node) ∈ propsO items := by
  induction items generalizing k with
  | nil => simp [tagOGo, wprops] at hp
  | cons it rest ih =>
    cases it with
    | trivia t =>
      simp only [tagOGo, wprops] at hp
      simp only [propsO]
      exact ih _ hp
    | prop name node =>
      simp only [tagOGo, wprops, List.mem_cons] at hp
      simp only [propsO, List.mem_cons]
      rcases hp with rfl | hp
      · exact Or.inl rfl
      · exact Or.inr (ih _ hp)

theorem wfO_propsO (items : List OItem) (hwf : wfO items = true) :
    ∀ kn ∈ propsO items, wfC kn.2 = true := by
  induction items with
  | nil => intro kn h; simp [propsO] at h
  | cons it rest ih =>
    cases it with
    | trivia t =>
      intro kn h
      simp only [wfO] at hwf
      simp only [propsO] at h
      exact ih hwf kn h
    | prop name node =>
      intro kn h
      simp only [wfO, Bool.and_eq_true] at hwf
      simp only [propsO, List.mem_cons] at h
      rcases h with rfl | h
      · exact hwf.1
      · exact ih hwf.2 kn h

theorem wfA_aElems (items : List AItem) (hwf : wfA items = true) :
    ∀ n ∈ aElems items, wfC n = true := by
  induction items with
  | nil => intro n h; simp [aElems] at h
  | cons it rest ih =>
    cases it with
    | trivia t =>
      intro n h
      simp only [wfA] at hwf
      simp only [aElems] at h
      exact ih hwf n h
    | elem node =>
      intro n h
      simp only [wfA, Bool.and_eq_true] at hwf
      simp only [aElems, List.mem_cons] at h
      rcases h with rfl | h
      · exact hwf.1
      · exact ih hwf.2 n h

theorem shouldPreserve_decode_self (node : Cst) :
    shouldPreserveComments node (decodeC node) = true := by
  cases node <;> simp [decodeC, shouldPreserveComments]

/-- Identity of the reconciliation knot on a document's own decoded value:
with sufficient fuel, converging a well-formed node to its own decoded value
changes nothing. -/
theorem ident_master (fuel : Nat) :
    (∀ node, wfC node = true → fuelV (decodeC node) + 1 ≤ fuel →
      updatePropertyValue fuel node (decodeC node) = node) ∧
    (∀ items, wfC (Cst.obj items) = true → fuelP (decodeO items) + 1 ≤ fuel →
      updateObject fuel items (decodeO items) = items) ∧
    (∀ items, wfA items = true → fuelL (decodeA items) + 1 ≤ fuel →
      updateArray fuel items (decodeA items) = items) ∧
    (∀ node, wfC node = true → fuelV (decodeC node) + 1 ≤ fuel →
      updateNested fuel node (decodeC node)
        = (match node with
           | Cst.obj its => some (Cst.obj its)
           | Cst.arr ml its => some (Cst.arr ml its)
           | _ => none)) := by
  induction fuel with
  | zero =>
    refine ⟨?_, ?_, ?_, ?_⟩ <;> intro x hwf hb <;> omega
  | succ f ih =>
    obtain ⟨ih1, ih2, ih3, ih4⟩ := ih
    have part2 : ∀ items, wfC (Cst.obj items) = true → fuelP (decodeO items) + 1 ≤ f + 1 →
        updateObject (f + 1) items (decodeO items) = items := by
      intro items hwf hb
      rw [updateObject]
      simp only [wfC, Bool.and_eq_true] at hwf
      refine updateObjectCore_id _ items hwf.1 ?_
      intro p hp
      have hmemP : (p.name, p.node) ∈ propsO items := by
        rw [tagO_def] at hp
        exact wprops_tagOGo_mem 0 items p hp
      have hwfp : wfC p.node = true := wfO_propsO items hwf.2 (p.name, p.node) hmemP
      have hmemD : (p.name, decodeC p.node) ∈ decodeO items := by
        have hb2 : (p.name, decodeC p.node)
            ∈ (wprops (tagO items)).map (fun q => (q.name, decodeC q.node)) :=
          List.mem_map_of_mem _ hp
        rw [tagO_def, wprops_tagOGo_decode 0 items] at hb2
        exact hb2
      have hfb := fuelV_le_fuelP p.name (decodeC p.node) (decodeO items) hmemD
      exact ih1 p.node hwfp (by omega)
    have part3 : ∀ items, wfA items = true → fuelL (decodeA items) + 1 ≤ f + 1 →
        updateArray (f + 1) items (decodeA items) = items := by
      intro items hwf hb
      rw [updateArray]
      refine updateArrayCore_id _ items ?_
      intro e he
      have hmemN : e.2 ∈ aElems items := by
        have hb2 : e.2 ∈ (welems (tagA items)).map (fun q => q.2) :=
          List.mem_map_of_mem _ he
        rw [tagA_def, welems_tagAGo_nodes 0 items] at hb2
        exact hb2
      have hwfe : wfC e.2 = true := wfA_aElems items hwf e.2 hmemN
      have hmemD : decodeC e.2 ∈ decodeA items := by
        have hb2 : decodeC e.2 ∈ (welems (tagA items)).map (fun q => decodeC q.2) :=
          List.mem_map_of_mem _ he
        rw [tagA_def, welems_tagAGo_decode 0 items] at hb2
        exact hb2
      have hfb := fuelV_le_fuelL (decodeC e.2) (decodeA items) hmemD
      have hnest := ih4 e.2 hwfe (by omega)
      cases e2 : e.2 with
      | obj its => rw [e2] at hnest; exact Or.inl hnest
      | arr ml its => rw [e2] at hnest; exact Or.inl hnest
      | nullLit =>
        rw [e2] at hnest
        exact Or.inr ⟨hnest, by rw [← e2]; exact shouldPreserve_decode_self e.2⟩
      | boolLit b =>
        rw [e2] at hnest
        exact Or.inr ⟨hnest, by rw [← e2]; exact shouldPreserve_decode_self e.2⟩
      | numLit nn =>
        rw [e2] at hnest
        exact Or.inr ⟨hnest, by rw [← e2]; exact shouldPreserve_decode_self e.2⟩
      | strLit ss =>
        rw [e2] at hnest
        exact Or.inr ⟨hnest, by rw [← e2]; exact shouldPreserve_decode_self e.2⟩
    refine ⟨?_, part2, part3, ?_⟩
    · intro node hwf hb
      cases node with
      | nullLit => rfl
      | boolLit b => rfl
      | numLit n => rfl
      | strLit s => rfl
      | arr ml its =>
        simp only [wfC] at hwf
        simp only [decodeC, fuelV] at hb
        simp only [decodeC, updatePropertyValue]
        rw [ih3 its hwf (by omega)]
      | obj its =>
        simp only [decodeC, fuelV] at hb
        simp only [decodeC, updatePropertyValue]
        rw [ih2 its hwf (by omega)]
    · intro node hwf hb
      cases node with
      | nullLit => rfl
      | boolLit b => rfl
      | numLit n => rfl
      | strLit s => rfl
      | arr ml its =>
        simp only [wfC] at hwf
        simp only [decodeC, fuelV] at hb
        simp only [decodeC, updateNested]
        rw [ih3 its hwf (by omega)]
      | obj its =>
        simp only [decodeC, fuelV] at hb
        simp only [decodeC, updateNested]
        rw [ih2 its hwf (by omega)]

/-! ## View lemmas: container mutations seen through the property view -/

theorem wprops_setPropNode (pid : Nat) (node : Cst) (items : List WOItem) :
    wprops (setPropNode pid node items) = setPropNodeP pid node (wprops items) := by
  induction items with
  | nil => rfl
  | cons it rest ih =>
    cases it with
    | trivia t => simp [setPropNode, wprops, ih]
    | prop p =>
      by_cases hp : (p.pid == pid) = true
      · simp [setPropNode, wprops, setPropNodeP, hp]
      · rw [Bool.not_eq_true] at hp
        simp [setPropNode, wprops, setPropNodeP, hp, ih]

theorem wprops_removePid (pid : Nat) (items : List WOItem) :
    wprops (removePid pid items) = removePidP pid (wprops items) := by
  induction items with
  | nil => rfl
  | cons it rest ih =>
    cases it with
    | trivia t => simp [removePid, wprops, ih]
    | prop p =>
      by_cases hp : (p.pid == pid) = true
      · simp [removePid, wprops, removePidP, hp]
      · rw [Bool.not_eq_true] at hp
        simp [removePid, wprops, removePidP, hp, ih]

theorem wprops_insertPropAt (i : Nat) (p : WProp) (items : List WOItem) :
    wprops (insertPropAt i p items)
      = (wprops items).take i ++ p :: (wprops items).drop i := by
  induction items generalizing i with
  | nil => simp [insertPropAt, wprops]
  | cons it rest ih =>
    cases it with
    | trivia t => simp [insertPropAt, wprops, ih]
    | prop q =>
      cases i with
      | zero => simp [insertPropAt, wprops]
      | succ i2 => simp [insertPropAt, wprops, ih]

theorem removePidP_take_drop (ps : List WProp) (pid idx : Nat)
    (h : findIdxP (fun p => p.pid == pid) ps = some idx) :
    removePidP pid ps = ps.take idx ++ ps.drop (idx + 1) := by
  induction ps generalizing idx with
  | nil => simp [findIdxP] at h
  | cons q rest ih =>
    by_cases hq : (q.pid == pid) = true
    · rw [findIdxP, if_pos hq] at h
      cases h
      simp [removePidP, hq]
    · rw [Bool.not_eq_true] at hq
      rw [findIdxP, if_neg (by simp [hq])] at h
      rcases Option.map_eq_some'.mp h with ⟨idx2, hfind, hidx⟩
      subst hidx
      simp [removePidP, hq, ih idx2 hfind]

theorem findIdxP_lt_length (ps : List WProp) (f : WProp → Bool) (idx : Nat)
    (h : findIdxP f ps = some idx) : idx < ps.length := by
  induction ps generalizing idx with
  | nil => simp [findIdxP] at h
  | cons q rest ih =>
    by_cases hq : f q = true
    · rw [findIdxP, if_pos hq] at h
      cases h
      simp
    · rw [Bool.not_eq_true] at hq
      rw [findIdxP, if_neg (by simp [hq])] at h
      rcases Option.map_eq_some'.mp h with ⟨idx2, hfind, hidx⟩
      subst hidx
      simp [Nat.succ_lt_succ (ih idx2 hfind)]

/-! ## Trivia preservation lemmas -/

theorem triviaW_append (l1 l2 : List WAItem) :
    triviaW (l1 ++ l2) = triviaW l1 ++ triviaW l2 := by
  induction l1 with
  | nil => rfl
  | cons it rest ih => cases it <;> simp [triviaW, ih]

theorem triviaW_setElemNode (e : Nat) (n : Cst) (l : List WAItem) :
    triviaW (setElemNode e n l) = triviaW l := by
  induction l with
  | nil => rfl
  | cons it rest ih =>
    cases it with
    | trivia t => simp [setElemNode, triviaW, ih]
    | elem e2 n2 =>
      by_cases he : (e2 == e) = true
      · simp [setElemNode, he, triviaW]
      · rw [Bool.not_eq_true] at he
        simp [setElemNode, he, triviaW, ih]

theorem triviaW_removeEid (e : Nat) (l : List WAItem) :
    triviaW (removeEid e l) = triviaW l := by
  induction l with
  | nil => rfl
  | cons it rest ih =>
    cases it with
    | trivia t => simp [removeEid, triviaW, ih]
    | elem e2 n2 =>
      by_cases he : (e2 == e) = true
      · simp [removeEid, he, triviaW]
      · rw [Bool.not_eq_true] at he
        simp [removeEid, he, triviaW, ih]

theorem triviaW_insertAfterEid (e eid2 : Nat) (nd : Cst) (l : List WAItem) :
    triviaW (insertAfterEid e (.elem eid2 nd) l) = triviaW l := by
  induction l with
  | nil => rfl
  | cons it rest ih =>
    cases it with
    | trivia t => simp [insertAfterEid, triviaW, ih]
    | elem e2 n2 =>
      by_cases he : (e2 == e) = true
      · simp [insertAfterEid, he, triviaW]
      · rw [Bool.not_eq_true] at he
        simp [insertAfterEid, he, triviaW, ih]

theorem triviaW_tagAGo (k : Nat) (items : List AItem) :
    triviaW (tagAGo k items) = triviaA items := by
  induction items generalizing k with
  | nil => rfl
  | cons it rest ih => cases it <;> simp [tagAGo, triviaW, triviaA, ih]

theorem triviaA_untagA (l : List WAItem) : triviaA (untagA l) = triviaW l := by
  induction l with
  | nil => rfl
  | cons it rest ih => cases it <;> simp [untagA, triviaA, triviaW, ih]

theorem triviaW_arrStep (nest : Cst → JsonValue → Option Cst) (n i : Nat)
    (st : ArrState) (v : JsonValue) :
    triviaW ((arrStep nest n i st v).items) = triviaW st.items := by
  rw [arrStep]
  split
  · simp [triviaW_append, triviaW]
  · split
    · dsimp only
      split_ifs <;> simp [triviaW_setElemNode]
    · dsimp only
      split_ifs <;> simp [triviaW_setElemNode]

theorem triviaW_arrGo (nest : Cst → JsonValue → Option Cst) (n : Nat)
    (xs : List JsonValue) : ∀ (i : Nat) (st : ArrState),
    triviaW ((arrGo nest n i st xs).items) = triviaW st.items := by
  induction xs with
  | nil => intro i st; rfl
  | cons v rest ih =>
    intro i st
    rw [arrGo]
    rw [ih (i + 1) (arrStep nest n i st v)]
    exact triviaW_arrStep nest n i st v

theorem triviaW_applyReplacements_notSingle (xs : List JsonValue) (n : Nat)
    (toReplace : List Nat) (items : List WAItem) :
    triviaW (applyReplacements false xs n toReplace items) = triviaW items := by
  unfold applyReplacements
  generalize toReplace.reverse = l
  induction l generalizing items with
  | nil => rfl
  | cons idx rest ih =>
    rw [List.foldl_cons, ih]
    dsimp only
    simp [triviaW_removeEid, triviaW_insertAfterEid]

theorem triviaW_removeUnmatched (n : Nat) (matched : List Bool) (items : List WAItem) :
    triviaW (removeUnmatched n matched items) = triviaW items := by
  unfold removeUnmatched
  generalize (List.range n).reverse = l
  induction l generalizing items with
  | nil => rfl
  | cons i rest ih =>
    simp only [List.foldl_cons]
    by_cases hm : matched.getD i false = true
    · simp only [hm, if_true]
      rw [ih]
    · rw [Bool.not_eq_true] at hm
      simp only [hm, Bool.false_eq_true, if_false]
      rw [ih, triviaW_removeEid]

theorem welems_tagA_length (items : List AItem) :
    (welems (tagA items)).length = (aElems items).length := by
  have := congrArg List.length (welems_tagAGo_nodes 0 items)
  simpa [tagA_def] using this

theorem trivia_preserved_notSingle (fuel : Nat) (items : List AItem)
    (xs : List JsonValue) (h : (aElems items).length ≠ 1) :
    triviaA (updateArray (fuel + 1) items xs) = triviaA items := by
  rw [updateArray]
  unfold updateArrayCore
  have hsingle : ((welems (tagA items)).length == 1) = false := by
    rw [beq_eq_false_iff_ne, welems_tagA_length]
    exact h
  simp only [hsingle]
  rw [triviaA_untagA, triviaW_removeUnmatched, triviaW_applyReplacements_notSingle,
    triviaW_arrGo, tagA_def, triviaW_tagAGo]

/-! ## Trivia-prefix computation lemmas for the single-element cleanup -/

theorem tagAGo_triviaMap (k : Nat) (l : List Trivia) (rest : List AItem) :
    tagAGo k (l.map AItem.trivia ++ rest) = l.map WAItem.trivia ++ tagAGo k rest := by
  induction l with
  | nil => rfl
  | cons t ts ih => simp [tagAGo, ih]

theorem tagAGo_triviaMap_nil (k : Nat) (l : List Trivia) :
    tagAGo k (l.map AItem.trivia) = l.map WAItem.trivia := by
  have := tagAGo_triviaMap k l []
  simpa [tagAGo] using this

theorem welems_triviaMap_append (l : List Trivia) (rest : List WAItem) :
    welems (l.map WAItem.trivia ++ rest) = welems rest := by
  induction l with
  | nil => rfl
  | cons t ts ih => simp [welems, ih]

theorem insertAfterEid_triviaMap (e : Nat) (it : WAItem) (l : List Trivia) (rest : List WAItem) :
    insertAfterEid e it (l.map WAItem.trivia ++ rest)
      = l.map WAItem.trivia ++ insertAfterEid e it rest := by
  induction l with
  | nil => rfl
  | cons t ts ih => simp [insertAfterEid, ih]

theorem removeEid_triviaMap (e : Nat) (l : List Trivia) (rest : List WAItem) :
    removeEid e (l.map WAItem.trivia ++ rest) = l.map WAItem.trivia ++ removeEid e rest := by
  induction l with
  | nil => rfl
  | cons t ts ih => simp [removeEid, ih]

theorem removeEid_triviaMap_nil (e : Nat) (l : List Trivia) :
    removeEid e (l.map WAItem.trivia) = l.map WAItem.trivia := by
  have := removeEid_triviaMap e l []
  simpa [removeEid] using this

theorem findIdxW_triviaMap (f : WAItem → Bool) (l : List Trivia) (rest : List WAItem)
    (hf : ∀ t, f (WAItem.trivia t) = false) :
    findIdxW f (l.map WAItem.trivia ++ rest)
      = (findIdxW f rest).map (· + l.length) := by
  induction l with
  | nil =>
    simp only [List.map_nil, List.nil_append, List.length_nil]
    cases findIdxW f rest <;> simp
  | cons t ts ih =>
    simp only [List.map_cons, List.cons_append, findIdxW, hf t, Bool.false_eq_true, if_false,
      List.append_eq, ih]
    cases findIdxW f rest with
    | none => rfl
    | some x => simp [Nat.add_assoc]

theorem untagA_triviaMap (l : List Trivia) (rest : List WAItem) :
    untagA (l.map WAItem.trivia ++ rest) = l.map AItem.trivia ++ untagA rest := by
  induction l with
  | nil => rfl
  | cons t ts ih => simp [untagA, ih]

theorem untagA_triviaMap_nil (l : List Trivia) :
    untagA (l.map WAItem.trivia) = l.map AItem.trivia := by
  have := untagA_triviaMap l []
  simpa [untagA] using this

theorem isRemovableSibling_elem (k : Nat) (e : Cst) :
    isRemovableSibling (.elem k e) = isRemovableA (.elem e) := by
  cases e <;> rfl

theorem isRemovableSibling_trivia (t : Trivia) :
    isRemovableSibling (.trivia t) = isRemovableTrivia t := by
  cases t <;> rfl

theorem dropWhile_triviaMap (l : List Trivia) :
    (l.map WAItem.trivia).dropWhile isRemovableSibling
      = (l.dropWhile isRemovableTrivia).map WAItem.trivia := by
  induction l with
  | nil => rfl
  | cons t ts ih =>
    simp only [List.map_cons, List.dropWhile_cons, isRemovableSibling_trivia]
    by_cases ht : isRemovableTrivia t = true
    · simp [ht, ih]
    · rw [Bool.not_eq_true] at ht
      simp [ht]

/-- Replacing the sole element of a single-element array strips the removable
siblings immediately preceding the inserted node: the walk first meets the
still-present old element (removable only when it is a whitespace-only string
literal) and then the trivia prefix. -/
theorem single_replacement_strip (fuel : Nat) (preT postT : List Trivia) (e : Cst)
    (v : JsonValue) (hnone : updateNested fuel e v = none)
    (hpre : shouldPreserveComments e v = false) :
    updateArray (fuel + 1) (preT.map AItem.trivia ++ .elem e :: postT.map AItem.trivia) [v]
      = (if isRemovableA (.elem e)
          then (preT.reverse.dropWhile isRemovableTrivia).reverse.map AItem.trivia
          else preT.map AItem.trivia)
        ++ .elem (buildNode v) :: postT.map AItem.trivia := by
  have htag : tagA (preT.map AItem.trivia ++ .elem e :: postT.map AItem.trivia)
      = preT.map WAItem.trivia ++ .elem 0 e :: postT.map WAItem.trivia := by
    rw [tagA_def, tagAGo_triviaMap]
    simp [tagAGo, tagAGo_triviaMap_nil]
  have hwe : welems (preT.map WAItem.trivia ++ .elem 0 e :: postT.map WAItem.trivia)
      = [(0, e)] := by
    rw [welems_triviaMap_append]
    have h0 := welems_triviaMap_append postT []
    simp only [List.append_nil] at h0
    simp [welems, h0]
  have hget : getElemNode 0 (preT.map WAItem.trivia ++ .elem 0 e :: postT.map WAItem.trivia)
      = some e := by
    rw [getElemNode, hwe]
    rfl
  have hla : lookAhead 1 0
      ⟨preT.map WAItem.trivia ++ .elem 0 e :: postT.map WAItem.trivia,
        [false], []⟩ v = none := rfl
  have hstep : arrStep (updateNested fuel) 1 0
      ⟨preT.map WAItem.trivia ++ .elem 0 e :: postT.map WAItem.trivia,
        List.replicate 1 false, []⟩ v
      = ⟨preT.map WAItem.trivia ++ .elem 0 e :: postT.map WAItem.trivia, [true], [0]⟩ := by
    rw [arrStep, if_neg (by omega)]
    dsimp only
    simp [hget, hnone, hpre, hla]
  have hgo : arrGo (updateNested fuel) 1 0
      ⟨preT.map WAItem.trivia ++ .elem 0 e :: postT.map WAItem.trivia,
        List.replicate 1 false, []⟩ [v]
      = ⟨preT.map WAItem.trivia ++ .elem 0 e :: postT.map WAItem.trivia, [true], [0]⟩ := by
    rw [arrGo, hstep, arrGo]
  have hins : insertAfterEid 0 (.elem 2 (buildNode v))
      (preT.map WAItem.trivia ++ .elem 0 e :: postT.map WAItem.trivia)
      = preT.map WAItem.trivia ++ .elem 0 e :: .elem 2 (buildNode v)
          :: postT.map WAItem.trivia := by
    rw [insertAfterEid_triviaMap]
    simp [insertAfterEid]
  have hfind : findIdxW (fun it =>
        match it with
        | .elem e2 _ => e2 == 2
        | _ => false)
      (preT.map WAItem.trivia ++ .elem 0 e :: .elem 2 (buildNode v)
        :: postT.map WAItem.trivia)
      = some (1 + preT.length) := by
    rw [findIdxW_triviaMap _ _ _ (fun t => rfl)]
    simp [findIdxW, Nat.add_comm]
  have hstripAt : removePreviousWhitespacesAt 2
      (preT.map WAItem.trivia ++ .elem 0 e :: .elem 2 (buildNode v)
        :: postT.map WAItem.trivia)
      = removePreviousWhitespaces (preT.map WAItem.trivia ++ [.elem 0 e])
          ++ .elem 2 (buildNode v) :: postT.map WAItem.trivia := by
    rw [removePreviousWhitespacesAt, hfind]
    dsimp only
    have hlen : preT.length = (preT.map WAItem.trivia).length := by simp
    have htake : (preT.map WAItem.trivia ++ .elem 0 e :: .elem 2 (buildNode v)
        :: postT.map WAItem.trivia).take (1 + preT.length)
        = preT.map WAItem.trivia ++ [.elem 0 e] := by
      rw [Nat.add_comm, hlen, List.take_append]
      rfl
    have hdrop : (preT.map WAItem.trivia ++ .elem 0 e :: .elem 2 (buildNode v)
        :: postT.map WAItem.trivia).drop (1 + preT.length)
        = .elem 2 (buildNode v) :: postT.map WAItem.trivia := by
      rw [Nat.add_comm, hlen, List.drop_append]
      rfl
    rw [htake, hdrop]
  rw [updateArray]
  unfold updateArrayCore
  dsimp only
  rw [htag, hwe]
  simp only [List.length_cons, List.length_nil, Nat.zero_add]
  rw [hgo]
  dsimp only
  simp only [applyReplacements, List.reverse_cons, List.reverse_nil, List.nil_append,
    List.foldl_cons, List.foldl_nil, List.length_cons, List.length_nil]
  rw [show (1 + (0 + 1) + 0) = 2 by omega]
  simp only [List.getD_cons_zero]
  rw [hins]
  rw [if_pos (beq_self_eq_true 1)]
  rw [hstripAt]
  have hrw : removePreviousWhitespaces (preT.map WAItem.trivia ++ [.elem 0 e])
      = if isRemovableA (.elem e)
        then ((preT.reverse.dropWhile isRemovableTrivia).reverse).map WAItem.trivia
        else preT.map WAItem.trivia ++ [.elem 0 e] := by
    rw [removePreviousWhitespaces]
    rw [List.reverse_append]
    simp only [List.reverse_cons, List.reverse_nil, List.nil_append, List.cons_append,
      List.dropWhile_cons, isRemovableSibling_elem]
    by_cases hrem : isRemovableA (.elem e) = true
    · simp only [hrem, if_true]
      rw [show (preT.map WAItem.trivia).reverse = preT.reverse.map WAItem.trivia by
        rw [List.map_reverse]]
      rw [dropWhile_triviaMap]
      rw [List.map_reverse]
    · rw [Bool.not_eq_true] at hrem
      simp [hrem]
  have hre2 : removeEid 0 (WAItem.elem 2 (buildNode v) :: postT.map WAItem.trivia)
      = WAItem.elem 2 (buildNode v) :: postT.map WAItem.trivia := by
    rw [removeEid, if_neg (by decide)]
    rw [removeEid_triviaMap_nil]
  have hre1 : removeEid 0
      (WAItem.elem 0 e :: WAItem.elem 2 (buildNode v) :: postT.map WAItem.trivia)
      = WAItem.elem 2 (buildNode v) :: postT.map WAItem.trivia := by
    rw [removeEid, if_pos (by decide)]
  have hru : ∀ X : List WAItem, removeUnmatched 1 [true] X = X := by
    intro X
    rw [removeUnmatched]
    rw [show (List.range 1).reverse = [0] from rfl]
    simp
  have huntag : untagA (WAItem.elem 2 (buildNode v) :: postT.map WAItem.trivia)
      = AItem.elem (buildNode v) :: postT.map AItem.trivia := by
    simp [untagA, untagA_triviaMap_nil]
  rw [hrw]
  by_cases hrem : isRemovableA (.elem e) = true
  · simp only [hrem, if_true]
    rw [removeEid_triviaMap, hre2, hru, untagA_triviaMap, huntag]
  · rw [Bool.not_eq_true] at hrem
    simp only [hrem, Bool.false_eq_true, if_false]
    rw [show (preT.map WAItem.trivia ++ [WAItem.elem 0 e])
          ++ WAItem.elem 2 (buildNode v) :: postT.map WAItem.trivia
        = preT.map WAItem.trivia
          ++ WAItem.elem 0 e :: WAItem.elem 2 (buildNode v) :: postT.map WAItem.trivia by
      simp]
    rw [removeEid_triviaMap, hre1, hru, untagA_triviaMap, huntag]

theorem head?_dropWhile_pred {α : Type} (p : α → Bool) (l : List α) (a : α)
    (h : (l.dropWhile p).head? = some a) : p a = false := by
  induction l with
  | nil => simp [List.dropWhile] at h
  | cons x xs ih =>
    rw [List.dropWhile_cons] at h
    by_cases hx : p x = true
    · rw [if_pos hx] at h
      exact ih h
    · rw [Bool.not_eq_true] at hx
      rw [if_neg (by simp [hx])] at h
      simp only [List.head?_cons, Option.some.injEq] at h
      subst h
      exact hx

/-! ## Toolkit: property-view operations and the final removal fold -/

theorem lookup_eq_none_not_mem (l : List (String × Nat)) (a : String)
    (h : l.lookup a = none) : a ∉ l.map Prod.fst := by
  induction l with
  | nil => simp
  | cons e rest ih =>
    rw [List.lookup] at h
    by_cases he : (a == e.1) = true
    · rw [he] at h; cases h
    · rw [Bool.not_eq_true] at he
      rw [he] at h
      simp only [List.map_cons, List.mem_cons]
      rintro (rfl | hm)
      · simp at he
      · exact (ih h) hm

theorem pidNames_setPropNodeP (pid : Nat) (nd : Cst) (ps : List WProp) :
    pidNames (setPropNodeP pid nd ps) = pidNames ps := by
  induction ps with
  | nil => rfl
  | cons p rest ih =>
    by_cases hp : (p.pid == pid) = true
    · simp [setPropNodeP, hp, pidNames]
    · rw [Bool.not_eq_true] at hp
      simp only [setPropNodeP, hp, Bool.false_eq_true, if_false]
      simp only [pidNames, List.map_cons] at ih ⊢
      rw [ih]

theorem removePidP_sublist (pid : Nat) (ps : List WProp) :
    (removePidP pid ps).Sublist ps := by
  induction ps with
  | nil => simp [removePidP]
  | cons p rest ih =>
    by_cases hp : (p.pid == pid) = true
    · simp [removePidP, hp]
    · rw [Bool.not_eq_true] at hp
      simp only [removePidP, hp, Bool.false_eq_true, if_false]
      exact ih.cons₂ p

theorem removePidP_nodup_filter (pid : Nat) (ps : List WProp)
    (h : (ps.map (fun p => p.pid)).Nodup) :
    removePidP pid ps = ps.filter (fun p => !(p.pid == pid)) := by
  induction ps with
  | nil => rfl
  | cons p rest ih =>
    simp only [List.map_cons, List.nodup_cons] at h
    by_cases hp : (p.pid == pid) = true
    · simp only [removePidP, hp, if_true, List.filter_cons, Bool.not_true,
        Bool.false_eq_true, if_false]
      symm
      apply List.filter_eq_self.mpr
      intro q hq
      have hqp : (q.pid == pid) = false := by
        rw [beq_eq_false_iff_ne]
        intro hc
        apply h.1
        rw [beq_iff_eq] at hp
        rw [← hp] at hc
        rw [← hc]
        exact List.mem_map_of_mem (fun p => p.pid) hq
      rw [hqp]
      rfl
    · rw [Bool.not_eq_true] at hp
      simp only [removePidP, hp, Bool.false_eq_true, if_false, List.filter_cons,
        Bool.not_false, if_true]
      rw [ih h.2]

theorem wprops_nodup_of_removePid (pid : Nat) (items : List WOItem)
    (h : ((wprops items).map (fun p => p.pid)).Nodup) :
    ((wprops (removePid pid items)).map (fun p => p.pid)).Nodup := by
  rw [wprops_removePid]
  exact ((removePidP_sublist pid (wprops items)).map (fun p => p.pid)).nodup h

theorem wprops_finalFold (snapMap : List (String × Nat)) (tr : List String)
    (items : List WOItem) (h : ((wprops items).map (fun p => p.pid)).Nodup) :
    wprops (snapMap.foldl
        (fun its e => if tr.contains e.1 then removePid e.2 its else its) items)
      = (wprops items).filter (fun p =>
          !((snapMap.filterMap
              (fun e => if tr.contains e.1 then some e.2 else none)).contains p.pid)) := by
  induction snapMap generalizing items with
  | nil => simp
  | cons e rest ih =>
    simp only [List.foldl_cons, List.filterMap_cons]
    by_cases he : tr.contains e.1 = true
    · simp only [he, if_true]
      rw [ih (removePid e.2 items) (wprops_nodup_of_removePid e.2 items h)]
      rw [wprops_removePid, removePidP_nodup_filter e.2 (wprops items) h]
      rw [List.filter_filter]
      apply List.filter_congr
      intro p hp
      simp only [List.contains_cons]
      cases hpe : (p.pid == e.2) <;> simp [hpe]
    · rw [Bool.not_eq_true] at he
      simp only [he, Bool.false_eq_true, if_false]
      exact ih items h

theorem origView_cons_lt (m : Nat) (p : WProp) (rest : List WProp) (h : p.pid < m) :
    origView m (p :: rest) = (p.pid, p.name) :: origView m rest := by
  simp [origView, pidNames, h]

theorem origView_cons_ge (m : Nat) (p : WProp) (rest : List WProp) (h : ¬ p.pid < m) :
    origView m (p :: rest) = origView m rest := by
  simp [origView, pidNames, h]

theorem mapName_filter_origView (m : Nat) (ps : List WProp) (P : String → Bool)
    (hf : ∀ p ∈ ps, m ≤ p.pid → P p.name = false) :
    (ps.map (fun p => p.name)).filter P
      = ((origView m ps).map Prod.snd).filter P := by
  induction ps with
  | nil => rfl
  | cons p rest ih =>
    have ih2 := ih (fun q hq => hf q (List.mem_cons_of_mem p hq))
    by_cases hm : p.pid < m
    · rw [origView_cons_lt m p rest hm]
      simp only [List.map_cons, List.filter_cons]
      rw [ih2]
    · have hP : P p.name = false := hf p (List.mem_cons_self p rest) (Nat.le_of_not_lt hm)
      rw [origView_cons_ge m p rest hm]
      simp only [List.map_cons, List.filter_cons, hP, Bool.false_eq_true, if_false]
      exact ih2

theorem filter_removed_names (origSeq : List (Nat × String)) (R : List Nat)
    (P : String → Bool) (h : ∀ e ∈ origSeq, e.1 ∈ R → P e.2 = false) :
    ((origSeq.filter (fun e => !(R.contains e.1))).map Prod.snd).filter P
      = (origSeq.map Prod.snd).filter P := by
  induction origSeq with
  | nil => rfl
  | cons e rest ih =>
    have ih2 := ih (fun q hq => h q (List.mem_cons_of_mem e hq))
    by_cases hr : e.1 ∈ R
    · have hP : P e.2 = false := h e (List.mem_cons_self e rest) hr
      have hc : R.contains e.1 = true := List.elem_iff.mpr hr
      simp only [List.filter_cons, hc, Bool.not_true, Bool.false_eq_true, if_false,
        List.map_cons, hP, ih2]
    · have hc : R.contains e.1 = false := by
        rw [Bool.eq_false_iff]
        intro hcon
        exact hr (List.elem_iff.mp hcon)
      simp only [List.filter_cons, hc, Bool.not_false, if_true, List.map_cons]
      rw [ih2]

/-! ## Toolkit: the object-order invariant -/

theorem oNames_untagO (its : List WOItem) :
    oNames (untagO its) = (wprops its).map (fun p => p.name) := by
  induction its with
  | nil => rfl
  | cons it rest ih =>
    cases it with
    | trivia t => simp [untagO, oNames, wprops, ih]
    | prop p => simp [untagO, oNames, wprops, ih]

theorem pidNames_map_fst (ps : List WProp) :
    (pidNames ps).map Prod.fst = ps.map (fun p => p.pid) := by
  simp [pidNames, List.map_map]

theorem pidNames_map_snd (ps : List WProp) :
    (pidNames ps).map Prod.snd = ps.map (fun p => p.name) := by
  simp [pidNames, List.map_map]

theorem map_fst_swap (l : List (Nat × String)) :
    (l.map (fun e => (e.2, e.1))).map Prod.fst = l.map Prod.snd := by
  simp [List.map_map]

theorem nodup_fst_mem_eq (l : List (Nat × String)) (h : (l.map Prod.fst).Nodup)
    (a b : Nat × String) (ha : a ∈ l) (hb : b ∈ l) (hab : a.1 = b.1) : a = b := by
  induction l with
  | nil => simp at ha
  | cons x rest ih =>
    simp only [List.map_cons, List.nodup_cons] at h
    rcases List.mem_cons.mp ha with rfl | ha2
    · rcases List.mem_cons.mp hb with rfl | hb2
      · rfl
      · exact absurd (by rw [hab]; exact List.mem_map_of_mem Prod.fst hb2) h.1
    · rcases List.mem_cons.mp hb with rfl | hb2
      · exact absurd (by rw [← hab]; exact List.mem_map_of_mem Prod.fst ha2) h.1
      · exact ih h.2 ha2 hb2

theorem nodup_insert_take_drop {α : Type} (l : List α) (a : α) (i : Nat)
    (h : l.Nodup) (ha : a ∉ l) : (l.take i ++ a :: l.drop i).Nodup := by
  rw [List.nodup_middle, List.take_append_drop]
  exact List.nodup_cons.mpr ⟨ha, h⟩

theorem map_insert_take_drop {α β : Type} (f : α → β) (l : List α) (a : α) (i : Nat) :
    (l.take i ++ a :: l.drop i).map f
      = (l.map f).take i ++ f a :: (l.map f).drop i := by
  simp [List.map_take, List.map_drop]

theorem mem_insert_take_drop (l : List WProp) (a b : WProp) (i : Nat)
    (h : b ∈ l.take i ++ a :: l.drop i) : b = a ∨ b ∈ l := by
  rcases List.mem_append.mp h with h1 | h2
  · exact Or.inr (List.mem_of_mem_take h1)
  · rcases List.mem_cons.mp h2 with rfl | h3
    · exact Or.inl rfl
    · exact Or.inr (List.mem_of_mem_drop h3)

theorem setPropNodeP_pids (pid : Nat) (nd : Cst) (ps : List WProp) :
    (setPropNodeP pid nd ps).map (fun p => p.pid) = ps.map (fun p => p.pid) := by
  induction ps with
  | nil => rfl
  | cons p rest ih =>
    by_cases hp : (p.pid == pid) = true
    · simp [setPropNodeP, hp]
    · rw [Bool.not_eq_true] at hp
      simp only [setPropNodeP, hp, Bool.false_eq_true, if_false, List.map_cons]
      rw [ih]

theorem mem_setPropNodeP_exists (pid : Nat) (nd : Cst) (ps : List WProp) (q : WProp)
    (hq : q ∈ setPropNodeP pid nd ps) : ∃ p ∈ ps, p.pid = q.pid ∧ p.name = q.name := by
  induction ps with
  | nil => simp [setPropNodeP] at hq
  | cons p rest ih =>
    by_cases hp : (p.pid == pid) = true
    · simp only [setPropNodeP, hp, if_true] at hq
      rcases List.mem_cons.mp hq with rfl | h2
      · exact ⟨p, List.mem_cons_self p rest, rfl, rfl⟩
      · exact ⟨q, List.mem_cons_of_mem p h2, rfl, rfl⟩
    · rw [Bool.not_eq_true] at hp
      simp only [setPropNodeP, hp, Bool.false_eq_true, if_false] at hq
      rcases List.mem_cons.mp hq with rfl | h2
      · exact ⟨q, List.mem_cons_self q rest, rfl, rfl⟩
      · rcases ih h2 with ⟨p2, hp2, he⟩
        exact ⟨p2, List.mem_cons_of_mem p hp2, he⟩

theorem origView_setPropNodeP (m pid : Nat) (nd : Cst) (ps : List WProp) :
    origView m (setPropNodeP pid nd ps) = origView m ps := by
  simp only [origView, pidNames_setPropNodeP]

theorem origView_filter_pid (m : Nat) (g : Nat → Bool) (ps : List WProp) :
    origView m (ps.filter (fun p => g p.pid))
      = (origView m ps).filter (fun e => g e.1) := by
  induction ps with
  | nil => rfl
  | cons p rest ih =>
    rw [List.filter_cons]
    by_cases hm : p.pid < m
    · rw [origView_cons_lt _ _ _ hm]
      by_cases hg : g p.pid = true
      · rw [if_pos hg, origView_cons_lt _ _ _ hm, List.filter_cons, if_pos hg, ih]
      · rw [if_neg hg, List.filter_cons, if_neg hg, ih]
    · rw [origView_cons_ge _ _ _ hm]
      by_cases hg : g p.pid = true
      · rw [if_pos hg, origView_cons_ge _ _ _ hm, ih]
      · rw [if_neg hg, ih]

theorem origView_filter_ne (m opid : Nat) (ps : List WProp) :
    origView m (ps.filter (fun p => !(p.pid == opid)))
      = (origView m ps).filter (fun e => !(e.1 == opid)) :=
  origView_filter_pid m (fun x => !(x == opid)) ps

theorem origView_filter_contains (m : Nat) (R : List Nat) (ps : List WProp) :
    origView m (ps.filter (fun p => !(R.contains p.pid)))
      = (origView m ps).filter (fun e => !(R.contains e.1)) :=
  origView_filter_pid m (fun x => !(R.contains x)) ps

theorem origView_insert_ge (m i : Nat) (p : WProp) (ps : List WProp) (h : m ≤ p.pid) :
    origView m (ps.take i ++ p :: ps.drop i) = origView m ps := by
  have hd : decide (p.pid < m) = false := decide_eq_false (by omega)
  simp only [origView, pidNames, List.map_append, List.map_cons, List.filter_append,
    List.filter_cons, hd, Bool.false_eq_true, if_false]
  rw [← List.filter_append, ← List.map_append, List.take_append_drop]

theorem filter_contains_cons (origSeq : List (Nat × String)) (removed : List Nat)
    (opid : Nat) :
    (origSeq.filter (fun e => !(removed.contains e.1))).filter (fun e => !(e.1 == opid))
      = origSeq.filter (fun e => !((opid :: removed).contains e.1)) := by
  rw [List.filter_filter]
  apply List.filter_congr
  intro e he
  have hb : (e.1 == opid) = decide (e.1 = opid) := by
    cases h : e.1 == opid
    · simp [beq_eq_false_iff_ne] at h
      simp [h]
    · rw [beq_iff_eq] at h
      simp [h]
  simp [List.contains_cons, Bool.not_or, Bool.and_comm, hb]

/-- One `Object.entries` loop iteration preserves the order invariant: the
original properties still visible (identities below the snapshot count `m`)
are exactly the snapshot sequence minus a set of removed identities whose
names are not target keys; properties with fresh identities carry names
absent from the original; identities stay distinct and bounded. -/
theorem objStep_inv (upd : Cst → JsonValue → Cst)
    (snapMap : List (String × Nat)) (origSeq : List (Nat × String)) (m : Nat)
    (KP : String → Bool)
    (hswap : snapMap = origSeq.map (fun e => (e.2, e.1)))
    (hpidnodup : (origSeq.map Prod.fst).Nodup)
    (k : String) (v : JsonValue) (st : ObjState) (removed : List Nat)
    (I1 : origView m (wprops st.items) = origSeq.filter (fun e => !(removed.contains e.1)))
    (I2 : ∀ e ∈ origSeq, e.1 ∈ removed → KP e.2 = false)
    (I3 : ∀ p ∈ wprops st.items, m ≤ p.pid → (origSeq.map Prod.snd).contains p.name = false)
    (I4 : ∀ s ∈ st.toRemove, KP s = false)
    (I5 : ((wprops st.items).map (fun p => p.pid)).Nodup)
    (I6 : ∀ p ∈ wprops st.items, p.pid < st.nextPid)
    (I7 : m ≤ st.nextPid) :
    ∃ removed2 : List Nat,
      origView m (wprops (objStep upd snapMap st k v).items)
          = origSeq.filter (fun e => !(removed2.contains e.1))
      ∧ (∀ e ∈ origSeq, e.1 ∈ removed2 → KP e.2 = false)
      ∧ (∀ p ∈ wprops (objStep upd snapMap st k v).items, m ≤ p.pid →
          (origSeq.map Prod.snd).contains p.name = false)
      ∧ (∀ s ∈ (objStep upd snapMap st k v).toRemove, KP s = false)
      ∧ ((wprops (objStep upd snapMap st k v).items).map (fun p => p.pid)).Nodup
      ∧ (∀ p ∈ wprops (objStep upd snapMap st k v).items,
          p.pid < (objStep upd snapMap st k v).nextPid)
      ∧ m ≤ (objStep upd snapMap st k v).nextPid := by
  cases hlk : snapMap.lookup k with
  | some pid =>
    cases hget : getPropNode pid st.items with
    | some node =>
      simp only [objStep, hlk, hget]
      refine ⟨removed, ?_, I2, ?_, I4, ?_, ?_, I7⟩
      · rw [wprops_setPropNode, origView_setPropNodeP]
        exact I1
      · intro p hp hm2
        rw [wprops_setPropNode] at hp
        rcases mem_setPropNodeP_exists _ _ _ _ hp with ⟨q, hq, hpid, hname⟩
        rw [← hname]
        exact I3 q hq (by omega)
      · rw [wprops_setPropNode, setPropNodeP_pids]
        exact I5
      · intro p hp
        rw [wprops_setPropNode] at hp
        rcases mem_setPropNodeP_exists _ _ _ _ hp with ⟨q, hq, hpid, hname⟩
        have := I6 q hq
        omega
    | none =>
      simp only [objStep, hlk, hget]
      exact ⟨removed, I1, I2, I3, I4, I5, I6, I7⟩
  | none =>
    cases hfc : findRenameCandidate snapMap st.toRemove (k :: st.processed)
        st.insertIndex st.items with
    | some pr =>
      obtain ⟨oldKey, opid⟩ := pr
      rw [findRenameCandidate] at hfc
      have hmem : (oldKey, opid) ∈ snapMap := List.mem_of_find?_eq_some hfc
      have hpred := List.find?_some hfc
      simp only [Bool.and_eq_true] at hpred
      have hrem : st.toRemove.contains oldKey = true := hpred.1.1
      have horig : (opid, oldKey) ∈ origSeq := by
        rw [hswap] at hmem
        rcases List.mem_map.mp hmem with ⟨e, he, heq⟩
        have h1 : e.2 = oldKey := congrArg Prod.fst heq
        have h2 : e.1 = opid := congrArg Prod.snd heq
        rw [← h1, ← h2]
        exact he
      simp only [objStep, hlk, findRenameCandidate, hfc]
      refine ⟨opid :: removed, ?_, ?_, ?_, ?_, ?_, ?_, ?_⟩
      · rw [wprops_insertPropAt]
        rw [origView_insert_ge _ _ _ _ I7]
        rw [wprops_removePid, removePidP_nodup_filter opid _ I5, origView_filter_ne, I1,
          filter_contains_cons]
      · intro e he hin
        rcases List.mem_cons.mp hin with h1 | h2
        · have he2 : e = (opid, oldKey) :=
            nodup_fst_mem_eq origSeq hpidnodup e (opid, oldKey) he horig h1
          rw [he2]
          exact I4 oldKey (List.elem_iff.mp hrem)
        · exact I2 e he h2
      · intro p hp hm2
        rw [wprops_insertPropAt] at hp
        rcases mem_insert_take_drop _ _ _ _ hp with rfl | hp2
        · have hnk : k ∉ snapMap.map Prod.fst := lookup_eq_none_not_mem snapMap k hlk
          rw [hswap, map_fst_swap] at hnk
          rw [Bool.eq_false_iff]
          intro hcon
          exact hnk (List.elem_iff.mp hcon)
        · rw [wprops_removePid] at hp2
          exact I3 p ((removePidP_sublist opid _).subset hp2) hm2
      · intro s hs
        exact I4 s (List.mem_of_mem_erase hs)
      · rw [wprops_insertPropAt, map_insert_take_drop]
        dsimp only
        apply nodup_insert_take_drop
        · rw [wprops_removePid]
          exact ((removePidP_sublist opid _).map _).nodup I5
        · intro hcon
          rw [wprops_removePid] at hcon
          rcases List.mem_map.mp hcon with ⟨q, hq, hqe⟩
          have hq2 := I6 q ((removePidP_sublist opid _).subset hq)
          omega
      · intro p hp
        rw [wprops_insertPropAt] at hp
        rcases mem_insert_take_drop _ _ _ _ hp with rfl | hp2
        · exact Nat.lt_succ_self st.nextPid
        · rw [wprops_removePid] at hp2
          have := I6 p ((removePidP_sublist opid _).subset hp2)
          omega
      · omega
    | none =>
      rw [findRenameCandidate] at hfc
      simp only [objStep, hlk, findRenameCandidate, hfc]
      refine ⟨removed, ?_, I2, ?_, I4, ?_, ?_, ?_⟩
      · rw [wprops_insertPropAt, origView_insert_ge _ _ _ _ I7]
        exact I1
      · intro p hp hm2
        rw [wprops_insertPropAt] at hp
        rcases mem_insert_take_drop _ _ _ _ hp with rfl | hp2
        · have hnk : k ∉ snapMap.map Prod.fst := lookup_eq_none_not_mem snapMap k hlk
          rw [hswap, map_fst_swap] at hnk
          rw [Bool.eq_false_iff]
          intro hcon
          exact hnk (List.elem_iff.mp hcon)
        · exact I3 p hp2 hm2
      · rw [wprops_insertPropAt, map_insert_take_drop]
        dsimp only
        apply nodup_insert_take_drop _ _ _ I5
        intro hcon
        rcases List.mem_map.mp hcon with ⟨q, hq, hqe⟩
        have := I6 q hq
        omega
      · intro p hp
        rw [wprops_insertPropAt] at hp
        rcases mem_insert_take_drop _ _ _ _ hp with rfl | hp2
        · exact Nat.lt_succ_self st.nextPid
        · have := I6 p hp2
          omega
      · omega

/-- The whole `Object.entries` loop preserves the order invariant. -/
theorem objGo_inv (upd : Cst → JsonValue → Cst)
    (snapMap : List (String × Nat)) (origSeq : List (Nat × String)) (m : Nat)
    (KP : String → Bool)
    (hswap : snapMap = origSeq.map (fun e => (e.2, e.1)))
    (hpidnodup : (origSeq.map Prod.fst).Nodup)
    (todo : List (String × JsonValue)) (st : ObjState) (removed : List Nat)
    (I1 : origView m (wprops st.items) = origSeq.filter (fun e => !(removed.contains e.1)))
    (I2 : ∀ e ∈ origSeq, e.1 ∈ removed → KP e.2 = false)
    (I3 : ∀ p ∈ wprops st.items, m ≤ p.pid → (origSeq.map Prod.snd).contains p.name = false)
    (I4 : ∀ s ∈ st.toRemove, KP s = false)
    (I5 : ((wprops st.items).map (fun p => p.pid)).Nodup)
    (I6 : ∀ p ∈ wprops st.items, p.pid < st.nextPid)
    (I7 : m ≤ st.nextPid) :
    ∃ removed2 : List Nat,
      origView m (wprops (objGo upd snapMap st todo).items)
          = origSeq.filter (fun e => !(removed2.contains e.1))
      ∧ (∀ e ∈ origSeq, e.1 ∈ removed2 → KP e.2 = false)
      ∧ (∀ p ∈ wprops (objGo upd snapMap st todo).items, m ≤ p.pid →
          (origSeq.map Prod.snd).contains p.name = false)
      ∧ (∀ s ∈ (objGo upd snapMap st todo).toRemove, KP s = false)
      ∧ ((wprops (objGo upd snapMap st todo).items).map (fun p => p.pid)).Nodup := by
  induction todo generalizing st removed with
  | nil => exact ⟨removed, I1, I2, I3, I4, I5⟩
  | cons kv rest ih =>
    obtain ⟨k, v⟩ := kv
    rcases objStep_inv upd snapMap origSeq m KP hswap hpidnodup k v st removed
        I1 I2 I3 I4 I5 I6 I7 with ⟨removed2, J1, J2, J3, J4, J5, J6, J7⟩
    exact ih (objStep upd snapMap st k v) removed2 J1 J2 J3 J4 J5 J6 J7

/-- The final removal pass of `updateObject` keeps exactly the surviving
properties; filtered down to names that are both original and target keys,
the output name sequence is the original one. -/
theorem objFinal_order (origSeq : List (Nat × String)) (m : Nat) (KP : String → Bool)
    (snapMap : List (String × Nat)) (hswap : snapMap = origSeq.map (fun e => (e.2, e.1)))
    (hpidnodup : (origSeq.map Prod.fst).Nodup)
    (st : ObjState) (removed : List Nat)
    (I1 : origView m (wprops st.items) = origSeq.filter (fun e => !(removed.contains e.1)))
    (I2 : ∀ e ∈ origSeq, e.1 ∈ removed → KP e.2 = false)
    (I3 : ∀ p ∈ wprops st.items, m ≤ p.pid → (origSeq.map Prod.snd).contains p.name = false)
    (I4 : ∀ s ∈ st.toRemove, KP s = false)
    (I5 : ((wprops st.items).map (fun p => p.pid)).Nodup)
    (N : List String) (hNdef : N = origSeq.map Prod.snd) :
    (oNames (untagO (snapMap.foldl
        (fun its e => if st.toRemove.contains e.1 then removePid e.2 its else its)
        st.items))).filter (fun n => N.contains n && KP n)
      = N.filter (fun n => N.contains n && KP n) := by
  subst hNdef
  rw [oNames_untagO]
  rw [wprops_finalFold snapMap st.toRemove st.items I5]
  rw [mapName_filter_origView m _ _ ?hf]
  case hf =>
    intro p hp hm2
    have h3 := I3 p (List.mem_of_mem_filter hp) hm2
    rw [h3]
    exact Bool.false_and _
  rw [origView_filter_contains, I1]
  rw [filter_removed_names _ _ _ ?hr]
  case hr =>
    intro e he hin
    rcases List.mem_filterMap.mp hin with ⟨x, hx, hxe⟩
    by_cases hc : st.toRemove.contains x.1 = true
    · rw [if_pos hc] at hxe
      have hx2 : x.2 = e.1 := Option.some.injEq _ _ ▸ hxe
      rw [hswap] at hx
      rcases List.mem_map.mp hx with ⟨e2, he2, heq⟩
      have ha : e2.2 = x.1 := congrArg Prod.fst heq
      have hb : e2.1 = x.2 := congrArg Prod.snd heq
      have hee : e = e2 := by
        apply nodup_fst_mem_eq origSeq hpidnodup e e2 (List.mem_of_mem_filter he) he2
        omega
      have hkp : KP e.2 = false := by
        rw [hee, ha]
        exact I4 x.1 (List.elem_iff.mp hc)
      rw [hkp]
      exact Bool.and_false _
    · rw [if_neg hc] at hxe
      cases hxe
  rw [filter_removed_names _ _ _ ?hr2]
  case hr2 =>
    intro e he hin
    have hkp : KP e.2 = false := I2 e he hin
    rw [hkp]
    exact Bool.and_false _

/-- `updateObject` (core) never reorders surviving properties: filtered down
to the names shared by the original object and the target, the output name
sequence equals the original one. -/
theorem objCore_order (upd : Cst → JsonValue → Cst) (items : List OItem)
    (kvs : List (String × JsonValue)) (hN : (oNames items).Nodup) :
    (oNames (updateObjectCore upd items kvs)).filter
        (fun n => (oNames items).contains n && kvs.any (fun e => e.1 == n))
      = (oNames items).filter
        (fun n => (oNames items).contains n && kvs.any (fun e => e.1 == n)) := by
  have hname : (wprops (tagO items)).map (fun p => p.name) = oNames items := by
    rw [tagO_def]
    exact wprops_tagOGo_names 0 items
  have hpid : (wprops (tagO items)).map (fun p => p.pid)
      = List.range' 0 (oNames items).length := by
    rw [tagO_def]
    exact wprops_tagOGo_pids 0 items
  have hpidlt : ∀ p ∈ wprops (tagO items), p.pid < (wprops (tagO items)).length := by
    intro p hp
    have hm : p.pid ∈ (wprops (tagO items)).map (fun p => p.pid) :=
      List.mem_map_of_mem _ hp
    rw [hpid] at hm
    have h2 := List.mem_range'_1.mp hm
    have h3 : (wprops (tagO items)).length = (oNames items).length := by
      rw [← hname, List.length_map]
    omega
  have hpidnodup : ((pidNames (wprops (tagO items))).map Prod.fst).Nodup := by
    rw [pidNames_map_fst, hpid]
    exact List.nodup_range' 0 _
  have hswap : jsMapOf (wprops (tagO items))
      = (pidNames (wprops (tagO items))).map (fun e => (e.2, e.1)) := by
    rw [jsMapOf_nodup (wprops (tagO items)) (by rw [hname]; exact hN)]
    simp [pidNames, List.map_map]
  have hNdef : oNames items = (pidNames (wprops (tagO items))).map Prod.snd := by
    rw [pidNames_map_snd, hname]
  have i1 : origView ((wprops (tagO items)).length) (wprops (tagO items))
      = (pidNames (wprops (tagO items))).filter
          (fun e => !(([] : List Nat).contains e.1)) := by
    have hL : origView ((wprops (tagO items)).length) (wprops (tagO items))
        = pidNames (wprops (tagO items)) := by
      simp only [origView]
      apply List.filter_eq_self.mpr
      intro e he
      simp only [pidNames] at he
      rcases List.mem_map.mp he with ⟨p, hp, rfl⟩
      exact decide_eq_true (hpidlt p hp)
    rw [hL]
    symm
    apply List.filter_eq_self.mpr
    intro e he
    rfl
  have i2 : ∀ e ∈ pidNames (wprops (tagO items)), e.1 ∈ ([] : List Nat) →
      kvs.any (fun x => x.1 == e.2) = false := by
    intro e he hin
    exact absurd hin (List.not_mem_nil _)
  have i3 : ∀ p ∈ wprops (tagO items), (wprops (tagO items)).length ≤ p.pid →
      ((pidNames (wprops (tagO items))).map Prod.snd).contains p.name = false := by
    intro p hp hm2
    have := hpidlt p hp
    omega
  have i4 : ∀ s ∈ ((jsMapOf (wprops (tagO items))).map (·.1)).filter
      (fun k => !(kvs.any (fun e => e.1 == k))),
      kvs.any (fun x => x.1 == s) = false := by
    intro s hs
    have h4 := List.of_mem_filter hs
    simpa using h4
  have i5 : ((wprops (tagO items)).map (fun p => p.pid)).Nodup := by
    rw [hpid]
    exact List.nodup_range' 0 _
  have i6 : ∀ p ∈ wprops (tagO items), p.pid < (wprops (tagO items)).length :=
    hpidlt
  simp only [updateObjectCore]
  rcases objGo_inv upd (jsMapOf (wprops (tagO items))) (pidNames (wprops (tagO items)))
      ((wprops (tagO items)).length) (fun n => kvs.any (fun e => e.1 == n))
      hswap hpidnodup kvs
      ⟨tagO items, [],
        ((jsMapOf (wprops (tagO items))).map (·.1)).filter
          (fun k => !(kvs.any (fun e => e.1 == k))),
        0, (wprops (tagO items)).length⟩
      [] i1 i2 i3 i4 i5 i6 (Nat.le_refl _) with ⟨removed2, J1, J2, J3, J4, J5⟩
  exact objFinal_order (pidNames (wprops (tagO items))) ((wprops (tagO items)).length)
    (fun n => kvs.any (fun e => e.1 == n)) (jsMapOf (wprops (tagO items)))
    hswap hpidnodup _ removed2 J1 J2 J3 J4 J5 (oNames items) hNdef

/-! ## Toolkit: positional property lemmas for the target-order proof -/

theorem lookup_mem (l : List (String × Nat)) (a : String) (b : Nat)
    (h : l.lookup a = some b) : (a, b) ∈ l := by
  induction l with
  | nil => cases h
  | cons e rest ih =>
    rw [List.lookup] at h
    by_cases he : (a == e.1) = true
    · rw [he] at h
      cases h
      rw [beq_iff_eq.mp he]
      exact List.mem_cons_self e rest
    · rw [Bool.not_eq_true] at he
      rw [he] at h
      exact List.mem_cons_of_mem _ (ih h)

theorem nodup_name_mem_eq (ps : List WProp) (h : (ps.map (fun p => p.name)).Nodup)
    (a b : WProp) (ha : a ∈ ps) (hb : b ∈ ps) (hab : a.name = b.name) : a = b := by
  induction ps with
  | nil => simp at ha
  | cons x rest ih =>
    simp only [List.map_cons, List.nodup_cons] at h
    rcases List.mem_cons.mp ha with rfl | ha2
    · rcases List.mem_cons.mp hb with rfl | hb2
      · rfl
      · exact absurd (by rw [hab]; exact List.mem_map_of_mem (fun p => p.name) hb2) h.1
    · rcases List.mem_cons.mp hb with rfl | hb2
      · exact absurd (by rw [← hab]; exact List.mem_map_of_mem (fun p => p.name) ha2) h.1
      · exact ih h.2 ha2 hb2

theorem nodup_pid_mem_eq (ps : List WProp) (h : (ps.map (fun p => p.pid)).Nodup)
    (a b : WProp) (ha : a ∈ ps) (hb : b ∈ ps) (hab : a.pid = b.pid) : a = b := by
  induction ps with
  | nil => simp at ha
  | cons x rest ih =>
    simp only [List.map_cons, List.nodup_cons] at h
    rcases List.mem_cons.mp ha with rfl | ha2
    · rcases List.mem_cons.mp hb with rfl | hb2
      · rfl
      · exact absurd (by rw [hab]; exact List.mem_map_of_mem (fun p => p.pid) hb2) h.1
    · rcases List.mem_cons.mp hb with rfl | hb2
      · exact absurd (by rw [← hab]; exact List.mem_map_of_mem (fun p => p.pid) ha2) h.1
      · exact ih h.2 ha2 hb2

theorem findIdxP_append_first (f : WProp → Bool) (A B : List WProp) (q : WProp)
    (hA : ∀ p ∈ A, f p = false) (hq : f q = true) :
    findIdxP f (A ++ q :: B) = some A.length := by
  induction A with
  | nil => simp [findIdxP, hq]
  | cons a A2 ih =>
    have ha := hA a (List.mem_cons_self a A2)
    rw [List.cons_append, findIdxP, if_neg (by simp [ha])]
    rw [ih (fun p hp => hA p (List.mem_cons_of_mem a hp))]
    rfl

theorem findIdxP_at_append (f : WProp → Bool) (A B : List WProp) (q : WProp)
    (h : findIdxP f (A ++ q :: B) = some A.length) : f q = true := by
  induction A with
  | nil =>
    rw [List.nil_append, findIdxP] at h
    by_cases hq : f q = true
    · exact hq
    · rw [if_neg hq] at h
      rcases Option.map_eq_some'.mp h with ⟨idx2, hfind, hidx⟩
      exact absurd hidx (by simp)
  | cons a A2 ih =>
    rw [List.cons_append, findIdxP] at h
    by_cases ha : f a = true
    · rw [if_pos ha] at h
      have h2 := Option.some.inj h
      rw [List.length_cons] at h2
      exact absurd h2 (by omega)
    · rw [if_neg ha] at h
      rcases Option.map_eq_some'.mp h with ⟨idx2, hfind, hidx⟩
      rw [List.length_cons] at hidx
      have h3 : idx2 = A2.length := by omega
      subst h3
      exact ih hfind

theorem setPropNodeP_split (pid : Nat) (nd : Cst) (A B : List WProp) (q : WProp)
    (hA : ∀ p ∈ A, (p.pid == pid) = false) (hq : (q.pid == pid) = true) :
    setPropNodeP pid nd (A ++ q :: B) = A ++ ⟨q.pid, q.name, nd⟩ :: B := by
  induction A with
  | nil => simp [setPropNodeP, hq]
  | cons a A2 ih =>
    have ha := hA a (List.mem_cons_self a A2)
    simp only [List.cons_append, setPropNodeP, ha, Bool.false_eq_true, if_false,
      List.append_eq]
    rw [ih (fun p hp => hA p (List.mem_cons_of_mem a hp))]

theorem setPropNodeP_names (pid : Nat) (nd : Cst) (ps : List WProp) :
    (setPropNodeP pid nd ps).map (fun p => p.name) = ps.map (fun p => p.name) := by
  induction ps with
  | nil => rfl
  | cons p rest ih =>
    by_cases hp : (p.pid == pid) = true
    · simp [setPropNodeP, hp]
    · rw [Bool.not_eq_true] at hp
      simp only [setPropNodeP, hp, Bool.false_eq_true, if_false, List.map_cons]
      rw [ih]

theorem nodup_append_cons_pid_ne (A B : List WProp) (q : WProp)
    (h : ((A ++ q :: B).map (fun p => p.pid)).Nodup) :
    ∀ p ∈ A, (p.pid == q.pid) = false := by
  intro p hp
  rw [beq_eq_false_iff_ne]
  intro he
  rw [List.map_append, List.map_cons, List.nodup_middle] at h
  have h1 := (List.nodup_cons.mp h).1
  apply h1
  apply List.mem_append_left
  rw [← he]
  exact List.mem_map_of_mem (fun p => p.pid) hp

theorem find?_eq_some_of_unique (l : List (String × Nat)) (f : String × Nat → Bool)
    (x : String × Nat) (hx : x ∈ l) (hfx : f x = true)
    (huniq : ∀ y ∈ l, f y = true → y = x) : l.find? f = some x := by
  induction l with
  | nil => simp at hx
  | cons a rest ih =>
    by_cases ha : f a = true
    · have hax : a = x := huniq a (List.mem_cons_self a rest) ha
      subst hax
      simp [List.find?, ha]
    · rw [Bool.not_eq_true] at ha
      have hne : a ≠ x := by
        intro hc
        rw [hc, hfx] at ha
        cases ha
      rcases List.mem_cons.mp hx with rfl | hx2
      · exact absurd rfl hne
      · simp only [List.find?, ha]
        exact ih hx2 (fun y hy hfy => huniq y (List.mem_cons_of_mem a hy) hfy)

theorem take_drop_insert_append (X Y : List WProp) (p : WProp) :
    (X ++ Y).take X.length ++ p :: (X ++ Y).drop X.length = X ++ p :: Y := by
  rw [List.take_left, List.drop_left]

theorem drop_succ_append (X Y : List WProp) (h : WProp) :
    (X ++ h :: Y).drop (X.length + 1) = Y := by
  have h1 : (X ++ [h]).length = X.length + 1 := by simp
  have h2 := @List.drop_left' WProp (X ++ [h]) Y (X.length + 1) h1
  rw [List.append_assoc, List.singleton_append] at h2
  exact h2

theorem contains_erase_of_ne (l : List String) (a b : String) (hne : b ≠ a) :
    (l.erase a).contains b = l.contains b := by
  cases hc : l.contains b
  · rw [Bool.eq_false_iff]
    intro hcon
    have hb : b ∈ l := (List.mem_erase_of_ne hne).mp (List.elem_iff.mp hcon)
    have hb2 : l.contains b = true := List.elem_iff.mpr hb
    rw [hb2] at hc
    cases hc
  · exact List.elem_iff.mpr ((List.mem_erase_of_ne hne).mpr (List.elem_iff.mp hc))

theorem contains_filter_of_mem (l : List String) (f : String → Bool) (a : String)
    (ha : a ∈ l) : (l.filter f).contains a = f a := by
  cases hf : f a
  · rw [Bool.eq_false_iff]
    intro hcon
    have := List.of_mem_filter (List.elem_iff.mp hcon)
    rw [hf] at this
    cases this
  · exact List.elem_iff.mpr (List.mem_filter.mpr ⟨ha, hf⟩)

theorem nodup_middle_insert {α : Type} (l₁ l₂ : List α) (a b : α)
    (h : (l₁ ++ a :: l₂).Nodup) (hb : b ∉ l₁ ++ l₂) : (l₁ ++ b :: l₂).Nodup := by
  rw [List.nodup_middle] at h ⊢
  exact List.nodup_cons.mpr ⟨hb, (List.nodup_cons.mp h).2⟩

theorem filter_name_map (ps : List WProp) (g : String → Bool) :
    (ps.filter (fun p => g p.name)).map (fun p => p.name)
      = (ps.map (fun p => p.name)).filter g := by
  induction ps with
  | nil => rfl
  | cons p rest ih =>
    rw [List.map_cons, List.filter_cons, List.filter_cons]
    by_cases hg : g p.name = true
    · rw [if_pos hg, if_pos hg, List.map_cons, ih]
    · rw [if_neg hg, if_neg hg, ih]

theorem propsO_map_fst (items : List OItem) :
    (propsO items).map Prod.fst = oNames items := by
  induction items with
  | nil => rfl
  | cons it rest ih =>
    cases it with
    | trivia t => simp only [propsO, oNames]; exact ih
    | prop k n => simp only [propsO, oNames, List.map_cons]; rw [ih]

theorem propsO_untagO (its : List WOItem) :
    propsO (untagO its) = (wprops its).map (fun p => (p.name, p.node)) := by
  induction its with
  | nil => rfl
  | cons it rest ih =>
    cases it with
    | trivia t => simp only [untagO, propsO, wprops]; exact ih
    | prop p => simp only [untagO, propsO, wprops, List.map_cons]; rw [ih]

theorem lookupC_of_mem_nodup (l : List (String × Cst)) (hn : (l.map Prod.fst).Nodup)
    (a : String) (b : Cst) (hm : (a, b) ∈ l) : l.lookup a = some b := by
  induction l with
  | nil => simp at hm
  | cons e rest ih =>
    simp only [List.map_cons, List.nodup_cons] at hn
    rcases List.mem_cons.mp hm with he | hm2
    · rw [← he]
      rw [List.lookup]
      rw [show (a == (a, b).1) = true from beq_self_eq_true a]
    · have hne : (a == e.1) = false := by
        rw [beq_eq_false_iff_ne]
        intro hc
        apply hn.1
        rw [← hc]
        exact List.mem_map_of_mem Prod.fst hm2
      rw [List.lookup, hne]
      exact ih hn.2 hm2

theorem lookupC_eq_none_of_not_mem (l : List (String × Cst)) (a : String)
    (h : a ∉ l.map Prod.fst) : l.lookup a = none := by
  induction l with
  | nil => rfl
  | cons e rest ih =>
    simp only [List.map_cons, List.mem_cons] at h
    push_neg at h
    have hne : (a == e.1) = false := by
      rw [beq_eq_false_iff_ne]
      exact h.1
    rw [List.lookup, hne]
    exact ih h.2

/-- Target-order step, shared key: when the next target key already exists in
the object, `objStep` updates the property in place; the position cursor moves
just past it, skipped-over properties are all scheduled for removal, and the
identity/name structure of the tree is untouched. -/
theorem c2_step_shared (upd : Cst → JsonValue → Cst) (snapMap : List (String × Nat))
    (snapProps : List WProp)
    (hswap : snapMap = snapProps.map (fun p => (p.name, p.pid)))
    (hnamenodupS : (snapProps.map (fun p => p.name)).Nodup)
    (k : String) (v : JsonValue) (rest : List (String × JsonValue)) (st : ObjState)
    (X Y : List WProp) (pid : Nat) (hlk : snapMap.lookup k = some pid)
    (B0 : wprops st.items = X ++ Y)
    (B3 : (Y.filter (fun p => !(st.toRemove.contains p.name))).map (fun p => p.name)
        = (((k, v) :: rest).map Prod.fst).filter
            (fun s => (snapProps.map (fun p => p.name)).contains s))
    (B6 : ((wprops st.items).map (fun p => p.pid)).Nodup)
    (B10 : ∀ p ∈ Y, p ∈ snapProps) :
    ∃ X1 Y1 w, w ∈ snapProps ∧ w.name = k ∧
      wprops (objStep upd snapMap st k v).items = X1 ++ Y1 ∧
      (objStep upd snapMap st k v).insertIndex = X1.length ∧
      (objStep upd snapMap st k v).toRemove = st.toRemove ∧
      (objStep upd snapMap st k v).processed = k :: st.processed ∧
      (objStep upd snapMap st k v).nextPid = st.nextPid ∧
      (Y1.filter (fun p => !(st.toRemove.contains p.name))).map (fun p => p.name)
        = (rest.map Prod.fst).filter
            (fun s => (snapProps.map (fun p => p.name)).contains s) ∧
      (X1.filter (fun p => !(st.toRemove.contains p.name))).map
          (fun p => (p.name, p.node))
        = (X.filter (fun p => !(st.toRemove.contains p.name))).map
            (fun p => (p.name, p.node)) ++ [(k, upd w.node v)] ∧
      (wprops (objStep upd snapMap st k v).items).map (fun p => (p.pid, p.name))
        = (wprops st.items).map (fun p => (p.pid, p.name)) ∧
      (∀ p ∈ Y1, p ∈ Y) := by
  have hkmem : (k, pid) ∈ snapMap := lookup_mem _ _ _ hlk
  have hksh : (snapProps.map (fun p => p.name)).contains k = true := by
    rw [hswap] at hkmem
    rcases List.mem_map.mp hkmem with ⟨p0, hp0, heq⟩
    have h1 : p0.name = k := congrArg Prod.fst heq
    exact List.elem_iff.mpr (h1 ▸ List.mem_map_of_mem (fun p => p.name) hp0)
  have hB3h : (Y.filter (fun p => !(st.toRemove.contains p.name))).map (fun p => p.name)
      = k :: ((rest.map Prod.fst).filter
          (fun s => (snapProps.map (fun p => p.name)).contains s)) := by
    rw [B3, List.map_cons, List.filter_cons, if_pos hksh]
  rcases List.map_eq_cons_iff.mp hB3h with ⟨w, ws, hfY, hwname, hwsmap⟩
  rcases List.filter_eq_cons_iff.mp hfY with ⟨Y₁, Y₂, hYdec, hY₁, hkeepw, hY₂f⟩
  have hwY : w ∈ Y := by
    rw [hYdec]
    exact List.mem_append_right _ (List.mem_cons_self _ _)
  have hwS : w ∈ snapProps := B10 w hwY
  have hpidw : pid = w.pid := by
    rw [hswap] at hkmem
    rcases List.mem_map.mp hkmem with ⟨p0, hp0, heq⟩
    have h1 : p0.name = k := congrArg Prod.fst heq
    have h2 : p0.pid = pid := congrArg Prod.snd heq
    have h3 : p0 = w := nodup_name_mem_eq snapProps hnamenodupS p0 w hp0 hwS
      (by rw [h1, hwname])
    rw [← h2, h3]
  subst hpidw
  have htree : wprops st.items = (X ++ Y₁) ++ w :: Y₂ := by
    rw [B0, hYdec, List.append_assoc]
  have hwT : w ∈ wprops st.items := by
    rw [htree]
    exact List.mem_append_right _ (List.mem_cons_self _ _)
  have hget : getPropNode w.pid st.items = some w.node := by
    rw [getPropNode, find_pid_self (wprops st.items) B6 w hwT]
    rfl
  have hAne : ∀ p ∈ X ++ Y₁, (p.pid == w.pid) = false :=
    nodup_append_cons_pid_ne (X ++ Y₁) Y₂ w (by rw [← htree]; exact B6)
  have hw1 : wprops (setPropNode w.pid (upd w.node v) st.items)
      = (X ++ Y₁) ++ (⟨w.pid, w.name, upd w.node v⟩ : WProp) :: Y₂ := by
    rw [wprops_setPropNode, htree,
      setPropNodeP_split _ _ _ _ _ hAne (beq_self_eq_true w.pid)]
  have hidx : propIndexOf? w.pid (setPropNode w.pid (upd w.node v) st.items)
      = some ((X ++ Y₁).length) := by
    rw [propIndexOf?, hw1]
    exact findIdxP_append_first _ _ _ _ hAne (beq_self_eq_true w.pid)
  refine ⟨(X ++ Y₁) ++ [⟨w.pid, w.name, upd w.node v⟩], Y₂, w, hwS, hwname,
    ?_, ?_, ?_, ?_, ?_, ?_, ?_, ?_, ?_⟩
  · simp only [objStep, hlk, hget]
    rw [hw1]
    simp [List.append_assoc]
  · simp only [objStep, hlk, hget]
    rw [hidx]
    simp only [Option.getD_some, List.length_append, List.length_cons,
      List.length_nil]
  · simp only [objStep, hlk, hget]
  · simp only [objStep, hlk, hget]
  · simp only [objStep, hlk, hget]
  · rw [hY₂f]
    exact hwsmap
  · rw [List.filter_append, List.filter_append, List.filter_eq_nil_iff.mpr hY₁]
    have hkw : ((fun p => !(st.toRemove.contains p.name))
        (⟨w.pid, w.name, upd w.node v⟩ : WProp)) = true := hkeepw
    rw [List.filter_cons, if_pos hkw, List.filter_nil]
    simp [hwname]
  · simp only [objStep, hlk, hget]
    rw [hw1, htree]
    simp
  · intro p hp
    rw [hYdec]
    exact List.mem_append_right _ (List.mem_cons_of_mem _ hp)

/-- With the position cursor past every property, no rename candidate exists:
the positional test `propertyIndex() === insertIndex` can never hit. -/
theorem c2_cand_none_empty (snapMap : List (String × Nat)) (st : ObjState)
    (k : String) (hlen : st.insertIndex = (wprops st.items).length) :
    findRenameCandidate snapMap st.toRemove (k :: st.processed)
        st.insertIndex st.items = none := by
  rw [findRenameCandidate]
  apply List.find?_eq_none.mpr
  intro e he hpred
  simp only [Bool.and_eq_true] at hpred
  have h3 := eq_of_beq hpred.2
  rw [propIndexOf?] at h3
  have h4 := findIdxP_lt_length _ _ _ h3
  omega

/-- When the property at the cursor is not scheduled for removal, no rename
candidate exists: the only snapshot entry whose current index equals the
cursor is that property itself, and it fails the `propsToRemove` test. -/
theorem c2_cand_none_kept (snapMap : List (String × Nat)) (snapProps : List WProp)
    (st : ObjState) (k : String) (X Y₂ : List WProp) (h : WProp)
    (hswap : snapMap = snapProps.map (fun p => (p.name, p.pid)))
    (hpidnodupS : (snapProps.map (fun p => p.pid)).Nodup)
    (hS : h ∈ snapProps)
    (hkeeph : st.toRemove.contains h.name = false)
    (B0 : wprops st.items = X ++ h :: Y₂)
    (B1 : st.insertIndex = X.length) :
    findRenameCandidate snapMap st.toRemove (k :: st.processed)
        st.insertIndex st.items = none := by
  rw [findRenameCandidate]
  apply List.find?_eq_none.mpr
  intro e he hpred
  simp only [Bool.and_eq_true] at hpred
  have h3 := eq_of_beq hpred.2
  rw [propIndexOf?, B0, B1] at h3
  have h4 := findIdxP_at_append _ _ _ _ h3
  have he2 : e.2 = h.pid := (beq_iff_eq.mp h4).symm
  rw [hswap] at he
  rcases List.mem_map.mp he with ⟨p0, hp0, heq⟩
  have h5 : p0.name = e.1 := congrArg Prod.fst heq
  have h6 : p0.pid = e.2 := congrArg Prod.snd heq
  have h7 : p0 = h := nodup_pid_mem_eq snapProps hpidnodupS p0 h hp0 hS (by omega)
  have h8 := hpred.1.1
  rw [← h5, h7, hkeeph] at h8
  cases h8

/-- When the property at the cursor is scheduled for removal and unprocessed,
the rename search returns exactly that property's snapshot entry. -/
theorem c2_cand_rename (snapMap : List (String × Nat)) (snapProps : List WProp)
    (st : ObjState) (k : String) (X Y₂ : List WProp) (h : WProp)
    (hswap : snapMap = snapProps.map (fun p => (p.name, p.pid)))
    (hpidnodupS : (snapProps.map (fun p => p.pid)).Nodup)
    (hS : h ∈ snapProps)
    (hrem : st.toRemove.contains h.name = true)
    (hnp : (k :: st.processed).contains h.name = false)
    (B0 : wprops st.items = X ++ h :: Y₂)
    (B1 : st.insertIndex = X.length)
    (B6 : ((wprops st.items).map (fun p => p.pid)).Nodup) :
    findRenameCandidate snapMap st.toRemove (k :: st.processed)
        st.insertIndex st.items = some (h.name, h.pid) := by
  have hAne : ∀ p ∈ X, (p.pid == h.pid) = false :=
    nodup_append_cons_pid_ne X Y₂ h (by rw [← B0]; exact B6)
  have hidx : propIndexOf? h.pid st.items = some X.length := by
    rw [propIndexOf?, B0]
    exact findIdxP_append_first _ _ _ _ hAne (beq_self_eq_true h.pid)
  rw [findRenameCandidate]
  apply find?_eq_some_of_unique
  · rw [hswap]
    exact List.mem_map_of_mem _ hS
  · simp only [Bool.and_eq_true]
    refine ⟨⟨hrem, ?_⟩, ?_⟩
    · show (!(k :: st.processed).contains h.name) = true
      rw [hnp]
      rfl
    · rw [hidx, B1]
      exact beq_self_eq_true _
  · intro y hy hfy
    simp only [Bool.and_eq_true] at hfy
    have h3 := eq_of_beq hfy.2
    rw [propIndexOf?, B0, B1] at h3
    have h4 := findIdxP_at_append _ _ _ _ h3
    have hy2 : y.2 = h.pid := (beq_iff_eq.mp h4).symm
    rw [hswap] at hy
    rcases List.mem_map.mp hy with ⟨p0, hp0, heq⟩
    have h5 : p0.name = y.1 := congrArg Prod.fst heq
    have h6 : p0.pid = y.2 := congrArg Prod.snd heq
    have h7 : p0 = h := nodup_pid_mem_eq snapProps hpidnodupS p0 h hp0 hS (by omega)
    obtain ⟨y1, y2⟩ := y
    have hy1 : y1 = h.name := by
      rw [← h7]
      exact h5.symm
    have hy2b : y2 = h.pid := hy2
    rw [hy1, hy2b]

/-- Target-order step, new key without a rename candidate: the fresh property
is spliced in at the cursor, in front of the not-yet-processed suffix. -/
theorem c2_step_new_nocand (upd : Cst → JsonValue → Cst)
    (snapMap : List (String × Nat)) (st : ObjState) (k : String) (v : JsonValue)
    (X Y : List WProp)
    (hlk : snapMap.lookup k = none)
    (hcand : findRenameCandidate snapMap st.toRemove (k :: st.processed)
        st.insertIndex st.items = none)
    (B0 : wprops st.items = X ++ Y)
    (B1 : st.insertIndex = X.length) :
    wprops (objStep upd snapMap st k v).items
        = (X ++ [⟨st.nextPid, k, forceMultilineIfNewArray v (buildNode v)⟩]) ++ Y ∧
    (objStep upd snapMap st k v).insertIndex
        = (X ++ [(⟨st.nextPid, k, forceMultilineIfNewArray v (buildNode v)⟩ : WProp)]).length ∧
    (objStep upd snapMap st k v).toRemove = st.toRemove ∧
    (objStep upd snapMap st k v).processed = k :: st.processed ∧
    (objStep upd snapMap st k v).nextPid = st.nextPid + 1 := by
  rw [findRenameCandidate] at hcand
  simp only [objStep, hlk, findRenameCandidate, hcand]
  refine ⟨?_, ?_, by trivial, by trivial, by trivial⟩
  · rw [wprops_insertPropAt, B1, B0, take_drop_insert_append]
    simp [List.append_assoc]
  · simp [B1, List.length_append]

/-- Target-order step, new key renaming the removable property at the cursor:
that property is removed and the fresh property takes exactly its position. -/
theorem c2_step_rename (upd : Cst → JsonValue → Cst)
    (snapMap : List (String × Nat)) (st : ObjState) (k : String) (v : JsonValue)
    (X Y₂ : List WProp) (h : WProp)
    (hlk : snapMap.lookup k = none)
    (hcand : findRenameCandidate snapMap st.toRemove (k :: st.processed)
        st.insertIndex st.items = some (h.name, h.pid))
    (B0 : wprops st.items = X ++ h :: Y₂)
    (B6 : ((wprops st.items).map (fun p => p.pid)).Nodup) :
    wprops (objStep upd snapMap st k v).items
        = (X ++ [⟨st.nextPid, k, forceMultilineIfNewArray v (buildNode v)⟩]) ++ Y₂ ∧
    (objStep upd snapMap st k v).insertIndex
        = (X ++ [(⟨st.nextPid, k, forceMultilineIfNewArray v (buildNode v)⟩ : WProp)]).length ∧
    (objStep upd snapMap st k v).toRemove = st.toRemove.erase h.name ∧
    (objStep upd snapMap st k v).processed = h.name :: k :: st.processed ∧
    (objStep upd snapMap st k v).nextPid = st.nextPid + 1 := by
  have hAne : ∀ p ∈ X, (p.pid == h.pid) = false :=
    nodup_append_cons_pid_ne X Y₂ h (by rw [← B0]; exact B6)
  have hfind : findIdxP (fun p => p.pid == h.pid) (wprops st.items) = some X.length := by
    rw [B0]
    exact findIdxP_append_first _ _ _ _ hAne (beq_self_eq_true h.pid)
  have hidx : propIndexOf? h.pid st.items = some X.length := by
    rw [propIndexOf?]
    exact hfind
  have hrm : wprops (removePid h.pid st.items) = X ++ Y₂ := by
    rw [wprops_removePid, removePidP_take_drop _ _ _ hfind, B0, List.take_left,
      drop_succ_append]
  rw [findRenameCandidate] at hcand
  simp only [objStep, hlk, findRenameCandidate, hcand]
  refine ⟨?_, ?_, by trivial, by trivial, by trivial⟩
  · rw [hidx]
    simp only [Option.getD_some]
    rw [wprops_insertPropAt, hrm, take_drop_insert_append]
    simp [List.append_assoc]
  · rw [hidx]
    simp only [Option.getD_some]
    simp [List.length_append]

theorem nodup_insert_of_append {α : Type} (l₁ l₂ : List α) (b : α)
    (h : (l₁ ++ l₂).Nodup) (hb : b ∉ l₁ ++ l₂) : (l₁ ++ b :: l₂).Nodup := by
  rw [List.nodup_middle]
  exact List.nodup_cons.mpr ⟨hb, h⟩

theorem pairs_transfer (l1 l2 : List WProp)
    (h : l1.map (fun p => (p.pid, p.name)) = l2.map (fun p => (p.pid, p.name)))
    (p : WProp) (hp : p ∈ l1) : ∃ q ∈ l2, q.pid = p.pid ∧ q.name = p.name := by
  have hm : (p.pid, p.name) ∈ l2.map (fun p => (p.pid, p.name)) := by
    rw [← h]
    exact List.mem_map_of_mem _ hp
  rcases List.mem_map.mp hm with ⟨q, hq, heq⟩
  exact ⟨q, hq, congrArg Prod.fst heq, congrArg Prod.snd heq⟩

/-- A key that is neither an original name nor a pending target key cannot
name any live property. -/
theorem c2_fresh_name (ps : List WProp) (snapProps : List WProp) (m : Nat)
    (keys : List String) (k : String)
    (hk1 : k ∉ snapProps.map (fun p => p.name))
    (h4 : ∀ p ∈ ps, p.pid < m → (p.pid, p.name) ∈ pidNames snapProps)
    (h17 : ∀ p ∈ ps, m ≤ p.pid → keys.contains p.name = false)
    (hkk : keys.contains k = true) :
    k ∉ ps.map (fun p => p.name) := by
  intro hc
  rcases List.mem_map.mp hc with ⟨p, hp, hpk⟩
  by_cases hm : p.pid < m
  · have h5 := h4 p hp hm
    apply hk1
    have h7 := List.mem_map_of_mem Prod.snd h5
    rw [pidNames_map_snd] at h7
    rw [← hpk]
    exact h7
  · have h8 := h17 p hp (Nat.le_of_not_lt hm)
    rw [hpk, hkk] at h8
    cases h8

theorem fresh_pid_not_in (ps : List WProp) (n : Nat)
    (h7 : ∀ p ∈ ps, p.pid < n) : n ∉ ps.map (fun p => p.pid) := by
  intro hc
  rcases List.mem_map.mp hc with ⟨p, hp, hpk⟩
  have := h7 p hp
  omega

theorem names_ne_of_nodup_middle (X Y₂ : List WProp) (h : WProp)
    (hn : ((X ++ h :: Y₂).map (fun p => p.name)).Nodup) :
    ∀ p ∈ X ++ Y₂, p.name ≠ h.name := by
  rw [List.map_append, List.map_cons, List.nodup_middle] at hn
  have h1 := (List.nodup_cons.mp hn).1
  intro p hp hne
  apply h1
  rw [← hne, ← List.map_append]
  exact List.mem_map_of_mem _ hp

/-- Invariant preservation for a new key with no rename candidate: the fresh
property is inserted at the cursor and every loop invariant carries over. -/
theorem c2_new_assembled (upd : Cst → JsonValue → Cst)
    (snapMap : List (String × Nat)) (snapProps : List WProp) (m : Nat)
    (KB : String → Bool) (k : String) (v : JsonValue)
    (rest : List (String × JsonValue)) (st : ObjState) (X Y : List WProp)
    (hlk : snapMap.lookup k = none)
    (hcand : findRenameCandidate snapMap st.toRemove (k :: st.processed)
        st.insertIndex st.items = none)
    (hknm : k ∉ snapProps.map (fun p => p.name))
    (hknoto : (snapProps.map (fun p => p.name)).contains k = false)
    (hKBk : KB k = true)
    (hkrm : st.toRemove.contains k = false)
    (hkrest : (rest.map Prod.fst).contains k = false)
    (B0 : wprops st.items = X ++ Y)
    (B1 : st.insertIndex = X.length)
    (hB3t : (Y.filter (fun p => !(st.toRemove.contains p.name))).map (fun p => p.name)
        = (rest.map Prod.fst).filter
            (fun s => (snapProps.map (fun p => p.name)).contains s))
    (B4 : ∀ p ∈ wprops st.items, p.pid < m → (p.pid, p.name) ∈ pidNames snapProps)
    (B5 : ((wprops st.items).map (fun p => p.name)).Nodup)
    (B6 : ((wprops st.items).map (fun p => p.pid)).Nodup)
    (B7 : ∀ p ∈ wprops st.items, p.pid < st.nextPid)
    (B8 : m ≤ st.nextPid)
    (B9 : ∀ s ∈ st.toRemove,
        (snapProps.map (fun p => p.name)).contains s = true ∧ KB s = false)
    (B10 : ∀ p ∈ Y, p ∈ snapProps)
    (B12 : ∀ s ∈ st.processed, st.toRemove.contains s = false ∨ KB s = true)
    (B13 : st.toRemove.Nodup)
    (B14 : ∀ p ∈ wprops st.items, m ≤ p.pid →
        (snapProps.map (fun p => p.name)).contains p.name = false)
    (B17 : ∀ p ∈ wprops st.items, m ≤ p.pid →
        ((((k, v) :: rest)).map Prod.fst).contains p.name = false) :
    wprops (objStep upd snapMap st k v).items
        = (X ++ [⟨st.nextPid, k, forceMultilineIfNewArray v (buildNode v)⟩]) ++ Y ∧
    (objStep upd snapMap st k v).insertIndex
        = (X ++ [(⟨st.nextPid, k, forceMultilineIfNewArray v (buildNode v)⟩ : WProp)]).length ∧
    ((Y.filter (fun p => !((objStep upd snapMap st k v).toRemove.contains p.name))).map
        (fun p => p.name)
      = (rest.map Prod.fst).filter
          (fun s => (snapProps.map (fun p => p.name)).contains s)) ∧
    (∀ p ∈ wprops (objStep upd snapMap st k v).items, p.pid < m →
        (p.pid, p.name) ∈ pidNames snapProps) ∧
    ((wprops (objStep upd snapMap st k v).items).map (fun p => p.name)).Nodup ∧
    ((wprops (objStep upd snapMap st k v).items).map (fun p => p.pid)).Nodup ∧
    (∀ p ∈ wprops (objStep upd snapMap st k v).items,
        p.pid < (objStep upd snapMap st k v).nextPid) ∧
    m ≤ (objStep upd snapMap st k v).nextPid ∧
    (∀ s ∈ (objStep upd snapMap st k v).toRemove,
        (snapProps.map (fun p => p.name)).contains s = true ∧ KB s = false) ∧
    (∀ p ∈ Y, p ∈ snapProps) ∧
    (∀ s ∈ (objStep upd snapMap st k v).processed,
        (objStep upd snapMap st k v).toRemove.contains s = false ∨ KB s = true) ∧
    (objStep upd snapMap st k v).toRemove.Nodup ∧
    (∀ p ∈ wprops (objStep upd snapMap st k v).items, m ≤ p.pid →
        (snapProps.map (fun p => p.name)).contains p.name = false) ∧
    (∀ p ∈ wprops (objStep upd snapMap st k v).items, m ≤ p.pid →
        (rest.map Prod.fst).contains p.name = false) ∧
    (((X ++ [(⟨st.nextPid, k, forceMultilineIfNewArray v (buildNode v)⟩ : WProp)]).filter
        (fun p => !((objStep upd snapMap st k v).toRemove.contains p.name))).map
        (fun p => (p.name, p.node))
      = (X.filter (fun p => !(st.toRemove.contains p.name))).map
          (fun p => (p.name, p.node))
        ++ [(k, forceMultilineIfNewArray v (buildNode v))]) := by
  obtain ⟨C0, C1, C2a, C2b, C2c⟩ :=
    c2_step_new_nocand upd snapMap st k v X Y hlk hcand B0 B1
  have hpidnew : ((⟨st.nextPid, k, forceMultilineIfNewArray v (buildNode v)⟩ : WProp)).pid
      = st.nextPid := rfl
  have hnamenew : ((⟨st.nextPid, k, forceMultilineIfNewArray v (buildNode v)⟩ : WProp)).name
      = k := rfl
  have hmem1 : ∀ p ∈ wprops (objStep upd snapMap st k v).items,
      p = (⟨st.nextPid, k, forceMultilineIfNewArray v (buildNode v)⟩ : WProp)
        ∨ p ∈ wprops st.items := by
    intro p hp
    rw [C0] at hp
    rcases List.mem_append.mp hp with h1 | h2
    · rcases List.mem_append.mp h1 with hx | hn
      · exact Or.inr (by rw [B0]; exact List.mem_append_left _ hx)
      · exact Or.inl (List.mem_singleton.mp hn)
    · exact Or.inr (by rw [B0]; exact List.mem_append_right _ h2)
  have honames : (wprops st.items).map (fun p => p.name)
      = X.map (fun p => p.name) ++ Y.map (fun p => p.name) := by
    rw [B0, List.map_append]
  have hopids : (wprops st.items).map (fun p => p.pid)
      = X.map (fun p => p.pid) ++ Y.map (fun p => p.pid) := by
    rw [B0, List.map_append]
  have hnames : (wprops (objStep upd snapMap st k v).items).map (fun p => p.name)
      = X.map (fun p => p.name) ++ k :: Y.map (fun p => p.name) := by
    rw [C0]
    simp
  have hpids : (wprops (objStep upd snapMap st k v).items).map (fun p => p.pid)
      = X.map (fun p => p.pid) ++ st.nextPid :: Y.map (fun p => p.pid) := by
    rw [C0]
    simp
  have hknames : k ∉ X.map (fun p => p.name) ++ Y.map (fun p => p.name) := by
    rw [← honames]
    exact c2_fresh_name _ snapProps m (((k, v) :: rest).map Prod.fst) k hknm B4 B17
      (by simp)
  refine ⟨C0, C1, ?_, ?_, ?_, ?_, ?_, ?_, ?_, B10, ?_, ?_, ?_, ?_, ?_⟩
  · rw [C2a]
    exact hB3t
  · intro p hp hm
    rcases hmem1 p hp with rfl | hold
    · rw [hpidnew] at hm
      omega
    · exact B4 p hold hm
  · rw [hnames]
    apply nodup_insert_of_append
    · rw [← honames]
      exact B5
    · exact hknames
  · rw [hpids]
    apply nodup_insert_of_append
    · rw [← hopids]
      exact B6
    · rw [← hopids]
      exact fresh_pid_not_in _ _ B7
  · intro p hp
    rw [C2c]
    rcases hmem1 p hp with rfl | hold
    · rw [hpidnew]
      omega
    · have := B7 p hold
      omega
  · rw [C2c]
    omega
  · rw [C2a]
    exact B9
  · rw [C2a, C2b]
    intro s hs
    rcases List.mem_cons.mp hs with rfl | hold
    · exact Or.inr hKBk
    · exact B12 s hold
  · rw [C2a]
    exact B13
  · intro p hp hm
    rcases hmem1 p hp with rfl | hold
    · rw [hnamenew]
      exact hknoto
    · exact B14 p hold hm
  · intro p hp hm
    rcases hmem1 p hp with rfl | hold
    · rw [hnamenew]
      exact hkrest
    · have h8 := B17 p hold hm
      simp only [List.map_cons, List.contains_cons, Bool.or_eq_false_iff] at h8
      exact h8.2
  · rw [C2a, List.filter_append]
    have hkeepnew : ((fun p => !(st.toRemove.contains p.name))
        (⟨st.nextPid, k, forceMultilineIfNewArray v (buildNode v)⟩ : WProp)) = true := by
      show (!(st.toRemove.contains k)) = true
      rw [hkrm]
      rfl
    rw [List.filter_cons, if_pos hkeepnew, List.filter_nil, List.map_append]
    rfl

/-- Invariant preservation for a new key that renames the removable property
sitting at the cursor: the old property disappears, the fresh one takes its
position, and every loop invariant carries over. -/
theorem c2_rename_assembled (upd : Cst → JsonValue → Cst)
    (snapMap : List (String × Nat)) (snapProps : List WProp) (m : Nat)
    (KB : String → Bool) (k : String) (v : JsonValue)
    (rest : List (String × JsonValue)) (st : ObjState) (X Y₂ : List WProp) (h : WProp)
    (hlk : snapMap.lookup k = none)
    (hcand : findRenameCandidate snapMap st.toRemove (k :: st.processed)
        st.insertIndex st.items = some (h.name, h.pid))
    (hknm : k ∉ snapProps.map (fun p => p.name))
    (hknoto : (snapProps.map (fun p => p.name)).contains k = false)
    (hKBk : KB k = true)
    (hkrm : st.toRemove.contains k = false)
    (hkrest : (rest.map Prod.fst).contains k = false)
    (hremh : st.toRemove.contains h.name = true)
    (B0 : wprops st.items = X ++ h :: Y₂)
    (hB3t : (Y₂.filter (fun p => !(st.toRemove.contains p.name))).map (fun p => p.name)
        = (rest.map Prod.fst).filter
            (fun s => (snapProps.map (fun p => p.name)).contains s))
    (B4 : ∀ p ∈ wprops st.items, p.pid < m → (p.pid, p.name) ∈ pidNames snapProps)
    (B5 : ((wprops st.items).map (fun p => p.name)).Nodup)
    (B6 : ((wprops st.items).map (fun p => p.pid)).Nodup)
    (B7 : ∀ p ∈ wprops st.items, p.pid < st.nextPid)
    (B8 : m ≤ st.nextPid)
    (B9 : ∀ s ∈ st.toRemove,
        (snapProps.map (fun p => p.name)).contains s = true ∧ KB s = false)
    (B10 : ∀ p ∈ h :: Y₂, p ∈ snapProps)
    (B12 : ∀ s ∈ st.processed, st.toRemove.contains s = false ∨ KB s = true)
    (B13 : st.toRemove.Nodup)
    (B14 : ∀ p ∈ wprops st.items, m ≤ p.pid →
        (snapProps.map (fun p => p.name)).contains p.name = false)
    (B17 : ∀ p ∈ wprops st.items, m ≤ p.pid →
        ((((k, v) :: rest)).map Prod.fst).contains p.name = false) :
    wprops (objStep upd snapMap st k v).items
        = (X ++ [⟨st.nextPid, k, forceMultilineIfNewArray v (buildNode v)⟩]) ++ Y₂ ∧
    (objStep upd snapMap st k v).insertIndex
        = (X ++ [(⟨st.nextPid, k, forceMultilineIfNewArray v (buildNode v)⟩ : WProp)]).length ∧
    ((Y₂.filter (fun p => !((objStep upd snapMap st k v).toRemove.contains p.name))).map
        (fun p => p.name)
      = (rest.map Prod.fst).filter
          (fun s => (snapProps.map (fun p => p.name)).contains s)) ∧
    (∀ p ∈ wprops (objStep upd snapMap st k v).items, p.pid < m →
        (p.pid, p.name) ∈ pidNames snapProps) ∧
    ((wprops (objStep upd snapMap st k v).items).map (fun p => p.name)).Nodup ∧
    ((wprops (objStep upd snapMap st k v).items).map (fun p => p.pid)).Nodup ∧
    (∀ p ∈ wprops (objStep upd snapMap st k v).items,
        p.pid < (objStep upd snapMap st k v).nextPid) ∧
    m ≤ (objStep upd snapMap st k v).nextPid ∧
    (∀ s ∈ (objStep upd snapMap st k v).toRemove,
        (snapProps.map (fun p => p.name)).contains s = true ∧ KB s = false) ∧
    (∀ p ∈ Y₂, p ∈ snapProps) ∧
    (∀ s ∈ (objStep upd snapMap st k v).processed,
        (objStep upd snapMap st k v).toRemove.contains s = false ∨ KB s = true) ∧
    (objStep upd snapMap st k v).toRemove.Nodup ∧
    (∀ p ∈ wprops (objStep upd snapMap st k v).items, m ≤ p.pid →
        (snapProps.map (fun p => p.name)).contains p.name = false) ∧
    (∀ p ∈ wprops (objStep upd snapMap st k v).items, m ≤ p.pid →
        (rest.map Prod.fst).contains p.name = false) ∧
    (((X ++ [(⟨st.nextPid, k, forceMultilineIfNewArray v (buildNode v)⟩ : WProp)]).filter
        (fun p => !((objStep upd snapMap st k v).toRemove.contains p.name))).map
        (fun p => (p.name, p.node))
      = (X.filter (fun p => !(st.toRemove.contains p.name))).map
          (fun p => (p.name, p.node))
        ++ [(k, forceMultilineIfNewArray v (buildNode v))]) := by
  obtain ⟨C0, C1, C2a, C2b, C2c⟩ :=
    c2_step_rename upd snapMap st k v X Y₂ h hlk hcand B0 B6
  have hpidnew : ((⟨st.nextPid, k, forceMultilineIfNewArray v (buildNode v)⟩ : WProp)).pid
      = st.nextPid := rfl
  have hnamenew : ((⟨st.nextPid, k, forceMultilineIfNewArray v (buildNode v)⟩ : WProp)).name
      = k := rfl
  have hsub : ∀ p ∈ X ++ Y₂, p ∈ wprops st.items := by
    intro p hp
    rw [B0]
    rcases List.mem_append.mp hp with h1 | h2
    · exact List.mem_append_left _ h1
    · exact List.mem_append_right _ (List.mem_cons_of_mem _ h2)
  have hmem1 : ∀ p ∈ wprops (objStep upd snapMap st k v).items,
      p = (⟨st.nextPid, k, forceMultilineIfNewArray v (buildNode v)⟩ : WProp)
        ∨ p ∈ wprops st.items := by
    intro p hp
    rw [C0] at hp
    rcases List.mem_append.mp hp with h1 | h2
    · rcases List.mem_append.mp h1 with hx | hn
      · exact Or.inr (hsub p (List.mem_append_left _ hx))
      · exact Or.inl (List.mem_singleton.mp hn)
    · exact Or.inr (hsub p (List.mem_append_right _ h2))
  have hne : ∀ p ∈ X ++ Y₂, p.name ≠ h.name :=
    names_ne_of_nodup_middle X Y₂ h (by rw [← B0]; exact B5)
  have hknek : k ≠ h.name := by
    intro hc
    apply hknm
    have h9 := (B9 h.name (List.elem_iff.mp hremh)).1
    rw [← hc] at h9
    exact List.elem_iff.mp h9
  have hkeep_congr : ∀ p ∈ X ++ Y₂,
      (!((st.toRemove.erase h.name).contains p.name))
        = (!(st.toRemove.contains p.name)) := by
    intro p hp
    rw [contains_erase_of_ne _ _ _ (hne p hp)]
  have honames : (wprops st.items).map (fun p => p.name)
      = X.map (fun p => p.name) ++ h.name :: Y₂.map (fun p => p.name) := by
    rw [B0]
    simp
  have hopids : (wprops st.items).map (fun p => p.pid)
      = X.map (fun p => p.pid) ++ h.pid :: Y₂.map (fun p => p.pid) := by
    rw [B0]
    simp
  have hnames : (wprops (objStep upd snapMap st k v).items).map (fun p => p.name)
      = X.map (fun p => p.name) ++ k :: Y₂.map (fun p => p.name) := by
    rw [C0]
    simp
  have hpids : (wprops (objStep upd snapMap st k v).items).map (fun p => p.pid)
      = X.map (fun p => p.pid) ++ st.nextPid :: Y₂.map (fun p => p.pid) := by
    rw [C0]
    simp
  have hknames : k ∉ X.map (fun p => p.name) ++ Y₂.map (fun p => p.name) := by
    rw [← List.map_append]
    exact c2_fresh_name _ snapProps m (((k, v) :: rest).map Prod.fst) k hknm
      (fun p hp hm => B4 p (hsub p hp) hm)
      (fun p hp hm => B17 p (hsub p hp) hm)
      (by simp)
  refine ⟨C0, C1, ?_, ?_, ?_, ?_, ?_, ?_, ?_, ?_, ?_, ?_, ?_, ?_, ?_⟩
  · rw [C2a]
    rw [List.filter_congr (fun p hp =>
      hkeep_congr p (List.mem_append_right _ hp))]
    exact hB3t
  · intro p hp hm
    rcases hmem1 p hp with rfl | hold
    · rw [hpidnew] at hm
      omega
    · exact B4 p hold hm
  · rw [hnames]
    apply nodup_middle_insert _ _ h.name k
    · rw [← honames]
      exact B5
    · exact hknames
  · rw [hpids]
    apply nodup_middle_insert _ _ h.pid st.nextPid
    · rw [← hopids]
      exact B6
    · rw [← List.map_append]
      exact fresh_pid_not_in _ _ (fun p hp => B7 p (hsub p hp))
  · intro p hp
    rw [C2c]
    rcases hmem1 p hp with rfl | hold
    · rw [hpidnew]
      omega
    · have := B7 p hold
      omega
  · rw [C2c]
    omega
  · rw [C2a]
    intro s hs
    exact B9 s (List.mem_of_mem_erase hs)
  · intro p hp
    exact B10 p (List.mem_cons_of_mem _ hp)
  · rw [C2a, C2b]
    intro s hs
    rcases List.mem_cons.mp hs with rfl | hs2
    · left
      rw [Bool.eq_false_iff]
      intro hc
      exact B13.not_mem_erase (List.elem_iff.mp hc)
    · rcases List.mem_cons.mp hs2 with rfl | hs3
      · exact Or.inr hKBk
      · rcases B12 s hs3 with hl | hr
        · left
          rw [Bool.eq_false_iff]
          intro hc
          have hmm : s ∈ st.toRemove := List.mem_of_mem_erase (List.elem_iff.mp hc)
          have hc2 : st.toRemove.contains s = true := List.elem_iff.mpr hmm
          rw [hc2] at hl
          cases hl
        · exact Or.inr hr
  · rw [C2a]
    exact B13.erase _
  · intro p hp hm
    rcases hmem1 p hp with rfl | hold
    · rw [hnamenew]
      exact hknoto
    · exact B14 p hold hm
  · intro p hp hm
    rcases hmem1 p hp with rfl | hold
    · rw [hnamenew]
      exact hkrest
    · have h8 := B17 p hold hm
      simp only [List.map_cons, List.contains_cons, Bool.or_eq_false_iff] at h8
      exact h8.2
  · rw [C2a, List.filter_append]
    rw [List.filter_congr (fun p hp =>
      hkeep_congr p (List.mem_append_left _ hp))]
    have hkeepnew : ((fun p => !((st.toRemove.erase h.name).contains p.name))
        (⟨st.nextPid, k, forceMultilineIfNewArray v (buildNode v)⟩ : WProp)) = true := by
      show (!((st.toRemove.erase h.name).contains k)) = true
      rw [contains_erase_of_ne _ _ _ hknek, hkrm]
      rfl
    rw [List.filter_cons, if_pos hkeepnew, List.filter_nil, List.map_append]
    rfl

/-- The `Object.entries` loop under the order-agreement proviso: starting
from a decomposed tree `X ++ Y` with the cursor at the boundary, the loop
appends one kept property per target entry (converged via `conv`) to the kept
prefix, and on exit the kept properties are exactly the processed prefix. -/
theorem objGo_c2 (upd : Cst → JsonValue → Cst) (snapMap : List (String × Nat))
    (snapProps : List WProp) (m : Nat) (KB : String → Bool)
    (conv : String × JsonValue → Cst)
    (hswap : snapMap = snapProps.map (fun p => (p.name, p.pid)))
    (hpidnodupS : (snapProps.map (fun p => p.pid)).Nodup)
    (hnamenodupS : (snapProps.map (fun p => p.name)).Nodup)
    (hconvS : ∀ (e : String × JsonValue) (q : WProp), q ∈ snapProps → q.name = e.1 →
        conv e = upd q.node e.2)
    (hconvN : ∀ e : String × JsonValue,
        (snapProps.map (fun p => p.name)).contains e.1 = false →
        conv e = forceMultilineIfNewArray e.2 (buildNode e.2))
    (todo : List (String × JsonValue)) (st : ObjState) (X Y : List WProp)
    (B0 : wprops st.items = X ++ Y)
    (B1 : st.insertIndex = X.length)
    (B3 : (Y.filter (fun p => !(st.toRemove.contains p.name))).map (fun p => p.name)
        = (todo.map Prod.fst).filter
            (fun s => (snapProps.map (fun p => p.name)).contains s))
    (B4 : ∀ p ∈ wprops st.items, p.pid < m → (p.pid, p.name) ∈ pidNames snapProps)
    (B5 : ((wprops st.items).map (fun p => p.name)).Nodup)
    (B6 : ((wprops st.items).map (fun p => p.pid)).Nodup)
    (B7 : ∀ p ∈ wprops st.items, p.pid < st.nextPid)
    (B8 : m ≤ st.nextPid)
    (B9 : ∀ s ∈ st.toRemove,
        (snapProps.map (fun p => p.name)).contains s = true ∧ KB s = false)
    (B10 : ∀ p ∈ Y, p ∈ snapProps)
    (B12 : ∀ s ∈ st.processed, st.toRemove.contains s = false ∨ KB s = true)
    (B13 : st.toRemove.Nodup)
    (B14 : ∀ p ∈ wprops st.items, m ≤ p.pid →
        (snapProps.map (fun p => p.name)).contains p.name = false)
    (B15 : (todo.map Prod.fst).Nodup)
    (B16 : ∀ e ∈ todo, KB e.1 = true)
    (B17 : ∀ p ∈ wprops st.items, m ≤ p.pid →
        (todo.map Prod.fst).contains p.name = false) :
    ((wprops (objGo upd snapMap st todo).items).filter
        (fun p => !((objGo upd snapMap st todo).toRemove.contains p.name))).map
        (fun p => (p.name, p.node))
      = (X.filter (fun p => !(st.toRemove.contains p.name))).map
          (fun p => (p.name, p.node))
        ++ todo.map (fun e => (e.1, conv e))
    ∧ (∀ p ∈ wprops (objGo upd snapMap st todo).items, p.pid < m →
        (p.pid, p.name) ∈ pidNames snapProps)
    ∧ (∀ p ∈ wprops (objGo upd snapMap st todo).items, m ≤ p.pid →
        (snapProps.map (fun p => p.name)).contains p.name = false)
    ∧ ((wprops (objGo upd snapMap st todo).items).map (fun p => p.pid)).Nodup
    ∧ (∀ s ∈ (objGo upd snapMap st todo).toRemove,
        (snapProps.map (fun p => p.name)).contains s = true ∧ KB s = false) := by
  induction todo generalizing st X Y with
  | nil =>
    have hy : Y.filter (fun p => !(st.toRemove.contains p.name)) = [] := by
      apply List.map_eq_nil_iff.mp
      rw [B3]
      rfl
    simp only [objGo]
    refine ⟨?_, B4, B14, B6, B9⟩
    rw [B0, List.filter_append, hy, List.append_nil, List.map_nil, List.append_nil]
  | cons kv rest ih =>
    obtain ⟨k, v⟩ := kv
    have hKBk : KB k = true := B16 (k, v) (List.mem_cons_self _ _)
    have B15₁ : (rest.map Prod.fst).Nodup := by
      have hb := B15
      simp only [List.map_cons, List.nodup_cons] at hb
      exact hb.2
    have B16₁ : ∀ e ∈ rest, KB e.1 = true :=
      fun e he => B16 e (List.mem_cons_of_mem _ he)
    cases hlk : snapMap.lookup k with
    | some pid =>
      obtain ⟨X1, Y1, w, hwS, hwname, C0, C1, C2a, C2b, C2c, C3, CX, C4, C5⟩ :=
        c2_step_shared upd snapMap snapProps hswap hnamenodupS k v rest st X Y pid
          hlk B0 B3 B6 B10
      have hpairsT := pairs_transfer _ _ C4
      have B3₁ : (Y1.filter
          (fun p => !((objStep upd snapMap st k v).toRemove.contains p.name))).map
          (fun p => p.name)
        = (rest.map Prod.fst).filter
            (fun s => (snapProps.map (fun p => p.name)).contains s) := by
        rw [C2a]
        exact C3
      have B4₁ : ∀ p ∈ wprops (objStep upd snapMap st k v).items, p.pid < m →
          (p.pid, p.name) ∈ pidNames snapProps := by
        intro p hp hm
        rcases hpairsT p hp with ⟨q, hq, hqp, hqn⟩
        rw [← hqp, ← hqn]
        exact B4 q hq (by omega)
      have hnames₁ : (wprops (objStep upd snapMap st k v).items).map (fun p => p.name)
          = (wprops st.items).map (fun p => p.name) := by
        have h2 := congrArg (List.map Prod.snd) C4
        rw [List.map_map, List.map_map] at h2
        exact h2
      have hpids₁ : (wprops (objStep upd snapMap st k v).items).map (fun p => p.pid)
          = (wprops st.items).map (fun p => p.pid) := by
        have h2 := congrArg (List.map Prod.fst) C4
        rw [List.map_map, List.map_map] at h2
        exact h2
      have B5₁ : ((wprops (objStep upd snapMap st k v).items).map
          (fun p => p.name)).Nodup := by
        rw [hnames₁]
        exact B5
      have B6₁ : ((wprops (objStep upd snapMap st k v).items).map
          (fun p => p.pid)).Nodup := by
        rw [hpids₁]
        exact B6
      have B7₁ : ∀ p ∈ wprops (objStep upd snapMap st k v).items,
          p.pid < (objStep upd snapMap st k v).nextPid := by
        intro p hp
        rcases hpairsT p hp with ⟨q, hq, hqp, hqn⟩
        rw [C2c, ← hqp]
        exact B7 q hq
      have B8₁ : m ≤ (objStep upd snapMap st k v).nextPid := by
        rw [C2c]
        exact B8
      have B9₁ : ∀ s ∈ (objStep upd snapMap st k v).toRemove,
          (snapProps.map (fun p => p.name)).contains s = true ∧ KB s = false := by
        rw [C2a]
        exact B9
      have B10₁ : ∀ p ∈ Y1, p ∈ snapProps := fun p hp => B10 p (C5 p hp)
      have B12₁ : ∀ s ∈ (objStep upd snapMap st k v).processed,
          (objStep upd snapMap st k v).toRemove.contains s = false ∨ KB s = true := by
        rw [C2a, C2b]
        intro s hs
        rcases List.mem_cons.mp hs with rfl | hold
        · exact Or.inr hKBk
        · exact B12 s hold
      have B13₁ : (objStep upd snapMap st k v).toRemove.Nodup := by
        rw [C2a]
        exact B13
      have B14₁ : ∀ p ∈ wprops (objStep upd snapMap st k v).items, m ≤ p.pid →
          (snapProps.map (fun p => p.name)).contains p.name = false := by
        intro p hp hm
        rcases hpairsT p hp with ⟨q, hq, hqp, hqn⟩
        rw [← hqn]
        exact B14 q hq (by omega)
      have B17₁ : ∀ p ∈ wprops (objStep upd snapMap st k v).items, m ≤ p.pid →
          (rest.map Prod.fst).contains p.name = false := by
        intro p hp hm
        rcases hpairsT p hp with ⟨q, hq, hqp, hqn⟩
        have h8 := B17 q hq (by omega)
        simp only [List.map_cons, List.contains_cons, Bool.or_eq_false_iff] at h8
        rw [← hqn]
        exact h8.2
      obtain ⟨D1, D2, D3, D4, D5⟩ := ih (objStep upd snapMap st k v) X1 Y1
        C0 C1 B3₁ B4₁ B5₁ B6₁ B7₁ B8₁ B9₁ B10₁ B12₁ B13₁ B14₁ B15₁ B16₁ B17₁
      simp only [objGo, List.map_cons]
      refine ⟨?_, D2, D3, D4, D5⟩
      rw [D1, C2a, CX, hconvS (k, v) w hwS hwname]
      simp [List.append_assoc]
    | none =>
      have hmf : snapMap.map Prod.fst = snapProps.map (fun p => p.name) := by
        rw [hswap]
        simp [List.map_map]
      have hknm : k ∉ snapProps.map (fun p => p.name) := by
        have h0 := lookup_eq_none_not_mem snapMap k hlk
        rw [hmf] at h0
        exact h0
      have hknoto : (snapProps.map (fun p => p.name)).contains k = false := by
        rw [Bool.eq_false_iff]
        intro hc
        exact hknm (List.elem_iff.mp hc)
      have hkrm : st.toRemove.contains k = false := by
        rw [Bool.eq_false_iff]
        intro hc
        have h9 := (B9 k (List.elem_iff.mp hc)).1
        rw [hknoto] at h9
        cases h9
      have hkrest : (rest.map Prod.fst).contains k = false := by
        have hb := B15
        simp only [List.map_cons, List.nodup_cons] at hb
        rw [Bool.eq_false_iff]
        intro hc
        exact hb.1 (List.elem_iff.mp hc)
      have hB3t : (Y.filter (fun p => !(st.toRemove.contains p.name))).map
          (fun p => p.name)
        = (rest.map Prod.fst).filter
            (fun s => (snapProps.map (fun p => p.name)).contains s) := by
        rw [B3, List.map_cons, List.filter_cons,
          if_neg (by rw [hknoto]; exact Bool.false_ne_true)]
      have hconvk : conv (k, v) = forceMultilineIfNewArray v (buildNode v) :=
        hconvN (k, v) hknoto
      cases Y with
      | nil =>
        have hcand := c2_cand_none_empty snapMap st k (by rw [B1, B0]; simp)
        obtain ⟨A1, A2, A3, A4, A5, A6, A7, A8, A9, A10, A11, A12, A13, A14, A15⟩ :=
          c2_new_assembled upd snapMap snapProps m KB k v rest st X [] hlk hcand
            hknm hknoto hKBk hkrm hkrest B0 B1 hB3t B4 B5 B6 B7 B8 B9 B10 B12 B13
            B14 B17
        obtain ⟨D1, D2, D3, D4, D5⟩ := ih (objStep upd snapMap st k v)
          (X ++ [⟨st.nextPid, k, forceMultilineIfNewArray v (buildNode v)⟩]) []
          A1 A2 A3 A4 A5 A6 A7 A8 A9 A10 A11 A12 A13 B15₁ B16₁ A14
        simp only [objGo, List.map_cons]
        refine ⟨?_, D2, D3, D4, D5⟩
        rw [D1, A15, hconvk]
        simp [List.append_assoc]
      | cons h Y₂ =>
        by_cases hkh : st.toRemove.contains h.name = true
        · have hhS : h ∈ snapProps := B10 h (List.mem_cons_self _ _)
          have hhorig := B9 h.name (List.elem_iff.mp hkh)
          have hnp : (k :: st.processed).contains h.name = false := by
            rw [Bool.eq_false_iff]
            intro hc
            rcases List.mem_cons.mp (List.elem_iff.mp hc) with he | hp2
            · rw [he, hknoto] at hhorig
              cases hhorig.1
            · rcases B12 h.name hp2 with hl | hr
              · rw [hkh] at hl
                cases hl
              · rw [hhorig.2] at hr
                cases hr
          have hcand := c2_cand_rename snapMap snapProps st k X Y₂ h hswap
            hpidnodupS hhS hkh hnp B0 B1 B6
          have hB3u : (Y₂.filter (fun p => !(st.toRemove.contains p.name))).map
              (fun p => p.name)
            = (rest.map Prod.fst).filter
                (fun s => (snapProps.map (fun p => p.name)).contains s) := by
            rw [← hB3t, List.filter_cons, if_neg (by rw [hkh]; simp)]
          obtain ⟨A1, A2, A3, A4, A5, A6, A7, A8, A9, A10, A11, A12, A13, A14, A15⟩ :=
            c2_rename_assembled upd snapMap snapProps m KB k v rest st X Y₂ h hlk
              hcand hknm hknoto hKBk hkrm hkrest hkh B0 hB3u B4 B5 B6 B7 B8 B9 B10
              B12 B13 B14 B17
          obtain ⟨D1, D2, D3, D4, D5⟩ := ih (objStep upd snapMap st k v)
            (X ++ [⟨st.nextPid, k, forceMultilineIfNewArray v (buildNode v)⟩]) Y₂
            A1 A2 A3 A4 A5 A6 A7 A8 A9 A10 A11 A12 A13 B15₁ B16₁ A14
          simp only [objGo, List.map_cons]
          refine ⟨?_, D2, D3, D4, D5⟩
          rw [D1, A15, hconvk]
          simp [List.append_assoc]
        · rw [Bool.not_eq_true] at hkh
          have hcand := c2_cand_none_kept snapMap snapProps st k X Y₂ h hswap
            hpidnodupS (B10 h (List.mem_cons_self _ _)) hkh B0 B1
          obtain ⟨A1, A2, A3, A4, A5, A6, A7, A8, A9, A10, A11, A12, A13, A14, A15⟩ :=
            c2_new_assembled upd snapMap snapProps m KB k v rest st X (h :: Y₂) hlk
              hcand hknm hknoto hKBk hkrm hkrest B0 B1 hB3t B4 B5 B6 B7 B8 B9 B10
              B12 B13 B14 B17
          obtain ⟨D1, D2, D3, D4, D5⟩ := ih (objStep upd snapMap st k v)
            (X ++ [⟨st.nextPid, k, forceMultilineIfNewArray v (buildNode v)⟩]) (h :: Y₂)
            A1 A2 A3 A4 A5 A6 A7 A8 A9 A10 A11 A12 A13 B15₁ B16₁ A14
          simp only [objGo, List.map_cons]
          refine ⟨?_, D2, D3, D4, D5⟩
          rw [D1, A15, hconvk]
          simp [List.append_assoc]

/-- `updateObject` (core) under the order-agreement proviso: with duplicate-free
original names and target keys, and the shared keys in the same relative order
on both sides, the output properties are exactly the target entries, in target
order, with values converged per entry. -/
theorem objCore_c2 (upd : Cst → JsonValue → Cst) (items : List OItem)
    (kvs : List (String × JsonValue))
    (hN : (oNames items).Nodup)
    (hK : (kvs.map Prod.fst).Nodup)
    (hOrd : (oNames items).filter (fun n => kvs.any (fun e => e.1 == n))
        = (kvs.map Prod.fst).filter (fun s => (oNames items).contains s)) :
    propsO (updateObjectCore upd items kvs)
      = kvs.map (fun e => (e.1, convergeProp upd items e)) := by
  have hname : (wprops (tagO items)).map (fun p => p.name) = oNames items := by
    rw [tagO_def]
    exact wprops_tagOGo_names 0 items
  have hpid : (wprops (tagO items)).map (fun p => p.pid)
      = List.range' 0 (oNames items).length := by
    rw [tagO_def]
    exact wprops_tagOGo_pids 0 items
  have hlen : (wprops (tagO items)).length = (oNames items).length := by
    rw [← hname, List.length_map]
  have hpidlt : ∀ p ∈ wprops (tagO items), p.pid < (wprops (tagO items)).length := by
    intro p hp
    have hm : p.pid ∈ (wprops (tagO items)).map (fun p => p.pid) :=
      List.mem_map_of_mem _ hp
    rw [hpid] at hm
    have h2 := List.mem_range'_1.mp hm
    omega
  have hpidnodupS : ((wprops (tagO items)).map (fun p => p.pid)).Nodup := by
    rw [hpid]
    exact List.nodup_range' 0 _
  have hnamenodupS : ((wprops (tagO items)).map (fun p => p.name)).Nodup := by
    rw [hname]
    exact hN
  have hsnap : jsMapOf (wprops (tagO items))
      = (wprops (tagO items)).map (fun p => (p.name, p.pid)) :=
    jsMapOf_nodup _ hnamenodupS
  have hsmfst : (jsMapOf (wprops (tagO items))).map (fun e => e.1)
      = (wprops (tagO items)).map (fun p => p.name) := by
    rw [hsnap]
    simp [List.map_map]
  have hconvS : ∀ (e : String × JsonValue) (q : WProp), q ∈ wprops (tagO items) →
      q.name = e.1 → convergeProp upd items e = upd q.node e.2 := by
    intro e q hq hqe
    have hq2 : q ∈ wprops (tagOGo 0 items) := by
      rw [← tagO_def]
      exact hq
    have hm := wprops_tagOGo_mem 0 items q hq2
    have hlkp : (propsO items).lookup e.1 = some q.node := by
      rw [← hqe]
      exact lookupC_of_mem_nodup _ (by rw [propsO_map_fst]; exact hN) _ _ hm
    simp only [convergeProp, hlkp]
  have hconvN : ∀ e : String × JsonValue,
      ((wprops (tagO items)).map (fun p => p.name)).contains e.1 = false →
      convergeProp upd items e
        = forceMultilineIfNewArray e.2 (buildNode e.2) := by
    intro e he
    have hnm : e.1 ∉ (propsO items).map Prod.fst := by
      rw [propsO_map_fst, ← hname]
      intro hc
      have hc2 : ((wprops (tagO items)).map (fun p => p.name)).contains e.1 = true :=
        List.elem_iff.mpr hc
      rw [he] at hc2
      cases hc2
    have hlkp := lookupC_eq_none_of_not_mem _ _ hnm
    simp only [convergeProp, hlkp]
  have i3 : ((wprops (tagO items)).filter (fun p =>
      !((((jsMapOf (wprops (tagO items))).map (fun e => e.1)).filter
          (fun s => !(kvs.any (fun e => e.1 == s)))).contains p.name))).map
        (fun p => p.name)
      = (kvs.map Prod.fst).filter
          (fun s => ((wprops (tagO items)).map (fun p => p.name)).contains s) := by
    have hcongr : ∀ p ∈ wprops (tagO items),
        (!((((jsMapOf (wprops (tagO items))).map (fun e => e.1)).filter
            (fun s => !(kvs.any (fun e => e.1 == s)))).contains p.name))
          = kvs.any (fun e => e.1 == p.name) := by
      intro p hp
      rw [hsmfst]
      rw [contains_filter_of_mem _ _ _ (List.mem_map_of_mem _ hp)]
      exact Bool.not_not _
    rw [List.filter_congr hcongr,
      filter_name_map (wprops (tagO items)) (fun n => kvs.any fun e => e.1 == n),
      hname, hOrd]
  have i9 : ∀ s ∈ ((jsMapOf (wprops (tagO items))).map (fun e => e.1)).filter
      (fun s => !(kvs.any (fun e => e.1 == s))),
      ((wprops (tagO items)).map (fun p => p.name)).contains s = true ∧
        kvs.any (fun e => e.1 == s) = false := by
    intro s hs
    have h1 := List.mem_of_mem_filter hs
    have h2 := List.of_mem_filter hs
    constructor
    · rw [hsmfst] at h1
      exact List.elem_iff.mpr h1
    · simpa using h2
  have i13 : (((jsMapOf (wprops (tagO items))).map (fun e => e.1)).filter
      (fun s => !(kvs.any (fun e => e.1 == s)))).Nodup := by
    rw [hsmfst]
    exact hnamenodupS.filter _
  have i16 : ∀ e ∈ kvs, kvs.any (fun x => x.1 == e.1) = true := by
    intro e he
    exact List.any_eq_true.mpr ⟨e, he, beq_self_eq_true e.1⟩
  obtain ⟨D1, D2, D3, D4, D5⟩ := objGo_c2 upd (jsMapOf (wprops (tagO items)))
    (wprops (tagO items)) ((wprops (tagO items)).length)
    (fun n => kvs.any (fun e => e.1 == n))
    (fun e => convergeProp upd items e)
    hsnap hpidnodupS hnamenodupS hconvS hconvN kvs
    ⟨tagO items, [],
      ((jsMapOf (wprops (tagO items))).map (·.1)).filter
        (fun k => !(kvs.any (fun e => e.1 == k))),
      0, (wprops (tagO items)).length⟩
    [] (wprops (tagO items))
    (by rw [List.nil_append])
    rfl
    i3
    (fun p hp hm => List.mem_map_of_mem _ hp)
    hnamenodupS
    hpidnodupS
    hpidlt
    (Nat.le_refl _)
    i9
    (fun p hp => hp)
    (fun s hs => absurd hs (List.not_mem_nil s))
    i13
    (fun p hp hm => absurd (hpidlt p hp) (by omega))
    hK
    i16
    (fun p hp hm => absurd (hpidlt p hp) (by omega))
  simp only [updateObjectCore]
  rw [propsO_untagO]
  rw [wprops_finalFold _ _ _ D4]
  rw [List.filter_congr ?hR]
  case hR =>
    intro p hp
    have hpn : ((jsMapOf (wprops (tagO items))).filterMap
        (fun e => if (objGo upd (jsMapOf (wprops (tagO items)))
            ⟨tagO items, [],
              ((jsMapOf (wprops (tagO items))).map (·.1)).filter
                (fun k => !(kvs.any (fun e => e.1 == k))),
              0, (wprops (tagO items)).length⟩ kvs).toRemove.contains e.1
          then some e.2 else none)).contains p.pid
        = (objGo upd (jsMapOf (wprops (tagO items)))
            ⟨tagO items, [],
              ((jsMapOf (wprops (tagO items))).map (·.1)).filter
                (fun k => !(kvs.any (fun e => e.1 == k))),
              0, (wprops (tagO items)).length⟩ kvs).toRemove.contains p.name := by
      by_cases hm : p.pid < (wprops (tagO items)).length
      · have hpair := D2 p hp hm
        cases ht : (objGo upd (jsMapOf (wprops (tagO items)))
            ⟨tagO items, [],
              ((jsMapOf (wprops (tagO items))).map (·.1)).filter
                (fun k => !(kvs.any (fun e => e.1 == k))),
              0, (wprops (tagO items)).length⟩ kvs).toRemove.contains p.name with
        | false =>
          rw [Bool.eq_false_iff]
          intro hc
          rcases List.mem_filterMap.mp (List.elem_iff.mp hc) with ⟨x, hx, hxe⟩
          by_cases hcx : (objGo upd (jsMapOf (wprops (tagO items)))
              ⟨tagO items, [],
                ((jsMapOf (wprops (tagO items))).map (·.1)).filter
                  (fun k => !(kvs.any (fun e => e.1 == k))),
                0, (wprops (tagO items)).length⟩ kvs).toRemove.contains x.1 = true
          · rw [if_pos hcx] at hxe
            have hx2 : x.2 = p.pid := Option.some.inj hxe
            rw [hsnap] at hx
            rcases List.mem_map.mp hx with ⟨p0, hp0, heq⟩
            have e1 : p0.name = x.1 := congrArg Prod.fst heq
            have e2 : p0.pid = x.2 := congrArg Prod.snd heq
            have hpair0 : (p0.pid, p0.name) ∈ pidNames (wprops (tagO items)) :=
              List.mem_map_of_mem _ hp0
            have hpe : ((p.pid, p.name) : Nat × String) = (p0.pid, p0.name) :=
              nodup_fst_mem_eq _ (by rw [pidNames_map_fst]; exact hpidnodupS)
                _ _ hpair hpair0 (by show p.pid = p0.pid; omega)
            have hpn2 : p.name = p0.name := congrArg Prod.snd hpe
            rw [hpn2, e1] at ht
            rw [hcx] at ht
            cases ht
          · rw [if_neg hcx] at hxe
            cases hxe
        | true =>
          apply List.elem_iff.mpr
          apply List.mem_filterMap.mpr
          rcases List.mem_map.mp hpair with ⟨p0, hp0, heq⟩
          have e1 : p0.pid = p.pid := congrArg Prod.fst heq
          have e2 : p0.name = p.name := congrArg Prod.snd heq
          refine ⟨(p.name, p.pid), ?_, ?_⟩
          · rw [hsnap, ← e1, ← e2]
            exact List.mem_map_of_mem _ hp0
          · have ht2 : (objGo upd (jsMapOf (wprops (tagO items)))
                ⟨tagO items, [],
                  ((jsMapOf (wprops (tagO items))).map (·.1)).filter
                    (fun k => !(kvs.any (fun e => e.1 == k))),
                  0, (wprops (tagO items)).length⟩ kvs).toRemove.contains
                ((p.name, p.pid) : String × Nat).1 = true := ht
            rw [ht2]
            rfl
      · have h3 := D3 p hp (Nat.le_of_not_lt hm)
        have hrhs : (objGo upd (jsMapOf (wprops (tagO items)))
            ⟨tagO items, [],
              ((jsMapOf (wprops (tagO items))).map (·.1)).filter
                (fun k => !(kvs.any (fun e => e.1 == k))),
              0, (wprops (tagO items)).length⟩ kvs).toRemove.contains p.name
            = false := by
          rw [Bool.eq_false_iff]
          intro hc
          have h5 := (D5 p.name (List.elem_iff.mp hc)).1
          rw [h3] at h5
          cases h5
        have hlhs : ((jsMapOf (wprops (tagO items))).filterMap
            (fun e => if (objGo upd (jsMapOf (wprops (tagO items)))
                ⟨tagO items, [],
                  ((jsMapOf (wprops (tagO items))).map (·.1)).filter
                    (fun k => !(kvs.any (fun e => e.1 == k))),
                  0, (wprops (tagO items)).length⟩ kvs).toRemove.contains e.1
              then some e.2 else none)).contains p.pid = false := by
          rw [Bool.eq_false_iff]
          intro hc
          rcases List.mem_filterMap.mp (List.elem_iff.mp hc) with ⟨x, hx, hxe⟩
          by_cases hcx : (objGo upd (jsMapOf (wprops (tagO items)))
              ⟨tagO items, [],
                ((jsMapOf (wprops (tagO items))).map (·.1)).filter
                  (fun k => !(kvs.any (fun e => e.1 == k))),
                0, (wprops (tagO items)).length⟩ kvs).toRemove.contains x.1 = true
          · rw [if_pos hcx] at hxe
            have hx2 : x.2 = p.pid := Option.some.inj hxe
            rw [hsnap] at hx
            rcases List.mem_map.mp hx with ⟨p0, hp0, heq⟩
            have e2 : p0.pid = x.2 := congrArg Prod.snd heq
            have := hpidlt p0 hp0
            omega
          · rw [if_neg hcx] at hxe
            cases hxe
        rw [hlhs, hrhs]
    rw [hpn]
  rw [D1]
  simp

/-! ## The claims -/

/-- C1: for every well-formed commented document D (a CST `c` whose rendering
is D; the collaborating parser reproduces exactly the tree the text came
from), if `target = parse(D)` — the document's own content reparsed as a
plain value of matching root shape, i.e. `decodeTargetOfRoot c` — then
`weave(D, target)` returns the tree, hence the string, unchanged:
byte-for-byte equal to D, including all comments and whitespace. -/
theorem C1_round_trip_noop (c : Cst) (t : WeaveTarget) (hwf : wfC c = true)
    (ht : decodeTargetOfRoot c = some t) :
    weave c t = Except.ok c ∧ (weave c t).map render = Except.ok (render c) := by
  have hok : weave c t = Except.ok c := by
    cases c with
    | obj items =>
      simp only [decodeTargetOfRoot, Option.some.injEq] at ht
      subst ht
      have h2 := (ident_master (fuelP (decodeO items) + 2)).2.1 items hwf (by omega)
      simp only [weave, h2]
    | arr ml items =>
      simp only [decodeTargetOfRoot, Option.some.injEq] at ht
      subst ht
      simp only [wfC] at hwf
      have h3 := (ident_master (fuelL (decodeA items) + 2)).2.2.1 items hwf (by omega)
      simp only [weave, h3]
    | nullLit => simp [decodeTargetOfRoot] at ht
    | boolLit b => simp [decodeTargetOfRoot] at ht
    | numLit n => simp [decodeTargetOfRoot] at ht
    | strLit ss => simp [decodeTargetOfRoot] at ht
  exact ⟨hok, by rw [hok]; rfl⟩

/-- Witness for C1 at a concrete commented document. -/
theorem C1_round_trip_noop_witness :
    weave exampleDoc (.obj (decodeO [OItem.trivia (.nl "\n"), .trivia (.comment "// c"),
        .prop "a" (.numLit 1), .prop "b" (.arr false [.elem (.strLit "x")]),
        .prop "c" (.obj [.prop "d" (.boolLit true)]), .trivia (.nl "\n")]))
      = Except.ok exampleDoc :=
  (C1_round_trip_noop exampleDoc _ (by decide) rfl).1

/-- C2, counterexample: for the original document `{"a": 1, "b": 2}` and
target `{"b": 2, "a": 1}` (same keys, reordered), the reconciled object's
properties stay in the original order `a, b`, not the target's iteration
order `b, a` — refuting "the object's properties in their output order
exactly match the target's keys in the target's own iteration order,
regardless of the original document's key order". -/
theorem C2_order_counterexample :
    weave (.obj [.prop "a" (.numLit 1), .prop "b" (.numLit 2)])
        (.obj [("b", .num 2), ("a", .num 1)])
      = Except.ok (.obj [.prop "a" (.numLit 1), .prop "b" (.numLit 2)]) ∧
    oNames [OItem.prop "a" (.numLit 1), .prop "b" (.numLit 2)] = ["a", "b"] ∧
    (["a", "b"] : List String) ≠ ["b", "a"] :=
  ⟨rfl, rfl, by decide⟩

/-- C3: the claim says that after `updateArray` returns, the array's decoded
elements equal the target sequence.  The code violates it: for the existing
array `[1, 2]` and target `[2, 1]`, the look-ahead marks the existing `2`
(position 1) as matched while handling target index 0; at target index 1 the
guard `!matched[i]` then suppresses both the in-place replacement and the
scheduling of a replacement, so the target element `1` is never placed
anywhere, and the final sweep removes the unmatched existing `1`.  The
decoded result is `[2]`, not `[2, 1]`. -/
theorem C3_element_drop_bug :
    weave (.arr false [.elem (.numLit 1), .elem (.numLit 2)]) (.arr [.num 2, .num 1])
      = Except.ok (.arr false [.elem (.numLit 2)]) ∧
    decodeA [AItem.elem (.numLit 2)] = [.num 2] ∧
    ([JsonValue.num 2] ≠ [JsonValue.num 2, .num 1]) :=
  ⟨rfl, rfl, by simp⟩

/-- C4: the claim says `weave(weave(D, T), T) == weave(D, T)` exactly.  The
code violates it, through the same element-drop defect as C3: weaving
`[1, 2]` to `[2, 1]` renders `[2]`, and weaving that result to `[2, 1]`
again renders `[2,1]`, a different string. -/
theorem C4_not_idempotent_bug :
    weave (.arr false [.elem (.numLit 1), .elem (.numLit 2)]) (.arr [.num 2, .num 1])
      = Except.ok (.arr false [.elem (.numLit 2)]) ∧
    weave (.arr false [.elem (.numLit 2)]) (.arr [.num 2, .num 1])
      = Except.ok (.arr false [.elem (.numLit 2), .elem (.numLit 1)]) ∧
    render (.arr false [.elem (.numLit 2), .elem (.numLit 1)])
      ≠ render (.arr false [.elem (.numLit 2)]) :=
  ⟨rfl, rfl, by decide⟩

/-- C7: whenever the parsed root's kind does not match the target's kind
(array target with non-array root, or non-array object target with
non-object root), `weave` raises the shape-mismatch error and returns no
value; in the embedding the error is produced by the root-shape dispatch
before either reconciler runs, so no mutation of the tree occurs. -/
theorem C7_shape_mismatch_fails (c : Cst) (t : WeaveTarget)
    (h : rootShapeMatches c t = false) :
    weave c t = Except.error .shapeMismatch ∧ ∀ out, weave c t ≠ Except.ok out := by
  have heq : weave c t = Except.error .shapeMismatch := by
    cases t <;> cases c <;> first
      | rfl
      | simp [rootShapeMatches] at h
  refine ⟨heq, fun out hc => ?_⟩
  rw [heq] at hc
  cases hc

/-- Witness for C7: `weave('{"a":1}', [1,2,3])` fails with the shape
mismatch error. -/
theorem C7_shape_mismatch_fails_witness :
    weave (.obj [.prop "a" (.numLit 1)]) (.arr [.num 1, .num 2, .num 3])
      = Except.error .shapeMismatch :=
  (C7_shape_mismatch_fails (.obj [.prop "a" (.numLit 1)])
    (.arr [.num 1, .num 2, .num 3]) (by decide)).1

/-- C8: the Value Updater on an array target: (i) delegates to the array
reconciler when the slot already holds an array node (no wholesale
replacement); (ii) otherwise replaces the slot with a newly built array
whose multiline flag is set if and only if the target array is non-empty;
(iii) the same forcing applies at the sites that introduce a new array
property (plain insert and rename splice both insert
`forceMultilineIfNewArray value (buildNode value)`); and (iv) concretely,
weaving `{}` to `{"list": [1, 2]}` renders `list` as a multiline array. -/
theorem C8_new_array_multiline :
    (∀ fuel ml its ys, updatePropertyValue (fuel + 1) (.arr ml its) (.arr ys)
        = .arr ml (updateArray fuel its ys)) ∧
    (∀ fuel node ys, isArrayNode node = false →
      updatePropertyValue (fuel + 1) node (.arr ys) = .arr (!ys.isEmpty) (buildA ys)) ∧
    (∀ ys : List JsonValue, forceMultilineIfNewArray (.arr ys) (buildNode (.arr ys))
        = .arr (!ys.isEmpty) (buildA ys)) ∧
    (weave (.obj []) (.obj [("list", .arr [.num 1, .num 2])])
        = Except.ok (.obj [.prop "list" (.arr true [.elem (.numLit 1), .elem (.numLit 2)])]) ∧
      render (.obj [.prop "list" (.arr true [.elem (.numLit 1), .elem (.numLit 2)])])
        = "\x7b\"list\": [\n1,\n2\n]\x7d") := by
  refine ⟨fun fuel ml its ys => rfl, ?_, ?_, rfl, rfl⟩
  · intro fuel node ys h
    cases node <;> simp [isArrayNode] at h ⊢ <;>
      cases ys <;> simp [updatePropertyValue, buildNode, ensureMultiline]
  · intro ys
    cases ys <;> rfl

/-- Witness for C8 at concrete inputs: a number slot receiving `[1]` becomes
a multiline fresh array. -/
theorem C8_new_array_multiline_witness :
    updatePropertyValue 1 (.numLit 7) (.arr [.num 1]) = .arr true (buildA [.num 1]) :=
  C8_new_array_multiline.2.1 0 (.numLit 7) [.num 1] (by decide)

/-- C5: during object reconciliation of a new key, the rename path is taken
if and only if some snapshot property is scheduled for removal, not yet
processed, and currently sits at index `insertCursor`; in that case the new
key/value takes over exactly that property position (old property removed,
new property inserted at the same index) rather than being appended with the
old property deleted; and concretely, weaving `{ //c "a": 1, "b": 2 }` to
`{"x": 1, "b": 2}` renames in place: `x` at position 0 followed by `b`, with
the comment formerly attached to `a` still attached, now preceding `x`. -/
theorem C5_rename_in_place (upd : Cst → JsonValue → Cst) (snapMap : List (String × Nat))
    (st : ObjState) (k : String) (v : JsonValue)
    (hnew : snapMap.lookup k = none) :
    ((findRenameCandidate snapMap st.toRemove (k :: st.processed) st.insertIndex
        st.items).isSome = true
      ↔ ∃ e, e ∈ snapMap ∧ e.1 ∈ st.toRemove ∧ e.1 ∉ (k :: st.processed) ∧
          propIndexOf? e.2 st.items = some st.insertIndex) ∧
    (∀ oldKey opid,
      findRenameCandidate snapMap st.toRemove (k :: st.processed) st.insertIndex st.items
          = some (oldKey, opid) →
      (objStep upd snapMap st k v).items
          = insertPropAt st.insertIndex
              ⟨st.nextPid, k, forceMultilineIfNewArray v (buildNode v)⟩
              (removePid opid st.items) ∧
      wprops (objStep upd snapMap st k v).items
          = (wprops st.items).take st.insertIndex
              ++ ⟨st.nextPid, k, forceMultilineIfNewArray v (buildNode v)⟩
                :: (wprops st.items).drop (st.insertIndex + 1)) ∧
    (findRenameCandidate snapMap st.toRemove (k :: st.processed) st.insertIndex st.items
        = none →
      (objStep upd snapMap st k v).items
        = insertPropAt st.insertIndex
            ⟨st.nextPid, k, forceMultilineIfNewArray v (buildNode v)⟩ st.items) ∧
    weave (.obj [.trivia (.comment "// c"), .prop "a" (.numLit 1), .prop "b" (.numLit 2)])
        (.obj [("x", .num 1), ("b", .num 2)])
      = Except.ok (.obj [.trivia (.comment "// c"), .prop "x" (.numLit 1),
          .prop "b" (.numLit 2)]) := by
  refine ⟨?_, ?_, ?_, rfl⟩
  · rw [findRenameCandidate, List.find?_isSome]
    constructor
    · rintro ⟨e, he, hp⟩
      simp only [Bool.and_eq_true, beq_iff_eq, Bool.not_eq_eq_eq_not, Bool.not_true] at hp
      refine ⟨e, he, ?_, ?_, ?_⟩
      · exact List.elem_iff.mp hp.1.1
      · intro hc
        have h2 : (k :: st.processed).contains e.1 = true := List.elem_iff.mpr hc
        rw [hp.1.2] at h2
        cases h2
      · exact hp.2
    · rintro ⟨e, he, h1, h2, h3⟩
      refine ⟨e, he, ?_⟩
      simp only [Bool.and_eq_true, beq_iff_eq, Bool.not_eq_eq_eq_not, Bool.not_true]
      refine ⟨⟨List.elem_iff.mpr h1, ?_⟩, h3⟩
      rw [Bool.eq_false_iff]
      intro hc
      exact h2 (List.elem_iff.mp hc)
  · intro oldKey opid hfind
    have hpred := List.find?_some hfind
    simp only [Bool.and_eq_true, beq_iff_eq] at hpred
    have hidx : propIndexOf? opid st.items = some st.insertIndex := hpred.2
    have hitems : (objStep upd snapMap st k v).items
        = insertPropAt st.insertIndex
            ⟨st.nextPid, k, forceMultilineIfNewArray v (buildNode v)⟩
            (removePid opid st.items) := by
      simp only [objStep, hnew, hfind, hidx, Option.getD_some]
    refine ⟨hitems, ?_⟩
    rw [hitems, wprops_insertPropAt, wprops_removePid]
    rw [propIndexOf?] at hidx
    have hlt := findIdxP_lt_length _ _ _ hidx
    rw [removePidP_take_drop _ _ _ hidx]
    have hlen : ((wprops st.items).take st.insertIndex).length = st.insertIndex := by
      simp [List.length_take]
      omega
    rw [List.take_left' hlen, List.drop_left' hlen]
  · intro hnone
    simp only [objStep, hnew, hnone]

/-- Witness for C5 at the concrete rename state for `{"a": 1, "b": 2}` and
the new key `x`: the candidate `a` sits at the insert cursor and the new
property takes over its position. -/
theorem C5_rename_in_place_witness :
    (objStep (fun n _ => n) [("a", 0), ("b", 1)]
        ⟨[.prop ⟨0, "a", .numLit 1⟩, .prop ⟨1, "b", .numLit 2⟩], [], ["a"], 0, 2⟩
        "x" (.num 1)).items
      = insertPropAt 0 ⟨2, "x", forceMultilineIfNewArray (.num 1) (buildNode (.num 1))⟩
          (removePid 0 [.prop ⟨0, "a", .numLit 1⟩, .prop ⟨1, "b", .numLit 2⟩]) :=
  ((C5_rename_in_place (fun n _ => n) [("a", 0), ("b", 1)]
      ⟨[.prop ⟨0, "a", .numLit 1⟩, .prop ⟨1, "b", .numLit 2⟩], [], ["a"], 0, 2⟩
      "x" (.num 1) rfl).2.1 "a" 0 rfl).1

/-- C6: the array reconciler's look-ahead for `target[i]` scans only the
not-yet-matched existing elements at positions `i+1` and `i+2` (within the
snapshot length): a successful look-ahead lands in that window on an
unmatched equivalent element; when no window position qualifies, the
look-ahead fails even if an equivalent unmatched element exists at `i+3` or
beyond; and when the in-place branches at `i` do not fire, a successful
look-ahead at `j` marks position `j` matched and converges it in place. -/
theorem C6_lookahead_window (nest : Cst → JsonValue → Option Cst) (n i : Nat)
    (st : ArrState) (v : JsonValue) :
    (∀ j, lookAhead n i st v = some j →
      i + 1 ≤ j ∧ j ≤ i + 2 ∧ j < n ∧ st.matched.getD j false = false ∧
        shouldPreserveComments ((getElemNode j st.items).getD .nullLit) v = true) ∧
    ((∀ j, i + 1 ≤ j → j ≤ i + 2 → j < n →
        ¬(st.matched.getD j false = false ∧
          shouldPreserveComments ((getElemNode j st.items).getD .nullLit) v = true)) →
      lookAhead n i st v = none) ∧
    (∀ j, lookAhead n i st v = some j → i < n →
      (st.matched.getD i false = true ∨
        (nest ((getElemNode i st.items).getD .nullLit) v = none ∧
          shouldPreserveComments ((getElemNode i st.items).getD .nullLit) v = false)) →
      arrStep nest n i st v
        = { st with matched := st.matched.set j true,
                    items := setElemNode j
                      ((nest ((getElemNode j st.items).getD .nullLit) v).getD
                        ((getElemNode j st.items).getD .nullLit)) st.items }) := by
  refine ⟨?_, ?_, ?_⟩
  · intro j hj
    have hmem := List.mem_of_find?_eq_some hj
    rw [List.mem_range'_1] at hmem
    have hpred := List.find?_some hj
    simp only [Bool.and_eq_true, Bool.not_eq_eq_eq_not, Bool.not_true] at hpred
    refine ⟨by omega, by omega, by omega, hpred.1, hpred.2⟩
  · intro h
    rw [lookAhead, List.find?_eq_none]
    intro j hjmem
    rw [List.mem_range'_1] at hjmem
    have hj := h j (by omega) (by omega) (by omega)
    intro hc
    simp only [Bool.and_eq_true, Bool.not_eq_eq_eq_not, Bool.not_true] at hc
    exact hj ⟨hc.1, hc.2⟩
  · intro j hj hin hcond
    rcases hcond with hmi | ⟨hnone, hpre⟩
    · rw [List.getD_eq_getElem?_getD] at hmi
      simp [arrStep, Nat.not_le.mpr hin, hmi, hj]
    · simp [arrStep, Nat.not_le.mpr hin, hnone, hpre, hj]

/-- Witness for C6 at a concrete state: existing `[1, 2, 3]`, all unmatched,
target element `3` at index 0 is found by look-ahead at position 2. -/
theorem C6_lookahead_window_witness :
    1 ≤ 2 ∧ 2 ≤ 2 ∧ 2 < 3 ∧
      ([false, false, false] : List Bool).getD 2 false = false ∧
      shouldPreserveComments
        ((getElemNode 2 [.elem 0 (.numLit 1), .elem 1 (.numLit 2),
          .elem 2 (.numLit 3)]).getD .nullLit) (.num 3) = true :=
  (C6_lookahead_window (fun _ _ => none) 3 0
    ⟨[.elem 0 (.numLit 1), .elem 1 (.numLit 2), .elem 2 (.numLit 3)],
      [false, false, false], []⟩ (.num 3)).1 2 rfl

/-- C9: the trivia cleanup `removePreviousWhitespaces` walks backward through
the siblings preceding a node, removing each that is pure whitespace, a pure
newline, or a string literal whose trimmed content is empty, and stops at the
first preceding sibling that is none of these (everything it removes is
removable, and what remains ends in a non-removable sibling); within the
array reconciler the cleanup runs on the inserted replacement node if and
only if the snapshot held exactly one element: with two or more (or zero)
snapshot elements every trivia token of the array survives reconciliation
verbatim, while a sole-element replacement strips exactly the removable
siblings immediately preceding the inserted node (the still-present old
element first, then the trivia prefix). -/
theorem C9_strip_leading_trivia :
    (∀ l : List WAItem,
      (∃ dropped, l = removePreviousWhitespaces l ++ dropped ∧
        ∀ it ∈ dropped, isRemovableSibling it = true) ∧
      (∀ last, (removePreviousWhitespaces l).getLast? = some last →
        isRemovableSibling last = false)) ∧
    (∀ (fuel : Nat) (items : List AItem) (xs : List JsonValue),
      (aElems items).length ≠ 1 →
      triviaA (updateArray (fuel + 1) items xs) = triviaA items) ∧
    (∀ (fuel : Nat) (preT postT : List Trivia) (e : Cst) (v : JsonValue),
      updateNested fuel e v = none →
      shouldPreserveComments e v = false →
      updateArray (fuel + 1) (preT.map AItem.trivia ++ .elem e :: postT.map AItem.trivia) [v]
        = (if isRemovableA (.elem e)
            then (preT.reverse.dropWhile isRemovableTrivia).reverse.map AItem.trivia
            else preT.map AItem.trivia)
          ++ .elem (buildNode v) :: postT.map AItem.trivia) := by
  refine ⟨?_, trivia_preserved_notSingle, single_replacement_strip⟩
  intro l
  constructor
  · refine ⟨(l.reverse.takeWhile isRemovableSibling).reverse, ?_, ?_⟩
    · rw [removePreviousWhitespaces]
      rw [← List.reverse_append, List.takeWhile_append_dropWhile, List.reverse_reverse]
    · intro it hit
      rw [List.mem_reverse] at hit
      exact List.mem_takeWhile_imp hit
  · intro last hlast
    rw [removePreviousWhitespaces, List.getLast?_reverse] at hlast
    exact head?_dropWhile_pred _ _ _ hlast

/-- Witness for C9: a sole whitespace-only string element with a leading
blank is replaced and the blank (and the whitespace-only string, which the
walk also treats as removable) is stripped. -/
theorem C9_strip_leading_trivia_witness :
    updateArray 1 ([Trivia.ws " "].map AItem.trivia
        ++ .elem (.strLit " ") :: ([] : List Trivia).map AItem.trivia) [.num 5]
      = (if isRemovableA (.elem (.strLit " "))
          then ([Trivia.ws " "].reverse.dropWhile isRemovableTrivia).reverse.map AItem.trivia
          else [Trivia.ws " "].map AItem.trivia)
        ++ .elem (buildNode (.num 5)) :: ([] : List Trivia).map AItem.trivia :=
  C9_strip_leading_trivia.2.2 0 [Trivia.ws " "] [] (.strLit " ") (.num 5) rfl rfl

/-- C10: the object reconciler never moves an existing property that survives
reconciliation.  For every original object (whose property names are
duplicate-free, as for any parsed JSON object) and every target, the output
property-name sequence of `updateObject`, filtered down to the keys present
both in the original object and among the target keys, equals the equally
filtered original name sequence — so every pair of surviving keys keeps its
original relative order: surviving properties are updated in place while
other properties are only inserted or removed around them. -/
theorem C10_surviving_order_preserved (fuel : Nat) (items : List OItem)
    (kvs : List (String × JsonValue)) (h : nodupB (oNames items) = true) :
    (oNames (updateObject fuel items kvs)).filter
        (fun n => (oNames items).contains n && kvs.any (fun e => e.1 == n))
      = (oNames items).filter
        (fun n => (oNames items).contains n && kvs.any (fun e => e.1 == n)) := by
  cases fuel with
  | zero => rfl
  | succ f => exact objCore_order (updatePropertyValue f) items kvs ((nodupB_iff _).mp h)

/-- Witness for C10: original `{"a": 1, /* c */ "b": 2, "c": 3}` with target
`{"c": 3, "a": 1}` (target lists `c` before `a`); the surviving keys `a`, `c`
keep their original order. -/
theorem C10_surviving_order_preserved_witness :
    nodupB (oNames [OItem.prop "a" (.numLit 1), OItem.trivia (.comment "// c"),
        OItem.prop "b" (.numLit 2), OItem.prop "c" (.numLit 3)]) = true ∧
    (oNames (updateObject 3
        [OItem.prop "a" (.numLit 1), OItem.trivia (.comment "// c"),
          OItem.prop "b" (.numLit 2), OItem.prop "c" (.numLit 3)]
        [("c", JsonValue.num 3), ("a", JsonValue.num 1)])).filter
        (fun n => (oNames [OItem.prop "a" (.numLit 1), OItem.trivia (.comment "// c"),
            OItem.prop "b" (.numLit 2), OItem.prop "c" (.numLit 3)]).contains n &&
          [("c", JsonValue.num 3), ("a", JsonValue.num 1)].any (fun e => e.1 == n))
      = (oNames [OItem.prop "a" (.numLit 1), OItem.trivia (.comment "// c"),
          OItem.prop "b" (.numLit 2), OItem.prop "c" (.numLit 3)]).filter
        (fun n => (oNames [OItem.prop "a" (.numLit 1), OItem.trivia (.comment "// c"),
            OItem.prop "b" (.numLit 2), OItem.prop "c" (.numLit 3)]).contains n &&
          [("c", JsonValue.num 3), ("a", JsonValue.num 1)].any (fun e => e.1 == n)) :=
  ⟨by rfl,
    C10_surviving_order_preserved 3
      [OItem.prop "a" (.numLit 1), OItem.trivia (.comment "// c"),
        OItem.prop "b" (.numLit 2), OItem.prop "c" (.numLit 3)]
      [("c", JsonValue.num 3), ("a", JsonValue.num 1)] (by rfl)⟩

/-- C2, amended: the original claim fails when the target reorders keys that
both sides share (see the counterexample), because surviving properties are
updated strictly in place.  Amended with the proviso that the keys shared
between the original object and the target appear in the same relative order
in both (and names/keys are duplicate-free, as for parsed JSON), the claim
holds in full: after `updateObject`, the object's properties — names and
value nodes, in order — are exactly the target's entries in the target's own
iteration order, each value converged via the Value Updater (existing slot
handed to the updater; fresh keys built anew with the non-empty-array
multiline forcing). -/
theorem C2_target_order_amended (fuel : Nat) (items : List OItem)
    (kvs : List (String × JsonValue))
    (hN : nodupB (oNames items) = true)
    (hK : nodupB (kvs.map Prod.fst) = true)
    (hOrd : (oNames items).filter (fun n => kvs.any (fun e => e.1 == n))
        = (kvs.map Prod.fst).filter (fun s => (oNames items).contains s)) :
    propsO (updateObject (fuel + 1) items kvs)
      = kvs.map (fun e => (e.1, convergeProp (updatePropertyValue fuel) items e)) :=
  objCore_c2 (updatePropertyValue fuel) items kvs ((nodupB_iff _).mp hN)
    ((nodupB_iff _).mp hK) hOrd

/-- Witness for the amended C2: original `{"a": 1, /* x */ "b": 2, "c": 3}`
with target `{"a": 5, "x": "hi", "c": 3}` — shared keys `a`, `c` in matching
relative order; the output is exactly the target's entries in target order. -/
theorem C2_target_order_amended_witness :
    nodupB (oNames [OItem.prop "a" (.numLit 1), OItem.trivia (.comment "// x"),
        OItem.prop "b" (.numLit 2), OItem.prop "c" (.numLit 3)]) = true ∧
    nodupB (([("a", JsonValue.num 5), ("x", JsonValue.str "hi"),
        ("c", JsonValue.num 3)]).map Prod.fst) = true ∧
    (oNames [OItem.prop "a" (.numLit 1), OItem.trivia (.comment "// x"),
        OItem.prop "b" (.numLit 2), OItem.prop "c" (.numLit 3)]).filter
        (fun n => ([("a", JsonValue.num 5), ("x", JsonValue.str "hi"),
            ("c", JsonValue.num 3)]).any (fun e => e.1 == n))
      = (([("a", JsonValue.num 5), ("x", JsonValue.str "hi"),
            ("c", JsonValue.num 3)]).map Prod.fst).filter
          (fun s => (oNames [OItem.prop "a" (.numLit 1),
              OItem.trivia (.comment "// x"), OItem.prop "b" (.numLit 2),
              OItem.prop "c" (.numLit 3)]).contains s) ∧
    propsO (updateObject 4 [OItem.prop "a" (.numLit 1),
        OItem.trivia (.comment "// x"), OItem.prop "b" (.numLit 2),
        OItem.prop "c" (.numLit 3)]
        [("a", JsonValue.num 5), ("x", JsonValue.str "hi"), ("c", JsonValue.num 3)])
      = ([("a", JsonValue.num 5), ("x", JsonValue.str "hi"),
          ("c", JsonValue.num 3)]).map
          (fun e => (e.1, convergeProp (updatePropertyValue 3)
            [OItem.prop "a" (.numLit 1), OItem.trivia (.comment "// x"),
              OItem.prop "b" (.numLit 2), OItem.prop "c" (.numLit 3)] e)) :=
  ⟨by rfl, by rfl, by rfl,
    C2_target_order_amended 3
      [OItem.prop "a" (.numLit 1), OItem.trivia (.comment "// x"),
        OItem.prop "b" (.numLit 2), OItem.prop "c" (.numLit 3)]
      [("a", JsonValue.num 5), ("x", JsonValue.str "hi"), ("c", JsonValue.num 3)]
      (by rfl) (by rfl) (by rfl)⟩

end JsoncWeaver
